import Mathlib

/-!
# Ravelin `SparseMatrixN` : a shallow embedding and its verification

The compressed-row sparse matrix of `src/SparseMatrixN.cpp` is embedded as follows.

* `REAL` is the field of rationals (exact arithmetic); the tolerance `EPS` is a parameter of
  every operation that uses it, since its definition is not part of the translated file.
* `unsigned` values are natural numbers.  Where the source subtracts, adds a shift to values
  it read from memory, multiplies two counts, or adds one to a size given by the caller
  (`m+1`, `n+1`, `row_capacity++`), the operation is taken modulo `2^32`
  (`usub`, `uadd`, `umul`).  The size `_rows+1` computed from a matrix whose offset array
  holds its `_rows+1` offsets (and `rend-rstart+1`, which is at most that) is a plain sum:
  every offset array is allocated with an `unsigned` size, so it has fewer than `2^32` cells
  and the sum does not wrap.
* A heap array (`shared_array<T>( new T[n] )`) is a list of `n` cells, each either uninitialised
  (`none`) or holding a value.  Reading outside the array, reading an uninitialised cell and
  writing outside the array are undefined behaviour of the source; the embedding returns `none`
  (or `Outcome.undefined`) there.
* A member function that mutates `*this` is a function from the state before the call to the
  state after the call; a `const` member function that fills a caller-supplied result container
  takes the container as an argument and returns its new state.  A call that may throw returns
  an `Outcome`; `NEXCEPT` tells whether the macro of that name is defined.
* The dense types `VECTORN` and `MATRIXN` and the standard map are external to the translated
  file; only the operations used by it are modelled.

Part I holds the embedding and the predicates used to state the properties, Part II the proofs.
-/

namespace Ravelin

/-! # Part I. The embedding -/

/-- The scalar type of the matrix (exact arithmetic over the rationals). -/
abbrev REAL := ℚ

/-! ## Heap arrays -/

/-- A heap array: one entry per allocated cell, `none` for a cell never written. -/
abbrev Cells (α : Type) := List (Option α)

/-- The array `new T[n]`: `n` cells, all uninitialised. -/
def newArray (α : Type) (n : Nat) : Cells α := List.replicate n none

/-- Reading `a[i]`: defined only inside the array and on an initialised cell. -/
def rd {α : Type} (a : Cells α) (i : Nat) : Option α := (a.get? i).join

/-- Writing `a[i] = x`: defined only inside the array. -/
def wr {α : Type} (a : Cells α) (i : Nat) (x : α) : Option (Cells α) :=
  if i < a.length then some (a.set i (some x)) else none

/-- The 32-bit modulus of `unsigned`. -/
def UMOD : Nat := 4294967296

/-- Addition of `unsigned` values. -/
def uadd (a b : Nat) : Nat := (a + b) % UMOD

/-- Subtraction of `unsigned` values. -/
def usub (a b : Nat) : Nat := (a % UMOD + UMOD - b % UMOD) % UMOD

/-- Multiplication of two `unsigned` values. -/
def umul (a b : Nat) : Nat := (a * b) % UMOD

/-! ## Loops -/

/-- The loop `for (i = lo; i < lo + n; i++) s = body i s`, stopping at the first undefined step. -/
def loopFrom {σ : Type} (body : Nat → σ → Option σ) : Nat → Nat → σ → Option σ
  | _, 0, s => some s
  | i, n + 1, s => (body i s).bind (loopFrom body (i + 1) n)

/-- The search loop `for (k = lo; k < lo + n; k++) if (a[k] == j) { ...; break; }`:
the first position of `j`, if any. -/
def findFrom (a : Cells Nat) (j : Nat) : Nat → Nat → Option (Option Nat)
  | _, 0 => some none
  | k, n + 1 => (rd a k).bind fun c => if c = j then some (some k) else findFrom a j (k + 1) n

/-! ## Outcomes of calls that may throw -/

/-- The exceptions thrown by the translated file. -/
inductive Exn where
  | MissizeException
  | InvalidIndexException
  deriving DecidableEq, Repr

/-- The outcome of a call: normal return with the mutated state, an exception together with the
state of the mutable object at the `throw`, or undefined behaviour. -/
inductive Outcome (σ : Type) where
  | done (s : σ)
  | thrown (e : Exn) (s : σ)
  | undefined
  deriving DecidableEq

/-- Lifting of a body without `throw`. -/
def Outcome.ofOption {σ : Type} : Option σ → Outcome σ
  | some s => Outcome.done s
  | none => Outcome.undefined

/-! ## Dense operands -/

/-- Modelled from the spec: the dense vector type `VECTORN`, an external collaborator of which
only `size()`, `operator[]` and `set_zero(n)` are used; it is a list of reals. -/
abbrev VECTORN := List REAL

/-- Modelled from the spec: the dense matrix type `MATRIXN`, an external collaborator of which
only `rows()`, `columns()`, `operator()(i,j)` and `set_zero(m,n)` are used.  `cell i j` is the
content at row `i` and column `j`; only cells inside the dimensions are accessible. -/
structure MATRIXN where
  rows : Nat
  columns : Nat
  cell : Nat → Nat → REAL

/-- Modelled from the spec: `set_zero(m, n)` resizes to `m × n` and zero-fills. -/
def MATRIXN.set_zero (m n : Nat) : MATRIXN := ⟨m, n, fun _ _ => 0⟩

/-- Modelled from the spec: reading `M(i,j)`, defined inside the dimensions. -/
def MATRIXN.at (M : MATRIXN) (i j : Nat) : Option REAL :=
  if i < M.rows ∧ j < M.columns then some (M.cell i j) else none

/-- Modelled from the spec: the assignment `M(i,j) = x`, defined inside the dimensions. -/
def MATRIXN.put (M : MATRIXN) (i j : Nat) (x : REAL) : Option MATRIXN :=
  if i < M.rows ∧ j < M.columns then
    some { M with cell := fun a b => if a = i ∧ b = j then x else M.cell a b }
  else none

/-- The content of a dense matrix, row by row. -/
def MATRIXN.toLists (M : MATRIXN) : List (List REAL) :=
  (List.range M.rows).map fun i => (List.range M.columns).map fun j => M.cell i j

/-- Building a dense matrix from its rows (all of length `n`). -/
def MATRIXN.ofLists (n : Nat) (rows : List (List REAL)) : MATRIXN :=
  ⟨rows.length, n, fun i j => (rows.getD i []).getD j 0⟩

/-! ## The sparse matrix -/

/-- The data members of `SPARSEMATRIXN`. -/
structure SPARSEMATRIXN where
  _rows : Nat
  _columns : Nat
  _nnz : Nat
  _nnz_capacity : Nat
  _row_capacity : Nat
  _ptr : Cells Nat
  _indices : Cells Nat
  _data : Cells REAL
  deriving DecidableEq

namespace SPARSEMATRIXN

/-- The default constructor `SPARSEMATRIXN()`: all counters zero, the three arrays null. -/
def ctor : SPARSEMATRIXN :=
  { _rows := 0, _columns := 0, _nnz := 0, _nnz_capacity := 0, _row_capacity := 0,
    _ptr := [], _indices := [], _data := [] }

/-- The static function `identity(n)`. -/
def identity (n : Nat) : Option SPARSEMATRIXN :=
  let m : SPARSEMATRIXN :=
    { ctor with
      _rows := n, _columns := n, _nnz_capacity := n, _row_capacity := uadd n 1,
      _data := newArray REAL n, _ptr := newArray Nat (uadd n 1), _indices := newArray Nat n }
  (loopFrom (fun i (m : SPARSEMATRIXN) =>
      (wr m._data i 1).bind fun d =>
      (wr m._indices i i).bind fun ix =>
      (wr m._ptr i i).bind fun p =>
      some { m with _data := d, _indices := ix, _ptr := p }) 0 n m).bind fun m =>
  (wr m._ptr n n).bind fun p =>
  some { m with _ptr := p, _nnz := n }

/-- The member function `to_dense(m)`; the previous content of `m` is discarded by `set_zero`. -/
def to_dense (A : SPARSEMATRIXN) (_m : MATRIXN) : Option MATRIXN :=
  loopFrom (fun row m =>
      (rd A._ptr row).bind fun lo =>
      (rd A._ptr (row + 1)).bind fun hi =>
      loopFrom (fun k m =>
        (rd A._indices k).bind fun c =>
        (rd A._data k).bind fun x =>
        m.put row c x) lo (hi - lo) m)
    0 A._rows (MATRIXN.set_zero A._rows A._columns)

/-- The row offset read at position `i` (0 where the read is undefined). -/
def P (A : SPARSEMATRIXN) (i : Nat) : Nat := (rd A._ptr i).getD 0

/-- The column index read at slot `k` (0 where the read is undefined). -/
def I (A : SPARSEMATRIXN) (k : Nat) : Nat := (rd A._indices k).getD 0

/-- The value read at slot `k` (0 where the read is undefined). -/
def V (A : SPARSEMATRIXN) (k : Nat) : REAL := (rd A._data k).getD 0

/-- A valid sparse matrix: the offsets `0..rows` are initialised, start at 0, are non-decreasing
and end at `nnz`; the first `nnz` slots of the index and value arrays are initialised; in each
row the column indices are strictly ascending, and all are below `columns`. -/
def Valid (A : SPARSEMATRIXN) : Prop :=
  (∀ i, i < A._rows + 1 → (rd A._ptr i).isSome = true) ∧
  A.P 0 = 0 ∧
  (∀ i, i < A._rows → A.P i ≤ A.P (i + 1)) ∧
  A.P A._rows = A._nnz ∧
  (∀ k, k < A._nnz → (rd A._indices k).isSome = true ∧ (rd A._data k).isSome = true) ∧
  (∀ i, i < A._rows → ∀ k, k < A._nnz → A.P i ≤ k → k + 1 < A.P (i + 1) →
    A.I k < A.I (k + 1)) ∧
  (∀ k, k < A._nnz → A.I k < A._columns)

instance (A : SPARSEMATRIXN) : Decidable (Valid A) := by
  unfold Valid; infer_instance

/-- The dense content described by the arrays at row `r`, column `c`: the sum of the values
stored in row `r` under column index `c`. -/
def entry (A : SPARSEMATRIXN) (r c : Nat) : REAL :=
  ∑ k ∈ Finset.Ico (A.P r) (A.P (r + 1)), if A.I k = c then A.V k else 0

end SPARSEMATRIXN

/-- Modelled from the spec: `VECTORN::set_zero(n)` resizes to `n` and zero-fills. -/
def VECTORN.set_zero (n : Nat) : VECTORN := List.replicate n 0

/-- Modelled from the spec: the update `v[i] += d` of a dense vector, defined inside its size. -/
def VECTORN.addAt (v : VECTORN) (i : Nat) (d : REAL) : Option VECTORN :=
  if i < v.length then some (v.set i (v.getD i 0 + d)) else none

/-- Modelled from the spec: the update `M(i,j) += d` of a dense matrix. -/
def MATRIXN.addAt (M : MATRIXN) (i j : Nat) (d : REAL) : Option MATRIXN :=
  (M.at i j).bind fun old => M.put i j (old + d)

namespace SPARSEMATRIXN

/-- The member function `mult(const VECTORN& x, VECTORN& result)`.  `NEXCEPT` tells whether the
macro of that name is defined (the size check is then compiled out). -/
def mult_VECTORN (NEXCEPT : Bool) (A : SPARSEMATRIXN) (x : VECTORN) (result : VECTORN) :
    Outcome VECTORN :=
  if NEXCEPT = false ∧ A._columns ≠ x.length then
    Outcome.thrown Exn.MissizeException result
  else
    Outcome.ofOption <|
      loopFrom (fun row res =>
          (rd A._ptr row).bind fun row_start =>
          (rd A._ptr (row + 1)).bind fun row_end =>
          (loopFrom (fun jj dot =>
              (rd A._data jj).bind fun d =>
              (rd A._indices jj).bind fun c =>
              (x.get? c).bind fun xc =>
              some (dot + d * xc)) row_start (row_end - row_start) 0).bind fun dot =>
          VECTORN.addAt res row dot)
        0 A._rows (VECTORN.set_zero A._rows)

/-- The member function `transpose_mult(const VECTORN& x, VECTORN& result)`. -/
def transpose_mult_VECTORN (NEXCEPT : Bool) (A : SPARSEMATRIXN) (x : VECTORN)
    (result : VECTORN) : Outcome VECTORN :=
  if NEXCEPT = false ∧ A._rows ≠ x.length then
    Outcome.thrown Exn.MissizeException result
  else
    Outcome.ofOption <|
      loopFrom (fun row res =>
          (rd A._ptr row).bind fun lo =>
          (rd A._ptr (row + 1)).bind fun hi =>
          loopFrom (fun k res =>
              (rd A._indices k).bind fun c =>
              (rd A._data k).bind fun d =>
              (x.get? row).bind fun xr =>
              VECTORN.addAt res c (d * xr)) lo (hi - lo) res)
        0 A._rows (VECTORN.set_zero A._columns)

/-- The member function `mult(const MATRIXN& m, MATRIXN& result)`. -/
def mult_MATRIXN (NEXCEPT : Bool) (A : SPARSEMATRIXN) (m : MATRIXN) (result : MATRIXN) :
    Outcome MATRIXN :=
  if NEXCEPT = false ∧ A._columns ≠ m.rows then
    Outcome.thrown Exn.MissizeException result
  else
    Outcome.ofOption <|
      loopFrom (fun col res =>
          loopFrom (fun row res =>
              (rd A._ptr row).bind fun row_start =>
              (rd A._ptr (row + 1)).bind fun row_end =>
              (loopFrom (fun jj dot =>
                  (rd A._data jj).bind fun d =>
                  (rd A._indices jj).bind fun c =>
                  (m.at c col).bind fun mc =>
                  some (dot + d * mc)) row_start (row_end - row_start) 0).bind fun dot =>
              MATRIXN.addAt res row col dot)
            0 A._rows res)
        0 m.columns (MATRIXN.set_zero A._rows m.columns)

/-- The member function `transpose_mult(const MATRIXN& m, MATRIXN& result)`. -/
def transpose_mult_MATRIXN (NEXCEPT : Bool) (A : SPARSEMATRIXN) (m : MATRIXN)
    (result : MATRIXN) : Outcome MATRIXN :=
  if NEXCEPT = false ∧ A._rows ≠ m.rows then
    Outcome.thrown Exn.MissizeException result
  else
    Outcome.ofOption <|
      loopFrom (fun col res =>
          loopFrom (fun row res =>
              (rd A._ptr row).bind fun lo =>
              (rd A._ptr (row + 1)).bind fun hi =>
              loopFrom (fun k res =>
                  (rd A._indices k).bind fun c =>
                  (rd A._data k).bind fun d =>
                  (m.at row col).bind fun mrc =>
                  MATRIXN.addAt res c col (d * mrc)) lo (hi - lo) res)
            0 A._rows res)
        0 m.columns (MATRIXN.set_zero A._columns m.columns)

/-- The search `for (k=_ptr[i]; k< _ptr[i+1]; k++) if (_indices[k] == j) { ...; break; }` of
column `j` in row `i`: the slot found, if any. -/
def findInRow (A : SPARSEMATRIXN) (i j : Nat) : Option (Option Nat) :=
  (rd A._ptr i).bind fun lo =>
  (rd A._ptr (i + 1)).bind fun hi =>
  findFrom A._indices j lo (hi - lo)

/-- The first pass of `operator+=` and `operator-=`: the number `nz` of grid positions stored in
`*this` or in `m`. -/
def countUnion (A m : SPARSEMATRIXN) : Option Nat :=
  loopFrom (fun i nz =>
      loopFrom (fun j nz =>
          (findInRow A i j).bind fun f =>
          match f with
          | some _ => some (nz + 1)
          | none =>
            (findInRow m i j).bind fun g =>
            match g with
            | some _ => some (nz + 1)
            | none => some nz)
        0 A._columns nz)
    0 A._rows 0

/-- The in-place pass taken when `nz == _ptr[_rows]`: `_data[r] += m._data[k]` (or `-=`, as given
by `comb`) where `r` counts the positions of `*this` met so far.  The state is `(_data, r)`. -/
def fastPath (comb : REAL → REAL → REAL) (A m : SPARSEMATRIXN) : Option (Cells REAL × Nat) :=
  loopFrom (fun i s =>
      loopFrom (fun j (s : Cells REAL × Nat) =>
          (findInRow A i j).bind fun f =>
          (findInRow m i j).bind fun g =>
          (match g with
            | some k =>
              (rd s.1 s.2).bind fun old =>
              (rd m._data k).bind fun b =>
              wr s.1 s.2 (comb old b)
            | none => some s.1).bind fun d =>
          some (d, if f.isSome then s.2 + 1 else s.2))
        0 A._columns s)
    0 A._rows (A._data, 0)

/-- The statement `a[i]++`. -/
def incrAt (a : Cells Nat) (i : Nat) : Option (Cells Nat) :=
  (rd a i).bind fun v => wr a i (v + 1)

/-- The pass of the rebuild path that fills `nptr`. -/
def rebuildPtr (A m : SPARSEMATRIXN) : Option (Cells Nat) :=
  (wr (newArray Nat (A._rows + 1)) 0 0).bind fun nptr =>
  loopFrom (fun i nptr =>
      (rd nptr i).bind fun v =>
      (wr nptr (i + 1) v).bind fun nptr =>
      loopFrom (fun j nptr =>
          (findInRow A i j).bind fun f =>
          match f with
          | some _ => incrAt nptr (i + 1)
          | none =>
            (findInRow m i j).bind fun g =>
            match g with
            | some _ => incrAt nptr (i + 1)
            | none => some nptr)
        0 A._columns nptr)
    0 A._rows nptr

/-- The state of the pass that fills `nindices` and `ndata`. -/
structure Merged where
  nindices : Cells Nat
  ndata : Cells REAL
  nz : Nat

/-- The pass of the rebuild path that fills `nindices` and `ndata`; `comb` is `+=` or `-=` on a
position stored in both operands, `solo` the value copied for a position stored in `m` only. -/
def rebuildData (comb : REAL → REAL → REAL) (solo : REAL → REAL) (A m : SPARSEMATRIXN)
    (nz : Nat) : Option Merged :=
  loopFrom (fun i s =>
      loopFrom (fun j (s : Merged) =>
          (findInRow A i j).bind fun f =>
          (match f with
            | some k =>
              (rd A._data k).bind fun x =>
              (wr s.ndata s.nz x).bind fun nd =>
              (rd A._indices k).bind fun c =>
              (wr s.nindices s.nz c).bind fun ni =>
              some ({ s with nindices := ni, ndata := nd }, true)
            | none => some (s, false)).bind fun (sf : Merged × Bool) =>
          (findInRow m i j).bind fun g =>
          (match g with
            | some k =>
              if sf.2 then
                (rd sf.1.ndata sf.1.nz).bind fun old =>
                (rd m._data k).bind fun b =>
                (wr sf.1.ndata sf.1.nz (comb old b)).bind fun nd =>
                some ({ sf.1 with ndata := nd }, true)
              else
                (rd m._data k).bind fun b =>
                (wr sf.1.ndata sf.1.nz (solo b)).bind fun nd =>
                (rd m._indices k).bind fun c =>
                (wr sf.1.nindices sf.1.nz c).bind fun ni =>
                some ({ sf.1 with nindices := ni, ndata := nd }, true)
            | none => some sf).bind fun (sg : Merged × Bool) =>
          some (if sg.2 then { sg.1 with nz := sg.1.nz + 1 } else sg.1))
        0 A._columns s)
    0 A._rows { nindices := newArray Nat nz, ndata := newArray REAL nz, nz := 0 }

/-- The common body of `operator+=` and `operator-=`, which differ only in the three statements
given by `comb` and `solo`.  The operand `m` is an object distinct from `*this`. -/
def addSub (comb : REAL → REAL → REAL) (solo : REAL → REAL) (NEXCEPT : Bool)
    (A m : SPARSEMATRIXN) : Outcome SPARSEMATRIXN :=
  if NEXCEPT = false ∧ (A._rows ≠ m._rows ∨ A._columns ≠ m._columns) then
    Outcome.thrown Exn.MissizeException A
  else
    Outcome.ofOption <|
      (countUnion A m).bind fun nz =>
      (rd A._ptr A._rows).bind fun last =>
      if nz = last then
        (fastPath comb A m).bind fun s => some { A with _data := s.1 }
      else
        (rebuildPtr A m).bind fun nptr =>
        (rebuildData comb solo A m nz).bind fun s =>
        some { A with _ptr := nptr, _indices := s.nindices, _data := s.ndata, _nnz := s.nz }

/-- The member function `operator+=(const SPARSEMATRIXN& m)`. -/
def operator_plus_eq (NEXCEPT : Bool) (A m : SPARSEMATRIXN) : Outcome SPARSEMATRIXN :=
  addSub (fun a b => a + b) (fun b => b) NEXCEPT A m

/-- The member function `operator-=(const SPARSEMATRIXN& m)`. -/
def operator_minus_eq (NEXCEPT : Bool) (A m : SPARSEMATRIXN) : Outcome SPARSEMATRIXN :=
  addSub (fun a b => a - b) (fun b => -b) NEXCEPT A m

/-- Position `(i,j)` is stored in `A`: some slot of row `i` holds column index `j`. -/
def stored (A : SPARSEMATRIXN) (i j : Nat) : Prop :=
  ∃ k ∈ Finset.Ico (A.P i) (A.P (i + 1)), A.I k = j

instance (A : SPARSEMATRIXN) (i j : Nat) : Decidable (stored A i j) := by
  unfold stored; infer_instance

/-- The number of columns below `j` at which row `i` of `A` or of `B` stores a value. -/
def ucnt (A B : SPARSEMATRIXN) (i j : Nat) : Nat :=
  ((Finset.range j).filter fun c => stored A i c ∨ stored B i c).card

/-- The number of positions in the rows below `i` stored in `A` or in `B`. -/
def uoff (A B : SPARSEMATRIXN) (i : Nat) : Nat :=
  ∑ r ∈ Finset.range i, ucnt A B r A._columns

/-- The invariant of the in-place pass before position `(i,j)`: `s.2` is the first slot of row
`i` whose column is not below `j`, and the slots before it are updated. -/
def FastInv (solo : REAL → REAL) (A B : SPARSEMATRIXN) (i j : Nat) (s : Cells REAL × Nat) :
    Prop :=
  (A.P i ≤ s.2 ∧ s.2 ≤ A.P (i + 1)) ∧
  (∀ k, A.P i ≤ k → k < s.2 → A.I k < j) ∧
  (∀ k, s.2 ≤ k → k < A.P (i + 1) → j ≤ A.I k) ∧
  (∀ r, r < A._rows → ∀ k, A.P r ≤ k → k < A.P (r + 1) →
    rd s.1 k = some (if k < s.2 then A.V k + solo (B.entry r (A.I k)) else A.V k))

/-- The column index held by slot `k` of the arrays under construction. -/
def Merged.Ix (s : Merged) (k : Nat) : Nat := (rd s.nindices k).getD 0

/-- The value held by slot `k` of the arrays under construction. -/
def Merged.Vx (s : Merged) (k : Nat) : REAL := (rd s.ndata k).getD 0

/-- The invariant of the pass filling `nindices` and `ndata`, before position `(i,j)`: the rows
below `i` are complete, row `i` holds the merged positions with column below `j`. -/
structure RebuildInv (solo : REAL → REAL) (A B : SPARSEMATRIXN) (i j : Nat) (s : Merged) :
    Prop where
  len_i : s.nindices.length = uoff A B A._rows
  len_d : s.ndata.length = uoff A B A._rows
  nz_eq : s.nz = uoff A B i + ucnt A B i j
  init : ∀ k, k < s.nz →
    (rd s.nindices k).isSome = true ∧ (rd s.ndata k).isSome = true ∧ s.Ix k < A._columns
  asc_done : ∀ r, r < i → ∀ k, uoff A B r ≤ k → k + 1 < uoff A B (r + 1) →
    s.Ix k < s.Ix (k + 1)
  asc_cur : ∀ k, uoff A B i ≤ k → k + 1 < s.nz → s.Ix k < s.Ix (k + 1)
  cur_lt : ∀ k, uoff A B i ≤ k → k < s.nz → s.Ix k < j
  sum_done : ∀ r, r < i → ∀ c,
    ∑ k ∈ Finset.Ico (uoff A B r) (uoff A B (r + 1)), (if s.Ix k = c then s.Vx k else 0)
      = A.entry r c + solo (B.entry r c)
  sum_cur : ∀ c,
    ∑ k ∈ Finset.Ico (uoff A B i) s.nz, (if s.Ix k = c then s.Vx k else 0)
      = if c < j then A.entry i c + solo (B.entry i c) else 0

/-- A valid 2 × 3 matrix holding 2 at (0,0) and 3 at (1,2). -/
def sampleA : SPARSEMATRIXN :=
  { _rows := 2, _columns := 3, _nnz := 2, _nnz_capacity := 2, _row_capacity := 3,
    _ptr := [some 0, some 1, some 2], _indices := [some 0, some 2], _data := [some 2, some 3] }

/-- A valid 2 × 3 matrix holding 5 at (0,1) and 7 at (1,2). -/
def sampleB : SPARSEMATRIXN :=
  { _rows := 2, _columns := 3, _nnz := 2, _nnz_capacity := 2, _row_capacity := 3,
    _ptr := [some 0, some 1, some 2], _indices := [some 1, some 2], _data := [some 5, some 7] }

/-- A dense 3 × 2 matrix. -/
def sampleM : MATRIXN := MATRIXN.ofLists 2 [[1, 2], [3, 4], [5, 6]]

end SPARSEMATRIXN

/-! ## The coordinate map `std::map<std::pair<unsigned, unsigned>, REAL>` -/

/-- The ordering of `std::pair<unsigned, unsigned>`: lexicographic. -/
def keyLt (a b : Nat × Nat) : Prop := a.1 < b.1 ∨ (a.1 = b.1 ∧ a.2 < b.2)

instance (a b : Nat × Nat) : Decidable (keyLt a b) := by
  unfold keyLt; infer_instance

/-- The standard map from coordinates to values, as the list of its entries in iteration order
(ascending keys). -/
abbrev ValueMap := List ((Nat × Nat) × REAL)

/-- The assignment `values[key] = x`: the entry is inserted at its place in the order, or
overwritten if the key is present. -/
def ValueMap.assign : ValueMap → Nat × Nat → REAL → ValueMap
  | [], key, x => [(key, x)]
  | e :: t, key, x =>
    if keyLt key e.1 then (key, x) :: e :: t
    else if key = e.1 then (key, x) :: t
    else e :: ValueMap.assign t key x

/-- The test `values.find(key) != values.end()`. -/
def ValueMap.contains (values : ValueMap) (key : Nat × Nat) : Bool :=
  values.any fun e => e.1 = key

/-- A well-formed map: keys strictly ascending in iteration order. -/
def ValueMap.WF (values : ValueMap) : Prop :=
  List.Pairwise (fun a b => keyLt a.1 b.1) values

instance (values : ValueMap) : Decidable (ValueMap.WF values) := by
  unfold ValueMap.WF; infer_instance

/-- The key of the entry at position `t` of the iteration order. -/
def ValueMap.keyAt (values : ValueMap) (t : Nat) : Nat × Nat :=
  ((values.get? t).map Prod.fst).getD (0, 0)

/-- The value of the entry at position `t` of the iteration order. -/
def ValueMap.valAt (values : ValueMap) (t : Nat) : REAL :=
  ((values.get? t).map Prod.snd).getD 0

/-- The number of entries whose key is below `x`. -/
def ValueMap.rank (values : ValueMap) (x : Nat × Nat) : Nat :=
  values.countP fun e => decide (keyLt e.1 x)

namespace SPARSEMATRIXN

/-- The state of the loop of `set` that fills `_ptr` and `_indices`. -/
structure SetState where
  ptr : Cells Nat
  indices : Cells Nat
  j : Nat
  k : Nat

/-- The member function `set(m, n, values)`. -/
def set (A : SPARSEMATRIXN) (m n : Nat) (values : ValueMap) : Option SPARSEMATRIXN :=
  let nv := values.length
  (loopFrom (fun j data =>
      (values.get? j).bind fun e => wr data j e.2) 0 nv (newArray REAL nv)).bind fun data =>
  (wr (newArray Nat (uadd m 1)) 0 0).bind fun ptr =>
  (loopFrom (fun r st =>
      (loopFrom (fun s (st : SetState) =>
          if values.contains (r, s) then
            (wr st.indices st.k s).bind fun ix =>
            some { st with j := st.j + 1, k := st.k + 1, indices := ix }
          else some st) 0 n st).bind fun st =>
      (wr st.ptr (r + 1) st.j).bind fun p =>
      some { st with ptr := p })
    0 m { ptr := ptr, indices := newArray Nat nv, j := 0, k := 0 }).bind fun st =>
  some { A with
    _rows := m, _columns := n, _nnz_capacity := nv, _row_capacity := uadd m 1,
    _data := data, _ptr := st.ptr, _indices := st.indices, _nnz := nv }

/-- The constructor `SPARSEMATRIXN(m, n, values)`. -/
def ctor_map (m n : Nat) (values : ValueMap) : Option SPARSEMATRIXN :=
  set ctor m n values

/-- The constructor `SPARSEMATRIXN(const MATRIXN& m)`; `EPS` is the tolerance. -/
def ctor_MATRIXN (EPS : REAL) (m : MATRIXN) : Option SPARSEMATRIXN :=
  let A : SPARSEMATRIXN :=
    { _rows := m.rows, _columns := m.columns, _nnz := 0, _nnz_capacity := 0, _row_capacity := 0,
      _ptr := [], _indices := [], _data := [] }
  (loopFrom (fun i values =>
      loopFrom (fun j (values : ValueMap) =>
          (m.at i j).bind fun x =>
          if |x| > EPS then some (values.assign (i, j) x) else some values)
        0 m.columns values)
    0 m.rows []).bind fun values =>
  set A m.rows m.columns values

/-- The invariant of the scan of the dense matrix before cell `(i,j)`: the map holds, in
ascending order, exactly the cells before `(i,j)` whose magnitude exceeds `EPS`. -/
def ScanInv (EPS : REAL) (M : MATRIXN) (i j : Nat) (values : ValueMap) : Prop :=
  values.WF ∧
  (∀ e ∈ values, keyLt e.1 (i, j) ∧ e.1.1 < M.rows ∧ e.1.2 < M.columns ∧
    |M.cell e.1.1 e.1.2| > EPS ∧ e.2 = M.cell e.1.1 e.1.2) ∧
  (∀ r c, keyLt (r, c) (i, j) → c < M.columns → |M.cell r c| > EPS →
    ((r, c), M.cell r c) ∈ values)

end SPARSEMATRIXN

/-- The algorithm `std::copy(src+first, src+last, dst+d_first)` between two distinct arrays. -/
def copyCells {α : Type} (src : Cells α) (first last : Nat) (dst : Cells α) (d_first : Nat) :
    Option (Cells α) :=
  if first ≤ last then
    loopFrom (fun i dst => (rd src (first + i)).bind fun x => wr dst (d_first + i) x)
      0 (last - first) dst
  else none

/-- The algorithm `std::copy(a+first, a+last, a+d_first)` inside one array, front to back; the
destination must not start inside the source range. -/
def copyWithin {α : Type} (a : Cells α) (first last d_first : Nat) : Option (Cells α) :=
  if first ≤ last ∧ ¬ (first ≤ d_first ∧ d_first < last) then
    loopFrom (fun i a => (rd a (first + i)).bind fun x => wr a (d_first + i) x)
      0 (last - first) a
  else none

/-- The algorithm `std::copy_backward(a+first, a+last, a+d_last)` inside one array, back to
front; the destination must not end inside the source range, nor start before the array. -/
def copyBackwardWithin {α : Type} (a : Cells α) (first last d_last : Nat) : Option (Cells α) :=
  if first ≤ last ∧ ¬ (first < d_last ∧ d_last ≤ last) ∧ last - first ≤ d_last then
    loopFrom (fun i a => (rd a (last - 1 - i)).bind fun x => wr a (d_last - 1 - i) x)
      0 (last - first) a
  else none

/-- The algorithm `std::transform(a+first, a+last, a+first, op)` in place. -/
def transformWithin (a : Cells Nat) (first last : Nat) (op : Nat → Nat) : Option (Cells Nat) :=
  if first ≤ last then
    loopFrom (fun i a => (rd a (first + i)).bind fun x => wr a (first + i) (op x))
      0 (last - first) a
  else none

namespace SPARSEMATRIXN

/-- The member function `set_capacities(nnz_capacity, row_capacity, preserve)`. -/
def set_capacities (A : SPARSEMATRIXN) (nnz_capacity row_capacity : Nat) (preserve : Bool) :
    Option SPARSEMATRIXN :=
  let row_capacity := uadd row_capacity 1
  let row_capacity := if preserve then max row_capacity A._row_capacity else row_capacity
  let nnz_capacity := if preserve then max nnz_capacity A._nnz_capacity else nnz_capacity
  let new_data := newArray REAL nnz_capacity
  let new_ptr := newArray Nat row_capacity
  let new_indices := newArray Nat nnz_capacity
  if preserve = false then
    some { A with
      _nnz_capacity := nnz_capacity, _row_capacity := row_capacity, _data := new_data,
      _ptr := new_ptr, _indices := new_indices, _nnz := 0 }
  else
    (copyCells A._data 0 A._nnz new_data 0).bind fun new_data =>
    (copyCells A._ptr 0 (A._rows + 1) new_ptr 0).bind fun new_ptr =>
    (copyCells A._indices 0 A._nnz new_indices 0).bind fun new_indices =>
    some { A with
      _nnz_capacity := nnz_capacity, _row_capacity := row_capacity, _data := new_data,
      _ptr := new_ptr, _indices := new_indices }

/-- The state of the last loop of `set_row`. -/
structure RowFill where
  data : Cells REAL
  indices : Cells Nat
  j : Nat

/-- The member function `set_row(row, v)`; `EPS` is the tolerance. -/
def set_row (EPS : REAL) (NEXCEPT : Bool) (A : SPARSEMATRIXN) (row : Nat) (v : VECTORN) :
    Outcome SPARSEMATRIXN :=
  if NEXCEPT = false ∧ row ≥ A._rows then
    Outcome.thrown Exn.InvalidIndexException A
  else
    Outcome.ofOption <|
      let nnz_v := v.countP fun x => decide (x > EPS ∨ x < -EPS)
      (rd A._ptr (row + 1)).bind fun hi =>
      (rd A._ptr row).bind fun lo =>
      let nnz_row := usub hi lo
      (if nnz_v > nnz_row then
        let nextra := nnz_v - nnz_row
        (if A._nnz_capacity < uadd A._nnz nextra then
          A.set_capacities (uadd A._nnz nextra) A._row_capacity true
        else some A).bind fun A =>
        (rd A._ptr (row + 1)).bind fun p =>
        (copyBackwardWithin A._data p A._nnz (p + nextra)).bind fun data =>
        (copyBackwardWithin A._indices p A._nnz (p + nextra)).bind fun indices =>
        (transformWithin A._ptr (row + 1) (A._nnz + 1) fun x => uadd x nextra).bind fun ptr =>
        some { A with _data := data, _indices := indices, _ptr := ptr,
                      _nnz := uadd A._nnz nextra }
      else if nnz_v < nnz_row then
        let nfewer := nnz_row - nnz_v
        (rd A._ptr (row + 1)).bind fun p =>
        if p < nfewer then none else
        (copyWithin A._data p A._nnz (p - nfewer)).bind fun data =>
        (copyWithin A._indices p A._nnz (p - nfewer)).bind fun indices =>
        (transformWithin A._ptr (row + 1) (A._nnz + 1) fun x => usub x nfewer).bind fun ptr =>
        some { A with _data := data, _indices := indices, _ptr := ptr,
                      _nnz := usub A._nnz nfewer }
      else some A).bind fun A =>
      (rd A._ptr row).bind fun j =>
      (loopFrom (fun i (s : RowFill) =>
          (v.get? i).bind fun x =>
          if x > EPS ∨ x < -EPS then
            (wr s.data s.j x).bind fun d =>
            (wr s.indices s.j i).bind fun ix =>
            some { data := d, indices := ix, j := s.j + 1 }
          else some s)
        0 v.length { data := A._data, indices := A._indices, j := j }).bind fun s =>
      some { A with _data := s.data, _indices := s.indices }

/-- A valid 3 × 3 matrix holding 1 at (0,0) and 9 at (2,2). -/
def sampleC : SPARSEMATRIXN :=
  { _rows := 3, _columns := 3, _nnz := 2, _nnz_capacity := 2, _row_capacity := 4,
    _ptr := [some 0, some 1, some 1, some 2], _indices := [some 0, some 2],
    _data := [some 1, some 9] }

/-- The state of `sampleC` after `set_row(0, [5,6,7])`, as computed by the source. -/
def sampleC_after : SPARSEMATRIXN :=
  { _rows := 3, _columns := 3, _nnz := 4, _nnz_capacity := 4, _row_capacity := 5,
    _ptr := [some 0, some 3, some 3, some 2, none], _indices := [some 0, some 1, some 2, none],
    _data := [some 5, some 6, some 7, none] }

/-- A valid 2 × 3 matrix holding 7 at (1,2), a position stored in `sampleA`. -/
def sampleD : SPARSEMATRIXN :=
  { _rows := 2, _columns := 3, _nnz := 1, _nnz_capacity := 1, _row_capacity := 3,
    _ptr := [some 0, some 0, some 1], _indices := [some 2], _data := [some 7] }

/-- The constructor `SPARSEMATRIXN(m, n, ptr, indices, data)`.  When its body starts, the
members `_ptr`, `_indices` and `_data` are default-constructed (null); the statement
`_nnz = _ptr[_rows]` reads the member `_ptr`, which is assigned from the argument `ptr` only
three statements later. -/
def ctor_arrays (m n : Nat) (ptr indices : Cells Nat) (data : Cells REAL) :
    Option SPARSEMATRIXN :=
  let _ptr : Cells Nat := []
  (rd _ptr m).bind fun nnz =>
  some
    { _rows := m, _columns := n, _nnz := nnz, _nnz_capacity := nnz, _row_capacity := m + 1,
      _data := data, _ptr := ptr, _indices := indices }

/-- The member function `operator*=(scalar)`. -/
def operator_times_eq (A : SPARSEMATRIXN) (scalar : REAL) : Option SPARSEMATRIXN :=
  (rd A._ptr A._rows).bind fun n =>
  (loopFrom (fun i data => (rd data i).bind fun x => wr data i (x * scalar)) 0 n A._data).bind
    fun data =>
  some { A with _data := data }

/-- The member function `negate()`. -/
def negate (A : SPARSEMATRIXN) : Option SPARSEMATRIXN :=
  (rd A._ptr A._rows).bind fun n =>
  (loopFrom (fun i data => (rd data i).bind fun x => wr data i (-x)) 0 n A._data).bind
    fun data =>
  some { A with _data := data }

/-- The state of `sampleA` after `sampleA += sampleB` (rebuild path): three stored values, the
capacity fields of `sampleA`. -/
def sampleE : SPARSEMATRIXN :=
  { _rows := 2, _columns := 3, _nnz := 3, _nnz_capacity := 2, _row_capacity := 3,
    _ptr := [some 0, some 2, some 3], _indices := [some 0, some 1, some 2],
    _data := [some 2, some 5, some 10] }

end SPARSEMATRIXN

/-- The member function `erase(key)` of the standard map. -/
def ValueMap.erase (values : ValueMap) (key : Nat × Nat) : ValueMap :=
  values.filter fun e => decide (e.1 ≠ key)

/-- Modelled from the spec: the sparse vector type `SPARSEVECTORN`, an external collaborator:
dimension, number of stored entries, and the parallel index and value arrays it adopts. -/
structure SPARSEVECTORN where
  size : Nat
  nelm : Nat
  indices : Cells Nat
  data : Cells REAL
  deriving DecidableEq

namespace SPARSEMATRIXN

/-- Modelled from the spec: the constructor `SPARSEMATRIXN(m, n)`, declared outside the
translated file: an `m × n` matrix without storage. -/
def ctor_mn (m n : Nat) : SPARSEMATRIXN :=
  { ctor with _rows := m, _columns := n }

/-- The member function `get_values(values)`. -/
def get_values (A : SPARSEMATRIXN) (_values : ValueMap) : Option ValueMap :=
  loopFrom (fun i values =>
      (rd A._ptr i).bind fun lo =>
      (rd A._ptr (i + 1)).bind fun hi =>
      loopFrom (fun j (values : ValueMap) =>
          (rd A._indices (lo + j)).bind fun c =>
          (rd A._data (lo + j)).bind fun x =>
          some (values.assign (i, c) x))
        0 (usub hi lo) values)
    0 A._rows []

/-- The member function `set_column(col, v)`; `EPS` is the tolerance. -/
def set_column (EPS : REAL) (A : SPARSEMATRIXN) (col : Nat) (v : VECTORN) :
    Option SPARSEMATRIXN :=
  (A.get_values []).bind fun values =>
  (loopFrom (fun i (values : ValueMap) => some (values.erase (i, col))) 0 A._rows values).bind
    fun values =>
  (loopFrom (fun i (values : ValueMap) =>
      (v.get? i).bind fun x =>
      if x > EPS ∨ x < -EPS then some (values.assign (i, col) x) else some values)
    0 v.length values).bind fun values =>
  A.set A._rows A._columns values

/-- The state of the second pass of `get_column`. -/
structure ColFill where
  indices : Cells Nat
  data : Cells REAL
  elm : Nat

/-- The inner loop of the second pass of `get_column` on the slots `k, k+1, ..` of a row, with
its early exit `if (col > i) break;`. -/
def get_column_row (A : SPARSEMATRIXN) (i row : Nat) : Nat → Nat → ColFill → Option ColFill
  | _, 0, s => some s
  | k, n + 1, s =>
    (rd A._indices k).bind fun col =>
    if col > i then some s
    else if col = i then
      (wr s.indices s.elm row).bind fun ix =>
      (rd A._data k).bind fun x =>
      (wr s.data s.elm x).bind fun d =>
      get_column_row A i row (k + 1) n { indices := ix, data := d, elm := s.elm + 1 }
    else get_column_row A i row (k + 1) n s

/-- The first pass of `get_column`: the number of slots holding column `i`. -/
def get_column_count (A : SPARSEMATRIXN) (i : Nat) : Option Nat :=
  (rd A._ptr A._rows).bind fun n =>
  loopFrom (fun j nelm =>
      (rd A._indices j).bind fun c => some (if c = i then nelm + 1 else nelm))
    0 n 0

/-- The second pass of `get_column`: the rows and values collected into arrays of `nelm`
cells. -/
def get_column_fill (A : SPARSEMATRIXN) (i nelm : Nat) : Option ColFill :=
  loopFrom (fun row (s : ColFill) =>
      (rd A._ptr row).bind fun lo =>
      (rd A._ptr (row + 1)).bind fun hi =>
      get_column_row A i row lo (hi - lo) s)
    0 A._rows { indices := newArray Nat nelm, data := newArray REAL nelm, elm := 0 }

/-- The member function `get_column(i, column)`; the previous content of `column` is replaced.
On a throw the state carried is that of `column`. -/
def get_column (NEXCEPT : Bool) (A : SPARSEMATRIXN) (i : Nat) (column : SPARSEVECTORN) :
    Outcome SPARSEVECTORN :=
  if NEXCEPT = false ∧ i ≥ A._columns then
    Outcome.thrown Exn.InvalidIndexException column
  else
    Outcome.ofOption <|
      (A.get_column_count i).bind fun nelm =>
      (A.get_column_fill i nelm).bind fun s =>
      some { size := A._rows, nelm := nelm, indices := s.indices, data := s.data }

/-- The state of the last pass of `get_sub_mat`. -/
structure SubFill where
  ptr : Cells Nat
  indices : Cells Nat
  j : Nat

/-- The first pass of `get_sub_mat`: the number `nv` of values inside the ranges. -/
def get_sub_mat_count (A : SPARSEMATRIXN) (rstart rend cstart cend : Nat) : Option Nat :=
  loopFrom (fun row nv =>
      (rd A._ptr row).bind fun lo =>
      (rd A._ptr (row + 1)).bind fun hi =>
      loopFrom (fun col nv =>
          (rd A._indices col).bind fun c =>
          some (if cstart ≤ c ∧ c < cend then nv + 1 else nv))
        lo (hi - lo) nv)
    rstart (rend - rstart) 0

/-- The second pass of `get_sub_mat`: the values, with the running index `didx`. -/
def get_sub_mat_data (A : SPARSEMATRIXN) (rstart rend cstart cend nv : Nat) :
    Option (Cells REAL × Nat) :=
  loopFrom (fun row (s : Cells REAL × Nat) =>
      (rd A._ptr row).bind fun lo =>
      (rd A._ptr (row + 1)).bind fun hi =>
      loopFrom (fun col (s : Cells REAL × Nat) =>
          (rd A._indices col).bind fun c =>
          if cstart ≤ c ∧ c < cend then
            (rd A._data col).bind fun x =>
            (wr s.1 s.2 x).bind fun d => some (d, s.2 + 1)
          else some s)
        lo (hi - lo) s)
    rstart (rend - rstart) (newArray REAL nv, 0)

/-- The body of the inner loop of the last pass of `get_sub_mat` in row `row`. -/
def get_sub_mat_cell (A : SPARSEMATRIXN) (rstart cstart cend row col : Nat) (s : SubFill) :
    Option SubFill :=
  (rd A._indices col).bind fun c =>
  if cstart ≤ c ∧ c < cend then
    (incrAt s.ptr (row - rstart + 1)).bind fun ptr =>
    (wr s.indices s.j (usub c cstart)).bind fun ix =>
    some { ptr := ptr, indices := ix, j := s.j + 1 }
  else some s

/-- The body of the outer loop of the last pass of `get_sub_mat`. -/
def get_sub_mat_row (A : SPARSEMATRIXN) (rstart cstart cend row : Nat) (s : SubFill) :
    Option SubFill :=
  (rd s.ptr (row - rstart)).bind fun p =>
  (wr s.ptr (row - rstart + 1) p).bind fun ptr =>
  (rd A._ptr row).bind fun lo =>
  (rd A._ptr (row + 1)).bind fun hi =>
  loopFrom (get_sub_mat_cell A rstart cstart cend row) lo (hi - lo) { s with ptr := ptr }

/-- The last pass of `get_sub_mat`: the row offsets and the re-based column indices. -/
def get_sub_mat_ptr (A : SPARSEMATRIXN) (rstart rend cstart cend nv : Nat) : Option SubFill :=
  (wr (newArray Nat (usub rend rstart + 1)) 0 0).bind fun ptr =>
  loopFrom (get_sub_mat_row A rstart cstart cend) rstart (rend - rstart)
    { ptr := ptr, indices := newArray Nat nv, j := 0 }

/-- The member function `get_sub_mat(rstart, rend, cstart, cend)`.  On a throw the state
carried is that of `*this`. -/
def get_sub_mat (NEXCEPT : Bool) (A : SPARSEMATRIXN) (rstart rend cstart cend : Nat) :
    Outcome SPARSEMATRIXN :=
  let sub := ctor_mn (usub rend rstart) (usub cend cstart)
  if NEXCEPT = false ∧ (rend < rstart ∨ cend < cstart) then
    Outcome.thrown Exn.InvalidIndexException A
  else if NEXCEPT = false ∧ (rend > A._rows ∨ cend > A._columns) then
    Outcome.thrown Exn.InvalidIndexException A
  else
    Outcome.ofOption <|
      (A.get_sub_mat_count rstart rend cstart cend).bind fun nv =>
      (A.get_sub_mat_data rstart rend cstart cend nv).bind fun sd =>
      (A.get_sub_mat_ptr rstart rend cstart cend nv).bind fun s =>
      some { sub with _ptr := s.ptr, _indices := s.indices, _data := sd.1, _nnz := nv }

/-- The state of the last pass of `outer_square`. -/
structure OuterFill where
  indices : Cells Nat
  data : Cells REAL
  k : Nat

/-- The first two loops of `outer_square`: the flags `nz_elements` and the count `nz`. -/
def outer_square_nz (EPS : REAL) (x : VECTORN) : Option (Cells Bool × Nat) :=
  let n := x.length
  (loopFrom (fun i (e : Cells Bool) => wr e i false) 0 n (newArray Bool n)).bind fun e =>
  loopFrom (fun i (s : Cells Bool × Nat) =>
      (x.get? i).bind fun xi =>
      if |xi| > EPS then (wr s.1 i true).bind fun e => some (e, s.2 + 1) else some s)
    0 n (e, 0)

/-- The loop of `outer_square` that sets up `ptr`. -/
def outer_square_ptr (n : Nat) (nz_elements : Cells Bool) (nz : Nat) : Option (Cells Nat) :=
  (wr (newArray Nat (uadd n 1)) 0 0).bind fun ptr =>
  loopFrom (fun i (ptr : Cells Nat) =>
      (rd ptr i).bind fun p =>
      (wr ptr (i + 1) p).bind fun ptr =>
      (rd nz_elements i).bind fun b =>
      if b then (rd ptr (i + 1)).bind fun q => wr ptr (i + 1) (q + nz) else some ptr)
    0 n ptr

/-- The body of the inner loop of the last pass of `outer_square` in row `i`. -/
def outer_square_cell (x : VECTORN) (nz_elements : Cells Bool) (nz i j : Nat) (s : OuterFill) :
    Option OuterFill :=
  (rd nz_elements j).bind fun bj =>
  if bj = false then some s
  else if s.k < umul nz nz then
    (wr s.indices s.k j).bind fun ix =>
    (x.get? i).bind fun xi =>
    (x.get? j).bind fun xj =>
    (wr s.data s.k (xi * xj)).bind fun d =>
    some { indices := ix, data := d, k := s.k + 1 }
  else none

/-- The loops of `outer_square` that set up `indices` and `data`. -/
def outer_square_fill (x : VECTORN) (nz_elements : Cells Bool) (nz : Nat) : Option OuterFill :=
  let n := x.length
  loopFrom (fun i (s : OuterFill) =>
      (rd nz_elements i).bind fun bi =>
      if bi = false then some s
      else loopFrom (outer_square_cell x nz_elements nz i) 0 n s)
    0 n { indices := newArray Nat (umul nz nz), data := newArray REAL (umul nz nz), k := 0 }

/-- The static function `outer_square(const VECTORN& x, SPARSEMATRIXN& result)`; `EPS` is the
tolerance.  A failing `assert` ends the run (undefined). -/
def outer_square (EPS : REAL) (x : VECTORN) (result : SPARSEMATRIXN) : Option SPARSEMATRIXN :=
  let n := x.length
  (outer_square_nz EPS x).bind fun enz =>
  let nz_elements := enz.1
  let nz := enz.2
  (outer_square_ptr n nz_elements nz).bind fun ptr =>
  (outer_square_fill x nz_elements nz).bind fun s =>
  some { result with
    _rows := n, _columns := n, _ptr := ptr, _indices := s.indices, _data := s.data,
    _nnz := umul nz nz }

/-- The number of slots below `n` that hold column `i`. -/
def colCount (A : SPARSEMATRIXN) (i n : Nat) : Nat :=
  ∑ j ∈ Finset.range n, if A.I j = i then 1 else 0

/-- The number of rows below `r` that store a value in column `i`. -/
def rowCount (A : SPARSEMATRIXN) (i r : Nat) : Nat :=
  ∑ q ∈ Finset.range r, if stored A q i then 1 else 0

/-- A valid 3 × 4 matrix with six stored values:
`[[1, 0, 2, 0], [0, 3, 0, 0], [4, 0, 5, 6]]`. -/
def sampleF : SPARSEMATRIXN :=
  { _rows := 3, _columns := 4, _nnz := 6, _nnz_capacity := 6, _row_capacity := 4,
    _ptr := [some 0, some 2, some 3, some 6],
    _indices := [some 0, some 2, some 1, some 0, some 2, some 3],
    _data := [some 1, some 2, some 3, some 4, some 5, some 6] }

/-- The invariant of the second pass of `get_column` before row `row`. -/
structure ColInv (A : SPARSEMATRIXN) (i nelm row : Nat) (s : ColFill) : Prop where
  len_i : s.indices.length = nelm
  len_d : s.data.length = nelm
  elm_eq : s.elm = rowCount A i row
  cells : ∀ t, t < s.elm → ∃ r, r < row ∧ stored A r i ∧ rd s.indices t = some r ∧
    rd s.data t = some (A.entry r i)
  asc : ∀ t, t + 1 < s.elm → ∃ r1 r2, rd s.indices t = some r1 ∧
    rd s.indices (t + 1) = some r2 ∧ r1 < r2
  all : ∀ r, r < row → stored A r i → ∃ t, t < s.elm ∧ rd s.indices t = some r

/-- The invariant of `get_values`: the map is well-formed and holds exactly the entries of the
slots below `b`, each under the key (row of the slot, column of the slot). -/
def MapUpTo (A : SPARSEMATRIXN) (b : Nat) (values : ValueMap) : Prop :=
  values.WF ∧
  ∀ e, e ∈ values ↔
    ∃ r k, r < A._rows ∧ A.P r ≤ k ∧ k < A.P (r + 1) ∧ k < b ∧ e = ((r, A.I k), A.V k)

/-- Index `i` belongs to the support of `x`: the magnitude of `x[i]` exceeds `EPS`. -/
def supp (EPS : REAL) (x : VECTORN) (i : Nat) : Prop := |x.getD i 0| > EPS

instance (EPS : REAL) (x : VECTORN) (i : Nat) : Decidable (supp EPS x i) := by
  unfold supp; infer_instance

/-- The number of indices below `j` in the support of `x`. -/
def scnt (EPS : REAL) (x : VECTORN) (j : Nat) : Nat :=
  ∑ i ∈ Finset.range j, if supp EPS x i then 1 else 0

/-- The column index held by slot `t` of the arrays filled by `outer_square`. -/
def OuterFill.Ix (s : OuterFill) (t : Nat) : Nat := (rd s.indices t).getD 0

/-- The value held by slot `t` of the arrays filled by `outer_square`. -/
def OuterFill.Vx (s : OuterFill) (t : Nat) : REAL := (rd s.data t).getD 0

/-- The invariant of the last pass of `outer_square` before position `(i,j)`; `nz` is the size
of the support and row `r` starts at slot `nz * scnt r`. -/
structure OuterInv (EPS : REAL) (x : VECTORN) (nz i j : Nat) (s : OuterFill) : Prop where
  len_i : s.indices.length = nz * nz
  len_d : s.data.length = nz * nz
  k_eq : s.k = nz * scnt EPS x i + scnt EPS x j
  init : ∀ t, t < s.k →
    (rd s.indices t).isSome = true ∧ (rd s.data t).isSome = true ∧ s.Ix t < x.length
  asc_done : ∀ r, r < i → ∀ t, nz * scnt EPS x r ≤ t →
    t + 1 < nz * scnt EPS x (r + 1) → s.Ix t < s.Ix (t + 1)
  asc_cur : ∀ t, nz * scnt EPS x i ≤ t → t + 1 < s.k → s.Ix t < s.Ix (t + 1)
  cur_lt : ∀ t, nz * scnt EPS x i ≤ t → t < s.k → s.Ix t < j
  mem_done : ∀ r, r < i → ∀ c,
    (∃ t, nz * scnt EPS x r ≤ t ∧ t < nz * scnt EPS x (r + 1) ∧ s.Ix t = c) ↔
      (supp EPS x r ∧ supp EPS x c ∧ c < x.length)
  mem_cur : ∀ c,
    (∃ t, nz * scnt EPS x i ≤ t ∧ t < s.k ∧ s.Ix t = c) ↔ (supp EPS x c ∧ c < j)
  val_done : ∀ r, r < i → ∀ t, nz * scnt EPS x r ≤ t →
    t < nz * scnt EPS x (r + 1) → s.Vx t = x.getD r 0 * x.getD (s.Ix t) 0
  val_cur : ∀ t, nz * scnt EPS x i ≤ t → t < s.k →
    s.Vx t = x.getD i 0 * x.getD (s.Ix t) 0

/-- The number of slots in `[a, b)` whose column index is inside `[cstart, cend)`. -/
def subCnt (A : SPARSEMATRIXN) (cstart cend a b : Nat) : Nat :=
  ∑ t ∈ Finset.Ico a b, if cstart ≤ A.I t ∧ A.I t < cend then 1 else 0

/-- The invariant of the last pass of `get_sub_mat` in row `row`, before slot `col`; `a` is the
offset of row `rstart`. -/
structure SubInv (A : SPARSEMATRIXN) (rstart rend cstart cend row col : Nat) (s : SubFill) :
    Prop where
  len_p : s.ptr.length = rend - rstart + 1
  len_i : s.indices.length = subCnt A cstart cend (A.P rstart) (A.P rend)
  j_eq : s.j = subCnt A cstart cend (A.P rstart) col
  ptr_done : ∀ i, i ≤ row - rstart →
    rd s.ptr i = some (subCnt A cstart cend (A.P rstart) (A.P (rstart + i)))
  ptr_cur : rd s.ptr (row - rstart + 1) = some (subCnt A cstart cend (A.P rstart) col)
  cells : ∀ t, A.P rstart ≤ t → t < col → cstart ≤ A.I t → A.I t < cend →
    rd s.indices (subCnt A cstart cend (A.P rstart) t) = some (A.I t - cstart)

/-- The invariant of the last pass of `get_sub_mat` before row `row`. -/
structure SubRowInv (A : SPARSEMATRIXN) (rstart rend cstart cend row : Nat) (s : SubFill) :
    Prop where
  len_p : s.ptr.length = rend - rstart + 1
  len_i : s.indices.length = subCnt A cstart cend (A.P rstart) (A.P rend)
  j_eq : s.j = subCnt A cstart cend (A.P rstart) (A.P row)
  ptr_done : ∀ i, i ≤ row - rstart →
    rd s.ptr i = some (subCnt A cstart cend (A.P rstart) (A.P (rstart + i)))
  cells : ∀ t, A.P rstart ≤ t → t < A.P row → cstart ≤ A.I t → A.I t < cend →
    rd s.indices (subCnt A cstart cend (A.P rstart) t) = some (A.I t - cstart)

/-- A valid 3 × 3 matrix holding 1 at (0,0) and 2 at (0,1); rows 1 and 2 are empty. -/
def sampleG : SPARSEMATRIXN :=
  { _rows := 3, _columns := 3, _nnz := 2, _nnz_capacity := 2, _row_capacity := 4,
    _ptr := [some 0, some 2, some 2, some 2], _indices := [some 0, some 1],
    _data := [some 1, some 2] }

/-- The state of `sampleG` after `set_row(0, [5,0,0])`, as computed by the source. -/
def sampleG_after : SPARSEMATRIXN :=
  { _rows := 3, _columns := 3, _nnz := 1, _nnz_capacity := 2, _row_capacity := 4,
    _ptr := [some 0, some 1, some 1, some 2], _indices := [some 0, some 1],
    _data := [some 5, some 2] }

/-- A valid 1 × 3 matrix holding the row `[1, 2, 3]`; its offset array has two cells. -/
def sampleH : SPARSEMATRIXN :=
  { _rows := 1, _columns := 3, _nnz := 3, _nnz_capacity := 3, _row_capacity := 2,
    _ptr := [some 0, some 3], _indices := [some 0, some 1, some 2],
    _data := [some 1, some 2, some 3] }

/-- The invariant of the pass filling `nindices`, before position `(i,j)`: the column indices
held by a complete row, and by the part of row `i` built so far, are exactly the columns stored
in `A` or in `B`. -/
structure RebuildMem (A B : SPARSEMATRIXN) (i j : Nat) (s : Merged) : Prop where
  mem_done : ∀ r, r < i → ∀ c,
    (∃ k, uoff A B r ≤ k ∧ k < uoff A B (r + 1) ∧ s.Ix k = c) ↔ (stored A r c ∨ stored B r c)
  mem_cur : ∀ c,
    (∃ k, uoff A B i ≤ k ∧ k < s.nz ∧ s.Ix k = c) ↔ (c < j ∧ (stored A i c ∨ stored B i c))

/-- The capacity invariant: `nnzCapacity ≥ nnz` and `rowCapacity ≥ rows + 1`. -/
def CapacityInv (A : SPARSEMATRIXN) : Prop :=
  A._nnz ≤ A._nnz_capacity ∧ A._rows + 1 ≤ A._row_capacity

instance (A : SPARSEMATRIXN) : Decidable (CapacityInv A) := by
  unfold CapacityInv; infer_instance

/-- A valid 3 × 3 matrix holding 4 at (2,2), a position stored in `sampleC`. -/
def sampleI : SPARSEMATRIXN :=
  { _rows := 3, _columns := 3, _nnz := 1, _nnz_capacity := 1, _row_capacity := 4,
    _ptr := [some 0, some 0, some 0, some 1], _indices := [some 2], _data := [some 4] }

end SPARSEMATRIXN

/-! # Part II. Verification -/

/-! ## Basic facts on arrays and loops -/

theorem rd_eq_some_iff {α : Type} (a : Cells α) (i : Nat) (x : α) :
    rd a i = some x ↔ a.get? i = some (some x) := by
  unfold rd
  cases h : a.get? i with
  | none => simp
  | some o => cases o <;> simp

theorem rd_lt {α : Type} {a : Cells α} {i : Nat} {x : α} (h : rd a i = some x) :
    i < a.length := by
  rw [rd_eq_some_iff] at h
  exact (List.get?_eq_some.mp h).1

theorem wr_of_lt {α : Type} (a : Cells α) {i : Nat} (x : α) (h : i < a.length) :
    wr a i x = some (a.set i (some x)) := by
  simp [wr, h]

theorem wr_length {α : Type} {a b : Cells α} {i : Nat} {x : α} (h : wr a i x = some b) :
    b.length = a.length := by
  unfold wr at h
  split at h
  · cases h; simp
  · cases h

theorem rd_set_same {α : Type} (a : Cells α) {i : Nat} (x : α) (h : i < a.length) :
    rd (a.set i (some x)) i = some x := by
  simp [rd, List.get?_eq_getElem?, h]

theorem rd_set_other {α : Type} (a : Cells α) {i j : Nat} (x : α) (h : j ≠ i) :
    rd (a.set i (some x)) j = rd a j := by
  simp [rd, List.get?_eq_getElem?, List.getElem?_set_ne (Ne.symm h)]

theorem rd_newArray {α : Type} (n i : Nat) : rd (newArray α n) i = none := by
  unfold rd newArray
  by_cases h : i < n
  · simp [List.get?_eq_getElem?, List.getElem?_replicate, h]
  · simp [List.get?_eq_getElem?, List.getElem?_replicate, h]

/-- Total correctness of a counted loop from an invariant. -/
theorem loopFrom_inv {σ : Type} (body : Nat → σ → Option σ) (Inv : Nat → σ → Prop)
    (lo n : Nat)
    (hstep : ∀ i s, lo ≤ i → i < lo + n → Inv i s →
      ∃ s', body i s = some s' ∧ Inv (i + 1) s')
    (s : σ) (h0 : Inv lo s) :
    ∃ s', loopFrom body lo n s = some s' ∧ Inv (lo + n) s' := by
  induction n generalizing lo s with
  | zero => exact ⟨s, rfl, h0⟩
  | succ n ih =>
    obtain ⟨s1, hb, h1⟩ := hstep lo s (le_refl _) (by omega) h0
    obtain ⟨s2, hl, h2⟩ := ih (lo + 1)
      (fun i t hi hlt hinv => hstep i t (by omega) (by omega) hinv) s1 h1
    refine ⟨s2, ?_, ?_⟩
    · simp [loopFrom, hb, hl]
    · have : lo + (n + 1) = lo + 1 + n := by omega
      rw [this]; exact h2

namespace SPARSEMATRIXN

theorem Valid.rd_ptr {A : SPARSEMATRIXN} (h : Valid A) {i : Nat} (hi : i ≤ A._rows) :
    rd A._ptr i = some (A.P i) := by
  have := h.1 i (by omega)
  unfold P
  cases hr : rd A._ptr i with
  | none => simp [hr] at this
  | some x => simp

theorem Valid.rd_indices {A : SPARSEMATRIXN} (h : Valid A) {k : Nat} (hk : k < A._nnz) :
    rd A._indices k = some (A.I k) := by
  have := (h.2.2.2.2.1 k hk).1
  unfold I
  cases hr : rd A._indices k with
  | none => simp [hr] at this
  | some x => simp

theorem Valid.rd_data {A : SPARSEMATRIXN} (h : Valid A) {k : Nat} (hk : k < A._nnz) :
    rd A._data k = some (A.V k) := by
  have := (h.2.2.2.2.1 k hk).2
  unfold V
  cases hr : rd A._data k with
  | none => simp [hr] at this
  | some x => simp

theorem Valid.P_mono {A : SPARSEMATRIXN} (h : Valid A) {i j : Nat} (hij : i ≤ j)
    (hj : j ≤ A._rows) : A.P i ≤ A.P j := by
  induction j with
  | zero =>
    have : i = 0 := by omega
    subst this; exact le_refl _
  | succ j ih =>
    rcases Nat.eq_or_lt_of_le hij with h1 | h1
    · subst h1; exact le_refl _
    · exact le_trans (ih (by omega) (by omega)) (h.2.2.1 j (by omega))

theorem Valid.P_le_nnz {A : SPARSEMATRIXN} (h : Valid A) {i : Nat} (hi : i ≤ A._rows) :
    A.P i ≤ A._nnz := by
  have := h.P_mono hi (le_refl _)
  rw [h.2.2.2.1] at this; exact this

theorem Valid.I_lt {A : SPARSEMATRIXN} (h : Valid A) {r : Nat} (hr : r < A._rows)
    {k1 k2 : Nat} (h1 : A.P r ≤ k1) (h12 : k1 < k2) (h2 : k2 < A.P (r + 1)) :
    A.I k1 < A.I k2 := by
  have hn := h.P_le_nnz (i := r + 1) (by omega)
  induction k2 with
  | zero => omega
  | succ k ih =>
    have hs := h.2.2.2.2.2.1 r hr k (by omega)
    rcases Nat.eq_or_lt_of_le (Nat.lt_succ_iff.mp h12) with e | e
    · subst e; exact hs h1 h2
    · exact lt_trans (ih e (by omega)) (hs (by omega) h2)

theorem Valid.I_inj {A : SPARSEMATRIXN} (h : Valid A) {r : Nat} (hr : r < A._rows)
    {k1 k2 : Nat} (h1 : A.P r ≤ k1) (h1' : k1 < A.P (r + 1)) (h2 : A.P r ≤ k2)
    (h2' : k2 < A.P (r + 1)) (e : A.I k1 = A.I k2) : k1 = k2 := by
  rcases Nat.lt_trichotomy k1 k2 with c | c | c
  · have := h.I_lt hr h1 c h2'; omega
  · exact c
  · have := h.I_lt hr h2 c h1'; omega

/-- In a valid matrix, a slot of row `r` holding column `c` carries the whole entry `(r,c)`. -/
theorem Valid.entry_of_slot {A : SPARSEMATRIXN} (h : Valid A) {r : Nat} (hr : r < A._rows)
    {k : Nat} (h1 : A.P r ≤ k) (h2 : k < A.P (r + 1)) : A.entry r (A.I k) = A.V k := by
  unfold entry
  rw [Finset.sum_eq_single k]
  · simp
  · intro b hb hne
    have hb := Finset.mem_Ico.mp hb
    have : A.I b ≠ A.I k := fun e => hne (h.I_inj hr hb.1 hb.2 h1 h2 e)
    simp [this]
  · intro hk
    exact absurd (Finset.mem_Ico.mpr ⟨h1, h2⟩) hk

theorem entry_of_no_slot (A : SPARSEMATRIXN) (r c : Nat)
    (h : ∀ k, A.P r ≤ k → k < A.P (r + 1) → A.I k ≠ c) : A.entry r c = 0 := by
  unfold entry
  apply Finset.sum_eq_zero
  intro k hk
  have hk := Finset.mem_Ico.mp hk
  simp [h k hk.1 hk.2]

/-- Conversion to dense of a valid matrix: it is defined, has the dimensions of the matrix and
holds `entry r c` in every cell of a row `r < rows` (and 0 elsewhere). -/
theorem to_dense_spec (A : SPARSEMATRIXN) (m : MATRIXN) (h : Valid A) :
    ∃ D, A.to_dense m = some D ∧ D.rows = A._rows ∧ D.columns = A._columns ∧
      ∀ r c, D.cell r c = if r < A._rows then A.entry r c else 0 := by
  unfold to_dense
  have key := loopFrom_inv
    (fun row m =>
      (rd A._ptr row).bind fun lo =>
      (rd A._ptr (row + 1)).bind fun hi =>
      loopFrom (fun k m =>
        (rd A._indices k).bind fun c =>
        (rd A._data k).bind fun x =>
        m.put row c x) lo (hi - lo) m)
    (fun i D => D.rows = A._rows ∧ D.columns = A._columns ∧
      ∀ r c, D.cell r c = if r < i then A.entry r c else 0)
    0 A._rows ?_ (MATRIXN.set_zero A._rows A._columns) ?_
  · obtain ⟨D, hD, h1, h2, h3⟩ := key
    refine ⟨D, hD, h1, h2, ?_⟩
    simpa using h3
  · intro row D _ hrow ⟨hr, hc, hcell⟩
    have hrow : row < A._rows := by omega
    dsimp only
    rw [h.rd_ptr (le_of_lt hrow), h.rd_ptr (i := row + 1) (by omega)]
    simp only [Option.some_bind]
    have hle : A.P row ≤ A.P (row + 1) := h.2.2.1 row hrow
    have inner := loopFrom_inv
      (fun k m =>
        (rd A._indices k).bind fun c =>
        (rd A._data k).bind fun x =>
        m.put row c x)
      (fun k D => D.rows = A._rows ∧ D.columns = A._columns ∧
        ∀ r c, D.cell r c = if r < row then A.entry r c else
          if r = row then ∑ k1 ∈ Finset.Ico (A.P row) k, (if A.I k1 = c then A.V k1 else 0)
          else 0)
      (A.P row) (A.P (row + 1) - A.P row) ?_ D ?_
    · obtain ⟨D1, hD1, g1, g2, g3⟩ := inner
      refine ⟨D1, hD1, g1, g2, ?_⟩
      intro r c
      rw [g3 r c]
      have e : A.P row + (A.P (row + 1) - A.P row) = A.P (row + 1) := by omega
      rw [e]
      by_cases c1 : r < row
      · simp [c1, Nat.lt_succ_of_lt c1]
      · by_cases c2 : r = row
        · subst c2; simp [entry]
        · have : ¬ r < row + 1 := by omega
          simp [c1, c2, this]
    · intro k D1 hk1 hk2 ⟨g1, g2, g3⟩
      have hk2 : k < A.P (row + 1) := by omega
      have hkn : k < A._nnz := lt_of_lt_of_le hk2 (h.P_le_nnz (by omega))
      dsimp only
      rw [h.rd_indices hkn, h.rd_data hkn]
      have hcol := h.2.2.2.2.2.2 k hkn
      simp only [Option.some_bind, MATRIXN.put, g1, g2, hrow, hcol, and_self, if_true]
      refine ⟨_, rfl, rfl, rfl, ?_⟩
      intro r c
      simp only
      rw [Finset.sum_Ico_succ_top hk1]
      by_cases c1 : r < row
      · have : ¬ r = row := by omega
        simp [c1, this, g3]
      · by_cases c2 : r = row
        · subst c2
          by_cases c3 : c = A.I k
          · subst c3
            have z :
                ∑ k1 ∈ Finset.Ico (A.P r) k, (if A.I k1 = A.I k then A.V k1 else 0) = 0 := by
              apply Finset.sum_eq_zero
              intro b hb
              have hb := Finset.mem_Ico.mp hb
              have := h.I_lt hrow hb.1 hb.2 hk2
              have : A.I b ≠ A.I k := by omega
              simp [this]
            simp [z]
          · have : ¬ A.I k = c := fun e => c3 e.symm
            simp [c3, this, g3]
        · simp [c1, c2, g3]
    · refine ⟨hr, hc, ?_⟩
      intro r c
      rw [hcell r c]
      by_cases c1 : r < row
      · simp [c1]
      · by_cases c2 : r = row
        · subst c2; simp
        · simp [c1, c2]
  · exact ⟨rfl, rfl, fun r c => by simp [MATRIXN.set_zero]⟩

theorem rd_wr_same {α : Type} {a b : Cells α} {i : Nat} {x : α} (h : wr a i x = some b) :
    rd b i = some x := by
  unfold wr at h
  split at h
  · cases h; exact rd_set_same a x ‹_›
  · cases h

theorem rd_wr_other {α : Type} {a b : Cells α} {i j : Nat} {x : α} (h : wr a i x = some b)
    (hj : j ≠ i) : rd b j = rd a j := by
  unfold wr at h
  split at h
  · cases h; exact rd_set_other a x hj
  · cases h

theorem loopFrom_first_none {σ : Type} (body : Nat → σ → Option σ) (i n : Nat) (s : σ)
    (hn : 0 < n) (h : body i s = none) : loopFrom body i n s = none := by
  cases n with
  | zero => omega
  | succ n => simp [loopFrom, h]

theorem uadd_one_of_lt {n : Nat} (h : n + 1 < UMOD) : uadd n 1 = n + 1 := by
  unfold uadd; exact Nat.mod_eq_of_lt h

theorem uadd_one_max : uadd 4294967295 1 = 0 := by
  unfold uadd UMOD; norm_num

/-- The arrays built by `identity(n)`, when `n + 1` is below `2^32`. -/
theorem identity_arrays (n : Nat) (hn : n + 1 < UMOD) :
    ∃ A, identity n = some A ∧ A._rows = n ∧ A._columns = n ∧ A._nnz = n ∧
      A._nnz_capacity = n ∧ A._row_capacity = n + 1 ∧
      (∀ i, i ≤ n → rd A._ptr i = some i) ∧
      (∀ i, i < n → rd A._indices i = some i ∧ rd A._data i = some 1) := by
  unfold identity
  rw [uadd_one_of_lt hn]
  have key := loopFrom_inv
    (fun i (m : SPARSEMATRIXN) =>
      (wr m._data i 1).bind fun d =>
      (wr m._indices i i).bind fun ix =>
      (wr m._ptr i i).bind fun p =>
      some { m with _data := d, _indices := ix, _ptr := p })
    (fun i A => A._rows = n ∧ A._columns = n ∧ A._nnz_capacity = n ∧
      A._row_capacity = n + 1 ∧
      A._ptr.length = n + 1 ∧ A._indices.length = n ∧ A._data.length = n ∧
      (∀ j, j < i → rd A._ptr j = some j) ∧
      (∀ j, j < i → rd A._indices j = some j ∧ rd A._data j = some 1))
    0 n ?_
    { ctor with
      _rows := n, _columns := n, _nnz_capacity := n, _row_capacity := n + 1,
      _data := newArray REAL n, _ptr := newArray Nat (n + 1), _indices := newArray Nat n } ?_
  · obtain ⟨A, hA, h1, h2, h3, h4, h5, h6, h7, h8, h9⟩ := key
    simp only [Nat.zero_add] at h8 h9 hA
    simp only [hA, Option.some_bind]
    rw [wr_of_lt A._ptr n (by omega)]
    refine ⟨_, rfl, h1, h2, rfl, h3, h4, ?_, h9⟩
    intro i hi
    rcases Nat.eq_or_lt_of_le hi with e | e
    · subst e; exact rd_set_same _ _ (by omega)
    · rw [rd_set_other _ _ (by omega)]; exact h8 i e
  · intro i A _ hi ⟨h1, h2, h3, h4, h5, h6, h7, h8, h9⟩
    have hi : i < n := by omega
    dsimp only
    rw [wr_of_lt A._data 1 (by omega), wr_of_lt A._indices i (by omega),
      wr_of_lt A._ptr i (by omega)]
    refine ⟨_, rfl, h1, h2, h3, h4, by simpa using h5, by simpa using h6, by simpa using h7,
      ?_, ?_⟩
    · intro j hj
      rcases Nat.eq_or_lt_of_le (Nat.lt_succ_iff.mp hj) with e | e
      · subst e; exact rd_set_same _ _ (by omega)
      · rw [rd_set_other _ _ (by omega)]; exact h8 j e
    · intro j hj
      rcases Nat.eq_or_lt_of_le (Nat.lt_succ_iff.mp hj) with e | e
      · subst e; exact ⟨rd_set_same _ _ (by omega), rd_set_same _ _ (by omega)⟩
      · rw [rd_set_other _ _ (by omega), rd_set_other _ _ (by omega)]; exact h9 j e
  · refine ⟨rfl, rfl, rfl, rfl, by simp [newArray], by simp [newArray], by simp [newArray],
      ?_, ?_⟩ <;> intro j hj <;> omega

/-- A matrix whose arrays are those of the identity is valid. -/
theorem valid_of_identity_arrays {A : SPARSEMATRIXN} {n : Nat} (h1 : A._rows = n)
    (h2 : A._columns = n) (h3 : A._nnz = n) (hp : ∀ i, i ≤ n → rd A._ptr i = some i)
    (hd : ∀ i, i < n → rd A._indices i = some i ∧ rd A._data i = some 1) : Valid A := by
  have hP : ∀ i, i ≤ n → A.P i = i := fun i hi => by simp [P, hp i hi]
  have hI : ∀ i, i < n → A.I i = i := fun i hi => by simp [I, (hd i hi).1]
  refine ⟨?_, ?_, ?_, ?_, ?_, ?_, ?_⟩
  · intro i hi; rw [hp i (by omega)]; rfl
  · exact hP 0 (by omega)
  · intro i hi; rw [hP i (by omega), hP (i + 1) (by omega)]; omega
  · rw [h1, hP n (le_refl _), h3]
  · intro k hk; rw [(hd k (by omega)).1, (hd k (by omega)).2]; exact ⟨rfl, rfl⟩
  · intro i hi k hk a b
    rw [hP i (by omega)] at a
    rw [hP (i + 1) (by omega)] at b
    omega
  · intro k hk; rw [hI k (by omega)]; omega

/-- When `n + 1` wraps to 0, the first turn of the loop of `identity` writes `m._ptr[0]` into
an offset array without cells, which is undefined. -/
theorem identity_none_at_max : identity 4294967295 = none := by
  unfold identity
  rw [uadd_one_max]
  have h0 : ∀ (M : SPARSEMATRIXN), M._ptr = [] →
      ((wr M._data 0 1).bind fun d =>
        (wr M._indices 0 0).bind fun ix =>
        (wr M._ptr 0 0).bind fun p =>
        some { M with _data := d, _indices := ix, _ptr := p }) = none := by
    intro M hM
    cases wr M._data 0 1 with
    | none => rfl
    | some d =>
      cases wr M._indices 0 0 with
      | none => rfl
      | some ix => simp [hM, wr]
  dsimp only
  rw [loopFrom_first_none _ 0 4294967295 _ (by norm_num) (h0 _ rfl)]
  rfl

/-- C10 (counterexample): for `n = 2^32 - 1` the size `n+1` of the offset array wraps to 0 in
`unsigned`; the first turn of the loop writes `m._ptr[0]` into an array without cells, which
is undefined: `identity(n)` does not produce the matrix. -/
theorem identity_wraps_at_max : uadd 4294967295 1 = 0 ∧ identity 4294967295 = none :=
  ⟨uadd_one_max, identity_none_at_max⟩

/-- C10 (amended): for every `n` with `n + 1 < 2^32`, `identity(n)` returns an `n × n` matrix
with `nnz = n`, offsets `ptr[i] = i` for `0 ≤ i ≤ n`, column index `i` and value 1 at slot `i`,
and its dense form is the `n × n` identity matrix. -/
theorem identity_spec (n : Nat) (m : MATRIXN) (hn : n + 1 < UMOD) :
    ∃ A, identity n = some A ∧ A._rows = n ∧ A._columns = n ∧ A._nnz = n ∧
      (∀ i, i ≤ n → rd A._ptr i = some i) ∧
      (∀ i, i < n → rd A._indices i = some i ∧ rd A._data i = some 1) ∧
      ∃ D, A.to_dense m = some D ∧ D.rows = n ∧ D.columns = n ∧
        ∀ r c, r < n → c < n → D.cell r c = if r = c then 1 else 0 := by
  obtain ⟨A, hA, h1, h2, h3, _, _, hp, hd⟩ := identity_arrays n hn
  have hv := valid_of_identity_arrays h1 h2 h3 hp hd
  obtain ⟨D, hD, g1, g2, g3⟩ := to_dense_spec A m hv
  refine ⟨A, hA, h1, h2, h3, hp, hd, D, hD, g1.trans h1, g2.trans h2, ?_⟩
  intro r c hr _
  rw [g3 r c, if_pos (by omega)]
  have e1 : A.P r = r := by simp [P, hp r (by omega)]
  have e2 : A.P (r + 1) = r + 1 := by simp [P, hp (r + 1) (by omega)]
  have e3 : A.I r = r := by simp [I, (hd r hr).1]
  have e4 : A.V r = 1 := by simp [V, (hd r hr).2]
  simp [entry, e1, e2, e3, e4]

/-- The statement of `identity_spec` at `n = 3`. -/
theorem identity_spec_witness :
    ∃ A, identity 3 = some A ∧ A._rows = 3 ∧ A._columns = 3 ∧ A._nnz = 3 ∧
      (∀ i, i ≤ 3 → rd A._ptr i = some i) ∧
      (∀ i, i < 3 → rd A._indices i = some i ∧ rd A._data i = some 1) ∧
      ∃ D, A.to_dense (MATRIXN.set_zero 0 0) = some D ∧ D.rows = 3 ∧ D.columns = 3 ∧
        ∀ r c, r < 3 → c < 3 → D.cell r c = if r = c then 1 else 0 :=
  identity_spec 3 (MATRIXN.set_zero 0 0) (by decide)

/-- The dense form of `identity(3)`, evaluated. -/
theorem identity_three_dense :
    (identity 3).bind (fun A => (A.to_dense (MATRIXN.set_zero 0 0)).map MATRIXN.toLists)
      = some [[1, 0, 0], [0, 1, 0], [0, 0, 1]] := by decide

theorem VECTORN_addAt_of_lt (v : VECTORN) {i : Nat} (d : REAL) (h : i < v.length) :
    VECTORN.addAt v i d = some (v.set i (v.getD i 0 + d)) := by
  simp [VECTORN.addAt, h]

theorem getD_set_same (v : VECTORN) {i : Nat} (x : REAL) (h : i < v.length) :
    (v.set i x).getD i 0 = x := by
  simp [List.getD_eq_getElem?_getD, h]

theorem getD_set_other (v : VECTORN) {i j : Nat} (x : REAL) (h : j ≠ i) :
    (v.set i x).getD j 0 = v.getD j 0 := by
  simp [List.getD_eq_getElem?_getD, List.getElem?_set_ne (Ne.symm h)]

theorem getD_set_zero (n i : Nat) : (VECTORN.set_zero n).getD i 0 = 0 := by
  unfold VECTORN.set_zero
  by_cases h : i < n
  · simp [List.getD_eq_getElem?_getD, List.getElem?_replicate, h]
  · simp [List.getD_eq_getElem?_getD, List.getElem?_replicate, h]

theorem get?_of_lt (v : VECTORN) {i : Nat} (h : i < v.length) :
    v.get? i = some (v.getD i 0) := by
  simp [List.getD_eq_getElem?_getD, List.get?_eq_getElem?, List.getElem?_eq_getElem h]

/-- A sum over the columns of products with the entries of row `r` is the sum over the slots of
the row. -/
theorem entry_sum_mul (A : SPARSEMATRIXN) (h : Valid A) {r : Nat} (hr : r < A._rows)
    (f : Nat → REAL) :
    ∑ c ∈ Finset.range A._columns, A.entry r c * f c
      = ∑ k ∈ Finset.Ico (A.P r) (A.P (r + 1)), A.V k * f (A.I k) := by
  unfold entry
  simp only [Finset.sum_mul]
  rw [Finset.sum_comm]
  apply Finset.sum_congr rfl
  intro k hk
  have hk := Finset.mem_Ico.mp hk
  have hkn : k < A._nnz := lt_of_lt_of_le hk.2 (h.P_le_nnz (by omega))
  have hc := h.2.2.2.2.2.2 k hkn
  rw [Finset.sum_eq_single (A.I k)]
  · simp
  · intro b _ hb
    have : ¬ A.I k = b := fun e => hb e.symm
    simp [this]
  · intro hn
    exact absurd (Finset.mem_range.mpr hc) hn

/-- The inner loop of the products: the sparse dot product of row `r` with `f`. -/
theorem dot_loop (A : SPARSEMATRIXN) (h : Valid A) {r : Nat} (hr : r < A._rows)
    (g : Nat → Option REAL) (f : Nat → REAL) (hg : ∀ c, c < A._columns → g c = some (f c)) :
    loopFrom (fun jj dot =>
        (rd A._data jj).bind fun d =>
        (rd A._indices jj).bind fun c =>
        (g c).bind fun xc =>
        some (dot + d * xc)) (A.P r) (A.P (r + 1) - A.P r) 0
      = some (∑ c ∈ Finset.range A._columns, A.entry r c * f c) := by
  have hle : A.P r ≤ A.P (r + 1) := h.2.2.1 r hr
  have key := loopFrom_inv
    (fun jj dot =>
        (rd A._data jj).bind fun d =>
        (rd A._indices jj).bind fun c =>
        (g c).bind fun xc =>
        some (dot + d * xc))
    (fun k dot => dot = ∑ k1 ∈ Finset.Ico (A.P r) k, A.V k1 * f (A.I k1))
    (A.P r) (A.P (r + 1) - A.P r) ?_ 0 (by simp)
  · obtain ⟨d, hd, e⟩ := key
    have e1 : A.P r + (A.P (r + 1) - A.P r) = A.P (r + 1) := by omega
    rw [e1] at e
    rw [hd, e, entry_sum_mul A h hr]
  · intro k dot hk1 hk2 hinv
    have hk2 : k < A.P (r + 1) := by omega
    have hkn : k < A._nnz := lt_of_lt_of_le hk2 (h.P_le_nnz (by omega))
    dsimp only
    rw [h.rd_data hkn, h.rd_indices hkn]
    simp only [Option.some_bind]
    rw [hg _ (h.2.2.2.2.2.2 k hkn)]
    refine ⟨_, rfl, ?_⟩
    rw [Finset.sum_Ico_succ_top hk1, hinv]

theorem mult_VECTORN_entry (NEXCEPT : Bool) (A : SPARSEMATRIXN) (x result : VECTORN)
    (h : Valid A) (hx : x.length = A._columns) :
    ∃ y, A.mult_VECTORN NEXCEPT x result = Outcome.done y ∧ y.length = A._rows ∧
      ∀ r, r < A._rows →
        y.getD r 0 = ∑ c ∈ Finset.range A._columns, A.entry r c * x.getD c 0 := by
  unfold mult_VECTORN
  rw [if_neg (by simp [hx])]
  have key := loopFrom_inv
    (fun row res =>
          (rd A._ptr row).bind fun row_start =>
          (rd A._ptr (row + 1)).bind fun row_end =>
          (loopFrom (fun jj dot =>
              (rd A._data jj).bind fun d =>
              (rd A._indices jj).bind fun c =>
              (x.get? c).bind fun xc =>
              some (dot + d * xc)) row_start (row_end - row_start) 0).bind fun dot =>
          VECTORN.addAt res row dot)
    (fun i (res : VECTORN) => res.length = A._rows ∧ ∀ r, res.getD r 0 =
      if r < i then ∑ c ∈ Finset.range A._columns, A.entry r c * x.getD c 0 else 0)
    0 A._rows ?_ (VECTORN.set_zero A._rows) ?_
  · obtain ⟨y, hy, h1, h2⟩ := key
    rw [hy]
    refine ⟨y, rfl, h1, ?_⟩
    intro r hr
    rw [h2 r, if_pos (by omega)]
  · intro row res _ hrow ⟨h1, h2⟩
    have hrow : row < A._rows := by omega
    dsimp only
    rw [h.rd_ptr (le_of_lt hrow), h.rd_ptr (i := row + 1) (by omega)]
    simp only [Option.some_bind]
    rw [dot_loop A h hrow (fun c => x.get? c) (fun c => x.getD c 0)
      (fun c hc => get?_of_lt x (by omega))]
    simp only [Option.some_bind]
    rw [VECTORN_addAt_of_lt res _ (by omega)]
    refine ⟨_, rfl, by simpa using h1, ?_⟩
    intro r
    by_cases c1 : r = row
    · subst c1
      rw [getD_set_same _ _ (by omega), h2 r]
      simp
    · rw [getD_set_other _ _ c1, h2 r]
      by_cases c2 : r < row
      · simp [c2, Nat.lt_succ_of_lt c2]
      · have : ¬ r < row + 1 := by omega
        simp [c2, this]
  · refine ⟨by simp [VECTORN.set_zero], ?_⟩
    intro r
    rw [getD_set_zero]; simp

theorem transpose_mult_VECTORN_entry (NEXCEPT : Bool) (A : SPARSEMATRIXN) (x result : VECTORN)
    (h : Valid A) (hx : x.length = A._rows) :
    ∃ y, A.transpose_mult_VECTORN NEXCEPT x result = Outcome.done y ∧ y.length = A._columns ∧
      ∀ c, c < A._columns →
        y.getD c 0 = ∑ r ∈ Finset.range A._rows, A.entry r c * x.getD r 0 := by
  unfold transpose_mult_VECTORN
  rw [if_neg (by simp [hx])]
  have key := loopFrom_inv
    (fun row res =>
          (rd A._ptr row).bind fun lo =>
          (rd A._ptr (row + 1)).bind fun hi =>
          loopFrom (fun k res =>
              (rd A._indices k).bind fun c =>
              (rd A._data k).bind fun d =>
              (x.get? row).bind fun xr =>
              VECTORN.addAt res c (d * xr)) lo (hi - lo) res)
    (fun i (res : VECTORN) => res.length = A._columns ∧ ∀ c, res.getD c 0 =
      ∑ r ∈ Finset.range i, A.entry r c * x.getD r 0)
    0 A._rows ?_ (VECTORN.set_zero A._columns) ?_
  · obtain ⟨y, hy, h1, h2⟩ := key
    rw [hy]
    refine ⟨y, rfl, h1, ?_⟩
    intro c _
    rw [h2 c, Nat.zero_add]
  · intro row res _ hrow ⟨h1, h2⟩
    have hrow : row < A._rows := by omega
    dsimp only
    rw [h.rd_ptr (le_of_lt hrow), h.rd_ptr (i := row + 1) (by omega)]
    simp only [Option.some_bind]
    have hle : A.P row ≤ A.P (row + 1) := h.2.2.1 row hrow
    have inner := loopFrom_inv
      (fun k res =>
              (rd A._indices k).bind fun c =>
              (rd A._data k).bind fun d =>
              (x.get? row).bind fun xr =>
              VECTORN.addAt res c (d * xr))
      (fun k (res : VECTORN) => res.length = A._columns ∧ ∀ c, res.getD c 0 =
        ∑ r ∈ Finset.range row, A.entry r c * x.getD r 0 +
          (∑ k1 ∈ Finset.Ico (A.P row) k, if A.I k1 = c then A.V k1 else 0) * x.getD row 0)
      (A.P row) (A.P (row + 1) - A.P row) ?_ res ?_
    · obtain ⟨res1, hres1, g1, g2⟩ := inner
      refine ⟨res1, hres1, g1, ?_⟩
      intro c
      have e : A.P row + (A.P (row + 1) - A.P row) = A.P (row + 1) := by omega
      rw [g2 c, e, Finset.sum_range_succ]
      rfl
    · intro k res1 hk1 hk2 ⟨g1, g2⟩
      have hk2 : k < A.P (row + 1) := by omega
      have hkn : k < A._nnz := lt_of_lt_of_le hk2 (h.P_le_nnz (by omega))
      have hcol := h.2.2.2.2.2.2 k hkn
      dsimp only
      rw [h.rd_indices hkn, h.rd_data hkn, get?_of_lt x (by omega)]
      simp only [Option.some_bind]
      rw [VECTORN_addAt_of_lt res1 _ (by omega)]
      refine ⟨_, rfl, by simpa using g1, ?_⟩
      intro c
      rw [Finset.sum_Ico_succ_top hk1]
      by_cases c1 : c = A.I k
      · subst c1
        rw [getD_set_same _ _ (by omega), g2]
        simp only [if_true]
        ring
      · have : ¬ A.I k = c := fun e => c1 e.symm
        rw [getD_set_other _ _ c1, g2]
        simp [this]
    · refine ⟨h1, ?_⟩
      intro c
      rw [h2 c]; simp
  · refine ⟨by simp [VECTORN.set_zero], ?_⟩
    intro c
    rw [getD_set_zero]; simp

theorem MATRIXN_addAt_of_lt (M : MATRIXN) {i j : Nat} (d : REAL) (hi : i < M.rows)
    (hj : j < M.columns) :
    MATRIXN.addAt M i j d = some
      { M with cell := fun a b => if a = i ∧ b = j then (M.cell i j) + d else M.cell a b } := by
  simp [MATRIXN.addAt, MATRIXN.at, MATRIXN.put, hi, hj]

theorem mult_MATRIXN_entry (NEXCEPT : Bool) (A : SPARSEMATRIXN) (m result : MATRIXN)
    (h : Valid A) (hm : m.rows = A._columns) :
    ∃ R, A.mult_MATRIXN NEXCEPT m result = Outcome.done R ∧ R.rows = A._rows ∧
      R.columns = m.columns ∧
      ∀ r c, r < A._rows → c < m.columns →
        R.cell r c = ∑ k ∈ Finset.range A._columns, A.entry r k * m.cell k c := by
  unfold mult_MATRIXN
  rw [if_neg (by simp [hm])]
  have key := loopFrom_inv
    (fun col res =>
          loopFrom (fun row res =>
              (rd A._ptr row).bind fun row_start =>
              (rd A._ptr (row + 1)).bind fun row_end =>
              (loopFrom (fun jj dot =>
                  (rd A._data jj).bind fun d =>
                  (rd A._indices jj).bind fun c =>
                  (m.at c col).bind fun mc =>
                  some (dot + d * mc)) row_start (row_end - row_start) 0).bind fun dot =>
              MATRIXN.addAt res row col dot)
            0 A._rows res)
    (fun j (R : MATRIXN) => R.rows = A._rows ∧ R.columns = m.columns ∧ ∀ r c, R.cell r c =
      if r < A._rows ∧ c < j then
        ∑ k ∈ Finset.range A._columns, A.entry r k * m.cell k c else 0)
    0 m.columns ?_ (MATRIXN.set_zero A._rows m.columns) ?_
  · obtain ⟨R, hR, h1, h2, h3⟩ := key
    rw [hR]
    refine ⟨R, rfl, h1, h2, ?_⟩
    intro r c hr hc
    rw [h3 r c, if_pos ⟨hr, by omega⟩]
  · intro col R _ hcol ⟨h1, h2, h3⟩
    have hcol : col < m.columns := by omega
    dsimp only
    have inner := loopFrom_inv
      (fun row res =>
              (rd A._ptr row).bind fun row_start =>
              (rd A._ptr (row + 1)).bind fun row_end =>
              (loopFrom (fun jj dot =>
                  (rd A._data jj).bind fun d =>
                  (rd A._indices jj).bind fun c =>
                  (m.at c col).bind fun mc =>
                  some (dot + d * mc)) row_start (row_end - row_start) 0).bind fun dot =>
              MATRIXN.addAt res row col dot)
      (fun i (R : MATRIXN) => R.rows = A._rows ∧ R.columns = m.columns ∧ ∀ r c, R.cell r c =
        if r < A._rows ∧ (c < col ∨ (c = col ∧ r < i)) then
          ∑ k ∈ Finset.range A._columns, A.entry r k * m.cell k c else 0)
      0 A._rows ?_ R ?_
    · obtain ⟨R1, hR1, g1, g2, g3⟩ := inner
      refine ⟨R1, hR1, g1, g2, ?_⟩
      intro r c
      rw [g3 r c]
      apply if_congr _ rfl rfl
      constructor
      · rintro ⟨a, b⟩; exact ⟨a, by omega⟩
      · rintro ⟨a, b⟩; exact ⟨a, by omega⟩
    · intro row R1 _ hrow ⟨g1, g2, g3⟩
      have hrow : row < A._rows := by omega
      dsimp only
      rw [h.rd_ptr (le_of_lt hrow), h.rd_ptr (i := row + 1) (by omega)]
      simp only [Option.some_bind]
      rw [dot_loop A h hrow (fun c => m.at c col) (fun c => m.cell c col)
        (fun c hc => by simp [MATRIXN.at, hm, hc, hcol])]
      simp only [Option.some_bind]
      rw [MATRIXN_addAt_of_lt R1 _ (by omega) (by omega)]
      refine ⟨_, rfl, g1, g2, ?_⟩
      intro r c
      dsimp only
      by_cases c1 : r = row ∧ c = col
      · obtain ⟨e1, e2⟩ := c1
        subst e1; subst e2
        rw [g3 r c]
        simp [hrow]
      · rw [if_neg c1, g3 r c]
        apply if_congr _ rfl rfl
        constructor
        · rintro ⟨a, b⟩; exact ⟨a, by omega⟩
        · rintro ⟨a, b⟩
          refine ⟨a, ?_⟩
          rcases b with b | ⟨b1, b2⟩
          · exact Or.inl b
          · refine Or.inr ⟨b1, ?_⟩
            have : r ≠ row := fun e => c1 ⟨e, b1⟩
            omega
    · refine ⟨h1, h2, ?_⟩
      intro r c
      rw [h3 r c]
      apply if_congr _ rfl rfl
      constructor
      · rintro ⟨a, b⟩; exact ⟨a, Or.inl b⟩
      · rintro ⟨a, b⟩; exact ⟨a, by omega⟩
  · exact ⟨rfl, rfl, fun r c => by simp [MATRIXN.set_zero]⟩

theorem findFrom_spec (a : Cells Nat) (f : Nat → Nat) (j lo n : Nat)
    (ha : ∀ k, lo ≤ k → k < lo + n → rd a k = some (f k)) :
    ∃ r, findFrom a j lo n = some r ∧
      (∀ k, r = some k → lo ≤ k ∧ k < lo + n ∧ f k = j) ∧
      (r = none → ∀ k, lo ≤ k → k < lo + n → f k ≠ j) := by
  induction n generalizing lo with
  | zero =>
    refine ⟨none, rfl, ?_, ?_⟩
    · intro k hk; cases hk
    · intro _ k h1 h2; omega
  | succ n ih =>
    unfold findFrom
    rw [ha lo (le_refl _) (by omega)]
    simp only [Option.some_bind]
    by_cases c : f lo = j
    · rw [if_pos c]
      refine ⟨some lo, rfl, ?_, ?_⟩
      · intro k hk
        cases hk
        exact ⟨le_refl _, by omega, c⟩
      · intro hk; cases hk
    · rw [if_neg c]
      obtain ⟨r, h1, h2, h3⟩ := ih (lo + 1) (fun k a b => ha k (by omega) (by omega))
      refine ⟨r, h1, ?_, ?_⟩
      · intro k hk
        obtain ⟨a, b, e⟩ := h2 k hk
        exact ⟨by omega, by omega, e⟩
      · intro hr k a b
        rcases Nat.eq_or_lt_of_le a with e | e
        · subst e; exact c
        · exact h3 hr k (by omega) (by omega)

/-- The search of a column in a row of a valid matrix is defined and decides `stored`. -/
theorem findInRow_spec {A : SPARSEMATRIXN} (h : Valid A) {i : Nat} (hi : i < A._rows) (j : Nat) :
    ∃ r, findInRow A i j = some r ∧
      (∀ k, r = some k → A.P i ≤ k ∧ k < A.P (i + 1) ∧ A.I k = j) ∧
      (r = none → ¬ stored A i j) := by
  unfold findInRow
  rw [h.rd_ptr (le_of_lt hi), h.rd_ptr (i := i + 1) (by omega)]
  simp only [Option.some_bind]
  have hle : A.P i ≤ A.P (i + 1) := h.2.2.1 i hi
  have e : A.P i + (A.P (i + 1) - A.P i) = A.P (i + 1) := by omega
  obtain ⟨r, h1, h2, h3⟩ := findFrom_spec A._indices A.I j (A.P i) (A.P (i + 1) - A.P i)
    (fun k a b => h.rd_indices (lt_of_lt_of_le (by omega) (h.P_le_nnz (i := i + 1) (by omega))))
  rw [e] at h2 h3
  refine ⟨r, h1, h2, ?_⟩
  intro hr ⟨k, hk, hkj⟩
  have hk := Finset.mem_Ico.mp hk
  exact h3 hr k hk.1 hk.2 hkj

theorem stored_of_slot {A : SPARSEMATRIXN} {i j k : Nat} (h1 : A.P i ≤ k)
    (h2 : k < A.P (i + 1)) (h3 : A.I k = j) : stored A i j :=
  ⟨k, Finset.mem_Ico.mpr ⟨h1, h2⟩, h3⟩

theorem Valid.stored_lt {A : SPARSEMATRIXN} (h : Valid A) {i j : Nat} (hi : i < A._rows)
    (hs : stored A i j) : j < A._columns := by
  obtain ⟨k, hk, e⟩ := hs
  have hk := Finset.mem_Ico.mp hk
  rw [← e]
  exact h.2.2.2.2.2.2 k (lt_of_lt_of_le hk.2 (h.P_le_nnz (by omega)))

theorem entry_of_not_stored {A : SPARSEMATRIXN} {i j : Nat} (h : ¬ stored A i j) :
    A.entry i j = 0 :=
  entry_of_no_slot A i j (fun _ a b e => h (stored_of_slot a b e))

/-- Two rows of a valid matrix share no slot. -/
theorem Valid.row_unique {A : SPARSEMATRIXN} (h : Valid A) {i1 i2 k : Nat}
    (h1 : i1 < A._rows) (h2 : i2 < A._rows) (a1 : A.P i1 ≤ k) (b1 : k < A.P (i1 + 1))
    (a2 : A.P i2 ≤ k) (b2 : k < A.P (i2 + 1)) : i1 = i2 := by
  rcases Nat.lt_trichotomy i1 i2 with c | c | c
  · have := h.P_mono (i := i1 + 1) (j := i2) (by omega) (by omega); omega
  · exact c
  · have := h.P_mono (i := i2 + 1) (j := i1) (by omega) (by omega); omega

theorem ucnt_zero (A B : SPARSEMATRIXN) (i : Nat) : ucnt A B i 0 = 0 := by
  simp [ucnt]

theorem ucnt_succ (A B : SPARSEMATRIXN) (i j : Nat) :
    ucnt A B i (j + 1) = ucnt A B i j + if stored A i j ∨ stored B i j then 1 else 0 := by
  unfold ucnt
  rw [Finset.range_succ, Finset.filter_insert]
  by_cases c : stored A i j ∨ stored B i j
  · rw [if_pos c, if_pos c, Finset.card_insert_of_not_mem (by simp)]
  · rw [if_neg c, if_neg c]; rfl

theorem ucnt_mono (A B : SPARSEMATRIXN) (i : Nat) {j1 j2 : Nat} (h : j1 ≤ j2) :
    ucnt A B i j1 ≤ ucnt A B i j2 := by
  unfold ucnt
  apply Finset.card_le_card
  apply Finset.filter_subset_filter
  exact Finset.range_mono h

theorem uoff_zero (A B : SPARSEMATRIXN) : uoff A B 0 = 0 := by
  simp [uoff]

theorem uoff_succ (A B : SPARSEMATRIXN) (i : Nat) :
    uoff A B (i + 1) = uoff A B i + ucnt A B i A._columns := by
  simp [uoff, Finset.sum_range_succ]

theorem uoff_mono (A B : SPARSEMATRIXN) {i1 i2 : Nat} (h : i1 ≤ i2) :
    uoff A B i1 ≤ uoff A B i2 := by
  unfold uoff
  apply Finset.sum_le_sum_of_subset
  exact Finset.range_mono h

/-- The first pass counts the positions stored in either operand. -/
theorem countUnion_spec {A B : SPARSEMATRIXN} (hA : Valid A) (hB : Valid B)
    (hr : A._rows = B._rows) : countUnion A B = some (uoff A B A._rows) := by
  unfold countUnion
  have key := loopFrom_inv
    (fun i nz =>
      loopFrom (fun j nz =>
          (findInRow A i j).bind fun f =>
          match f with
          | some _ => some (nz + 1)
          | none =>
            (findInRow B i j).bind fun g =>
            match g with
            | some _ => some (nz + 1)
            | none => some nz)
        0 A._columns nz)
    (fun i nz => nz = uoff A B i) 0 A._rows ?_ 0 (uoff_zero A B).symm
  · obtain ⟨nz, h1, h2⟩ := key
    rw [h1, h2, Nat.zero_add]
  · intro i nz _ hi hnz
    have hi : i < A._rows := by omega
    dsimp only
    have inner := loopFrom_inv
      (fun j nz =>
          (findInRow A i j).bind fun f =>
          match f with
          | some _ => some (nz + 1)
          | none =>
            (findInRow B i j).bind fun g =>
            match g with
            | some _ => some (nz + 1)
            | none => some nz)
      (fun j nz => nz = uoff A B i + ucnt A B i j) 0 A._columns ?_ nz
      (by show nz = uoff A B i + ucnt A B i 0; rw [ucnt_zero]; exact hnz)
    · obtain ⟨nz1, g1, g2⟩ := inner
      refine ⟨nz1, g1, ?_⟩
      rw [g2, Nat.zero_add, uoff_succ]
    · intro j nz1 _ _ hinv
      dsimp only
      obtain ⟨f, hf, hf1, hf2⟩ := findInRow_spec hA hi j
      rw [hf, ucnt_succ]
      simp only [Option.some_bind]
      cases f with
      | some k =>
        obtain ⟨a, b, e⟩ := hf1 k rfl
        have : stored A i j ∨ stored B i j := Or.inl (stored_of_slot a b e)
        refine ⟨_, rfl, ?_⟩
        rw [if_pos this, hinv]; omega
      | none =>
        obtain ⟨g, hg, hg1, hg2⟩ := findInRow_spec hB (i := i) (by omega) j
        simp only [hg, Option.some_bind]
        cases g with
        | some k =>
          obtain ⟨a, b, e⟩ := hg1 k rfl
          have : stored A i j ∨ stored B i j := Or.inr (stored_of_slot a b e)
          refine ⟨_, rfl, ?_⟩
          rw [if_pos this, hinv]; omega
        | none =>
          have : ¬ (stored A i j ∨ stored B i j) := fun c => c.elim (hf2 rfl) (hg2 rfl)
          refine ⟨_, rfl, ?_⟩
          rw [if_neg this, hinv]; omega

/-- The number of columns stored in a row of a valid matrix is the length of its slot range. -/
theorem Valid.card_stored {A : SPARSEMATRIXN} (h : Valid A) {i : Nat} (hi : i < A._rows) :
    ((Finset.range A._columns).filter fun c => stored A i c).card = A.P (i + 1) - A.P i := by
  have e : ((Finset.range A._columns).filter fun c => stored A i c)
      = (Finset.Ico (A.P i) (A.P (i + 1))).image A.I := by
    ext c
    simp only [Finset.mem_filter, Finset.mem_range, Finset.mem_image]
    constructor
    · rintro ⟨_, k, hk, e⟩; exact ⟨k, hk, e⟩
    · rintro ⟨k, hk, e⟩
      exact ⟨h.stored_lt hi ⟨k, hk, e⟩, k, hk, e⟩
  rw [e, Finset.card_image_of_injOn, Nat.card_Ico]
  intro k1 hk1 k2 hk2 e12
  have hk1 := Finset.mem_Ico.mp (Finset.mem_coe.mp hk1)
  have hk2 := Finset.mem_Ico.mp (Finset.mem_coe.mp hk2)
  exact h.I_inj hi hk1.1 hk1.2 hk2.1 hk2.2 e12

theorem Valid.sum_row_lengths {A : SPARSEMATRIXN} (h : Valid A) {n : Nat} (hn : n ≤ A._rows) :
    ∑ i ∈ Finset.range n, (A.P (i + 1) - A.P i) = A.P n := by
  induction n with
  | zero => simp [h.2.1]
  | succ n ih =>
    rw [Finset.sum_range_succ, ih (by omega)]
    have := h.2.2.1 n (by omega)
    omega

/-- When the count of the first pass equals the number of stored entries of `A`, every position
stored in `B` is stored in `A`. -/
theorem stored_subset_of_count {A B : SPARSEMATRIXN} (hA : Valid A) (hB : Valid B)
    (hr : A._rows = B._rows) (hc : A._columns = B._columns)
    (hn : uoff A B A._rows = A.P A._rows) {i j : Nat} (hi : i < A._rows)
    (hs : stored B i j) : stored A i j := by
  have hle : ∀ r ∈ Finset.range A._rows,
      ((Finset.range A._columns).filter fun c => stored A r c).card ≤ ucnt A B r A._columns := by
    intro r _
    unfold ucnt
    apply Finset.card_le_card
    intro c hc
    simp only [Finset.mem_filter] at hc ⊢
    exact ⟨hc.1, Or.inl hc.2⟩
  have hsum : ∑ r ∈ Finset.range A._rows,
      ((Finset.range A._columns).filter fun c => stored A r c).card
      = ∑ r ∈ Finset.range A._rows, ucnt A B r A._columns := by
    rw [Finset.sum_congr rfl (fun r hr => hA.card_stored (Finset.mem_range.mp hr)),
      hA.sum_row_lengths (le_refl _)]
    exact hn.symm
  have heq := (Finset.sum_eq_sum_iff_of_le hle).mp hsum i (Finset.mem_range.mpr hi)
  have hsub : ((Finset.range A._columns).filter fun c => stored A i c)
      ⊆ ((Finset.range A._columns).filter fun c => stored A i c ∨ stored B i c) := by
    intro c hc
    simp only [Finset.mem_filter] at hc ⊢
    exact ⟨hc.1, Or.inl hc.2⟩
  have hset := Finset.eq_of_subset_of_card_le hsub (le_of_eq heq.symm)
  have hj : j < A._columns := by
    rw [hc]; exact hB.stored_lt (by omega) hs
  have : j ∈ ((Finset.range A._columns).filter fun c => stored A i c ∨ stored B i c) := by
    simp only [Finset.mem_filter, Finset.mem_range]
    exact ⟨hj, Or.inr hs⟩
  rw [← hset] at this
  exact (Finset.mem_filter.mp this).2

theorem fastPath_step (comb : REAL → REAL → REAL) (solo : REAL → REAL)
    (hcomb : ∀ a b, comb a b = a + solo b) (hsolo : solo 0 = 0)
    {A B : SPARSEMATRIXN} (hA : Valid A) (hB : Valid B)
    (hr : A._rows = B._rows)
    (hsub : ∀ i j, i < A._rows → stored B i j → stored A i j)
    {i : Nat} (hi : i < A._rows) (j : Nat) (s : Cells REAL × Nat)
    (hinv : FastInv solo A B i j s) :
    ∃ s', ((findInRow A i j).bind fun f =>
          (findInRow B i j).bind fun g =>
          (match g with
            | some k =>
              (rd s.1 s.2).bind fun old =>
              (rd B._data k).bind fun b =>
              wr s.1 s.2 (comb old b)
            | none => some s.1).bind fun d =>
          some (d, if f.isSome then s.2 + 1 else s.2)) = some s' ∧
      FastInv solo A B i (j + 1) s' := by
  obtain ⟨⟨a1, a2⟩, hb, hc, hd⟩ := hinv
  obtain ⟨f, hf, hf1, hf2⟩ := findInRow_spec hA hi j
  obtain ⟨g, hg, hg1, hg2⟩ := findInRow_spec hB (i := i) (by omega) j
  rw [hf, hg]
  simp only [Option.some_bind]
  -- a slot found in row `i` of `A` is the slot `s.2`
  have K : ∀ k, f = some k → k = s.2 ∧ s.2 < A.P (i + 1) ∧ A.I s.2 = j := by
    intro k hk
    obtain ⟨p1, p2, p3⟩ := hf1 k hk
    have q1 : s.2 ≤ k := by
      by_contra c
      have := hb k p1 (by omega)
      omega
    have q2 := hc s.2 (le_refl _) (by omega)
    have q3 : k = s.2 := by
      by_contra c
      have := hA.I_lt hi a1 (show s.2 < k by omega) p2
      omega
    subst q3
    exact ⟨rfl, p2, p3⟩
  cases g with
  | some kb =>
    obtain ⟨g1, g2, g3⟩ := hg1 kb rfl
    have hst : stored A i j := hsub i j hi (stored_of_slot g1 g2 g3)
    cases f with
    | none => exact absurd hst (hf2 rfl)
    | some k =>
      obtain ⟨e, k2, k3⟩ := K k rfl
      have hrd := hd i hi s.2 a1 k2
      rw [if_neg (lt_irrefl _)] at hrd
      have hkb : kb < B._nnz := lt_of_lt_of_le g2 (hB.P_le_nnz (by omega))
      simp only [hrd, hB.rd_data hkb, Option.some_bind, wr_of_lt s.1 _ (rd_lt hrd),
        Option.isSome_some, if_true]
      refine ⟨_, rfl, ⟨by simp; omega, by simp; omega⟩, ?_, ?_, ?_⟩
      · intro k1 h1 h2
        simp only at h2
        rcases Nat.eq_or_lt_of_le (Nat.lt_succ_iff.mp h2) with c | c
        · rw [c, k3]; omega
        · have := hb k1 h1 c; omega
      · intro k1 h1 h2
        simp only at h1
        have := hA.I_lt hi a1 (show s.2 < k1 by omega) h2
        omega
      · intro r hr1 k1 h1 h2
        simp only
        by_cases c : k1 = s.2
        · subst c
          have : r = i := hA.row_unique hr1 hi h1 h2 a1 k2
          subst this
          rw [rd_set_same _ _ (rd_lt hrd), if_pos (Nat.lt_succ_self _), hcomb, k3,
            ← g3, hB.entry_of_slot (by omega) g1 g2]
        · rw [rd_set_other _ _ c, hd r hr1 k1 h1 h2]
          by_cases c2 : k1 < s.2
          · rw [if_pos c2, if_pos (by omega)]
          · rw [if_neg c2, if_neg (by omega)]
  | none =>
    have hnB : B.entry i j = 0 := entry_of_not_stored (hg2 rfl)
    cases f with
    | some k =>
      obtain ⟨e, k2, k3⟩ := K k rfl
      simp only [Option.some_bind, Option.isSome_some, if_true]
      refine ⟨_, rfl, ⟨by simp; omega, by simp; omega⟩, ?_, ?_, ?_⟩
      · intro k1 h1 h2
        simp only at h2
        rcases Nat.eq_or_lt_of_le (Nat.lt_succ_iff.mp h2) with c | c
        · rw [c, k3]; omega
        · have := hb k1 h1 c; omega
      · intro k1 h1 h2
        simp only at h1
        have := hA.I_lt hi a1 (show s.2 < k1 by omega) h2
        omega
      · intro r hr1 k1 h1 h2
        simp only
        by_cases c : k1 = s.2
        · subst c
          have : r = i := hA.row_unique hr1 hi h1 h2 a1 k2
          subst this
          rw [hd r hr1 s.2 h1 h2, if_neg (lt_irrefl _), if_pos (Nat.lt_succ_self _), k3, hnB,
            hsolo, add_zero]
        · rw [hd r hr1 k1 h1 h2]
          by_cases c2 : k1 < s.2
          · rw [if_pos c2, if_pos (by omega)]
          · rw [if_neg c2, if_neg (by omega)]
    | none =>
      simp only [Option.some_bind, Option.isSome_none, Bool.false_eq_true, if_false]
      refine ⟨_, rfl, ⟨a1, a2⟩, ?_, ?_, hd⟩
      · intro k1 h1 h2
        have := hb k1 h1 h2; omega
      · intro k1 h1 h2
        have q := hc k1 h1 h2
        have : A.I k1 ≠ j := fun e => hf2 rfl (stored_of_slot (by omega) h2 e)
        omega

/-- The in-place pass, when every position of `B` is stored in `A`: it is defined and adds to
each stored value of `A` the (sign-adjusted) entry of `B` at the same position. -/
theorem fastPath_spec (comb : REAL → REAL → REAL) (solo : REAL → REAL)
    (hcomb : ∀ a b, comb a b = a + solo b) (hsolo : solo 0 = 0)
    {A B : SPARSEMATRIXN} (hA : Valid A) (hB : Valid B)
    (hr : A._rows = B._rows)
    (hsub : ∀ i j, i < A._rows → stored B i j → stored A i j) :
    ∃ s, fastPath comb A B = some s ∧
      ∀ r, r < A._rows → ∀ k, A.P r ≤ k → k < A.P (r + 1) →
        rd s.1 k = some (A.V k + solo (B.entry r (A.I k))) := by
  unfold fastPath
  have key := loopFrom_inv
    (fun i s =>
      loopFrom (fun j (s : Cells REAL × Nat) =>
          (findInRow A i j).bind fun f =>
          (findInRow B i j).bind fun g =>
          (match g with
            | some k =>
              (rd s.1 s.2).bind fun old =>
              (rd B._data k).bind fun b =>
              wr s.1 s.2 (comb old b)
            | none => some s.1).bind fun d =>
          some (d, if f.isSome then s.2 + 1 else s.2))
        0 A._columns s)
    (fun i (s : Cells REAL × Nat) => s.2 = A.P i ∧
      ∀ r, r < A._rows → ∀ k, A.P r ≤ k → k < A.P (r + 1) →
        rd s.1 k = some (if k < s.2 then A.V k + solo (B.entry r (A.I k)) else A.V k))
    0 A._rows ?_ (A._data, 0) ?_
  · obtain ⟨s, hs, h1, h2⟩ := key
    refine ⟨s, hs, ?_⟩
    intro r hr1 k a b
    rw [h2 r hr1 k a b, if_pos]
    rw [h1, Nat.zero_add]
    exact lt_of_lt_of_le b (hA.P_mono (by omega) (le_refl _))
  · intro i s _ hi ⟨h1, h2⟩
    have hi : i < A._rows := by omega
    dsimp only
    have inner := loopFrom_inv
      (fun j (s : Cells REAL × Nat) =>
          (findInRow A i j).bind fun f =>
          (findInRow B i j).bind fun g =>
          (match g with
            | some k =>
              (rd s.1 s.2).bind fun old =>
              (rd B._data k).bind fun b =>
              wr s.1 s.2 (comb old b)
            | none => some s.1).bind fun d =>
          some (d, if f.isSome then s.2 + 1 else s.2))
      (fun j s => FastInv solo A B i j s) 0 A._columns
      (fun j s _ _ hinv => fastPath_step comb solo hcomb hsolo hA hB hr hsub hi j s hinv)
      s ?_
    · obtain ⟨s1, g1, ⟨a1, a2⟩, _, hc, hd⟩ := inner
      refine ⟨s1, g1, ?_, hd⟩
      by_contra c
      have q := hc s1.2 (le_refl _) (by omega)
      have := hA.2.2.2.2.2.2 s1.2 (lt_of_lt_of_le (show s1.2 < A.P (i + 1) by omega)
        (hA.P_le_nnz (by omega)))
      omega
    · refine ⟨⟨by omega, by rw [h1]; exact hA.2.2.1 i hi⟩, ?_, ?_, h2⟩
      · intro k a b; omega
      · intro k _ _; exact Nat.zero_le _
  · refine ⟨by simp [hA.2.1], ?_⟩
    intro r hr1 k a b
    simp only [Nat.not_lt_zero, if_false]
    exact hA.rd_data (lt_of_lt_of_le b (hA.P_le_nnz (by omega)))

theorem incrAt_of_rd {a : Cells Nat} {i v : Nat} (h : rd a i = some v) :
    incrAt a i = some (a.set i (some (v + 1))) := by
  unfold incrAt
  rw [h]
  exact wr_of_lt a _ (rd_lt h)

/-- The pass filling `nptr` stores the running count of merged positions. -/
theorem rebuildPtr_spec {A B : SPARSEMATRIXN} (hA : Valid A) (hB : Valid B)
    (hr : A._rows = B._rows) :
    ∃ nptr, rebuildPtr A B = some nptr ∧
      ∀ i, i ≤ A._rows → rd nptr i = some (uoff A B i) := by
  unfold rebuildPtr
  rw [wr_of_lt _ _ (by simp [newArray])]
  simp only [Option.some_bind]
  have key := loopFrom_inv
    (fun i nptr =>
      (rd nptr i).bind fun v =>
      (wr nptr (i + 1) v).bind fun nptr =>
      loopFrom (fun j nptr =>
          (findInRow A i j).bind fun f =>
          match f with
          | some _ => incrAt nptr (i + 1)
          | none =>
            (findInRow B i j).bind fun g =>
            match g with
            | some _ => incrAt nptr (i + 1)
            | none => some nptr)
        0 A._columns nptr)
    (fun i (nptr : Cells Nat) => nptr.length = A._rows + 1 ∧
      ∀ r, r ≤ i → rd nptr r = some (uoff A B r))
    0 A._rows ?_ ((newArray Nat (A._rows + 1)).set 0 (some 0)) ?_
  · obtain ⟨nptr, h1, _, h3⟩ := key
    rw [Nat.zero_add] at h3
    exact ⟨nptr, h1, h3⟩
  · intro i nptr _ hi ⟨h1, h2⟩
    have hi : i < A._rows := by omega
    dsimp only
    rw [h2 i (le_refl _)]
    simp only [Option.some_bind]
    rw [wr_of_lt _ _ (by omega)]
    simp only [Option.some_bind]
    have inner := loopFrom_inv
      (fun j nptr =>
          (findInRow A i j).bind fun f =>
          match f with
          | some _ => incrAt nptr (i + 1)
          | none =>
            (findInRow B i j).bind fun g =>
            match g with
            | some _ => incrAt nptr (i + 1)
            | none => some nptr)
      (fun j (nptr : Cells Nat) => nptr.length = A._rows + 1 ∧
        (∀ r, r ≤ i → rd nptr r = some (uoff A B r)) ∧
        rd nptr (i + 1) = some (uoff A B i + ucnt A B i j))
      0 A._columns ?_ (nptr.set (i + 1) (some (uoff A B i))) ?_
    · obtain ⟨n1, g1, g2, g3, g4⟩ := inner
      refine ⟨n1, g1, g2, ?_⟩
      intro r hr1
      rcases Nat.eq_or_lt_of_le hr1 with e | e
      · rw [e, g4, Nat.zero_add, uoff_succ]
      · exact g3 r (by omega)
    · intro j n1 _ _ ⟨g2, g3, g4⟩
      dsimp only
      have push : ∃ s', incrAt n1 (i + 1) = some s' ∧ s'.length = A._rows + 1 ∧
          (∀ r, r ≤ i → rd s' r = some (uoff A B r)) ∧
          rd s' (i + 1) = some (uoff A B i + ucnt A B i j + 1) := by
        rw [incrAt_of_rd g4]
        refine ⟨_, rfl, by simpa using g2, ?_, rd_set_same _ _ (by omega)⟩
        intro r hr1
        rw [rd_set_other _ _ (by omega)]
        exact g3 r hr1
      obtain ⟨f, hf, hf1, hf2⟩ := findInRow_spec hA hi j
      rw [hf, ucnt_succ]
      simp only [Option.some_bind]
      cases f with
      | some k =>
        obtain ⟨a, b, e⟩ := hf1 k rfl
        have : stored A i j ∨ stored B i j := Or.inl (stored_of_slot a b e)
        rw [if_pos this]
        exact push
      | none =>
        obtain ⟨g, hg, hg1, hg2⟩ := findInRow_spec hB (i := i) (by omega) j
        simp only [hg, Option.some_bind]
        cases g with
        | some k =>
          obtain ⟨a, b, e⟩ := hg1 k rfl
          have : stored A i j ∨ stored B i j := Or.inr (stored_of_slot a b e)
          rw [if_pos this]
          exact push
        | none =>
          have : ¬ (stored A i j ∨ stored B i j) := fun c => c.elim (hf2 rfl) (hg2 rfl)
          rw [if_neg this]
          exact ⟨_, rfl, g2, g3, g4⟩
    · refine ⟨by simpa using h1, ?_, ?_⟩
      · intro r hr1
        rw [rd_set_other _ _ (by omega)]
        exact h2 r hr1
      · rw [ucnt_zero, Nat.add_zero]
        exact rd_set_same _ _ (by omega)
  · refine ⟨by simp [newArray], ?_⟩
    intro r hr1
    have : r = 0 := by omega
    subst this
    rw [uoff_zero]
    exact rd_set_same _ _ (by simp [newArray])

theorem RebuildInv.nz_lt_total {solo : REAL → REAL} {A B : SPARSEMATRIXN} {i j : Nat}
    {s : Merged} (h : RebuildInv solo A B i j s) (hi : i < A._rows) (hj : j < A._columns)
    (hU : stored A i j ∨ stored B i j) : s.nz < uoff A B A._rows := by
  have h1 := ucnt_succ A B i j
  rw [if_pos hU] at h1
  have h2 := ucnt_mono A B i (show j + 1 ≤ A._columns by omega)
  have h3 := uoff_succ A B i
  have h4 := uoff_mono A B (show i + 1 ≤ A._rows by omega)
  have h5 := h.nz_eq
  omega

/-- Skipping a position stored in neither operand keeps the invariant. -/
theorem RebuildInv.skip {solo : REAL → REAL} (hsolo : solo 0 = 0) {A B : SPARSEMATRIXN}
    {i j : Nat} {s : Merged} (h : RebuildInv solo A B i j s)
    (hU : ¬ (stored A i j ∨ stored B i j)) : RebuildInv solo A B i (j + 1) s := by
  have eA : A.entry i j = 0 := entry_of_not_stored (fun c => hU (Or.inl c))
  have eB : B.entry i j = 0 := entry_of_not_stored (fun c => hU (Or.inr c))
  refine ⟨h.len_i, h.len_d, ?_, h.init, h.asc_done, h.asc_cur, ?_, h.sum_done, ?_⟩
  · rw [h.nz_eq, ucnt_succ, if_neg hU]; rfl
  · intro k a b
    have := h.cur_lt k a b; omega
  · intro c
    rw [h.sum_cur c]
    by_cases c1 : c < j
    · rw [if_pos c1, if_pos (by omega)]
    · by_cases c2 : c = j
      · subst c2
        rw [if_neg c1, if_pos (Nat.lt_succ_self _), eA, eB, hsolo, add_zero]
      · rw [if_neg c1, if_neg (by omega)]

/-- Appending the merged position `(i,j)` at slot `nz` keeps the invariant. -/
theorem RebuildInv.push {solo : REAL → REAL} {A B : SPARSEMATRIXN}
    {i j : Nat} {s s' : Merged} (h : RebuildInv solo A B i j s) (hj : j < A._columns)
    (hU : stored A i j ∨ stored B i j)
    (hnz : s'.nz = s.nz + 1)
    (hli : s'.nindices.length = s.nindices.length) (hld : s'.ndata.length = s.ndata.length)
    (hi1 : rd s'.nindices s.nz = some j)
    (hd1 : rd s'.ndata s.nz = some (A.entry i j + solo (B.entry i j)))
    (hi2 : ∀ k, k ≠ s.nz → rd s'.nindices k = rd s.nindices k)
    (hd2 : ∀ k, k ≠ s.nz → rd s'.ndata k = rd s.ndata k) :
    RebuildInv solo A B i (j + 1) s' := by
  have Ieq : ∀ k, k ≠ s.nz → s'.Ix k = s.Ix k := fun k hk => by
    unfold Merged.Ix; rw [hi2 k hk]
  have Veq : ∀ k, k ≠ s.nz → s'.Vx k = s.Vx k := fun k hk => by
    unfold Merged.Vx; rw [hd2 k hk]
  have Inz : s'.Ix s.nz = j := by unfold Merged.Ix; rw [hi1]; rfl
  have Vnz : s'.Vx s.nz = A.entry i j + solo (B.entry i j) := by
    unfold Merged.Vx; rw [hd1]; rfl
  have hnzeq := h.nz_eq
  have hsum : ∀ a b, b ≤ s.nz → ∀ c,
      ∑ k ∈ Finset.Ico a b, (if s'.Ix k = c then s'.Vx k else 0)
        = ∑ k ∈ Finset.Ico a b, (if s.Ix k = c then s.Vx k else 0) := by
    intro a b hb c
    apply Finset.sum_congr rfl
    intro k hk
    have hk := Finset.mem_Ico.mp hk
    rw [Ieq k (by omega), Veq k (by omega)]
  refine ⟨hli.trans h.len_i, hld.trans h.len_d, ?_, ?_, ?_, ?_, ?_, ?_, ?_⟩
  · rw [hnz, h.nz_eq, ucnt_succ, if_pos hU]; omega
  · intro k hk
    rw [hnz] at hk
    rcases Nat.eq_or_lt_of_le (Nat.lt_succ_iff.mp hk) with c | c
    · subst c
      rw [hi1, hd1, Inz]
      exact ⟨rfl, rfl, hj⟩
    · rw [hi2 k (by omega), hd2 k (by omega), Ieq k (by omega)]
      exact h.init k c
  · intro r hr k a b
    have := uoff_mono A B (show r + 1 ≤ i by omega)
    rw [Ieq k (by omega), Ieq (k + 1) (by omega)]
    exact h.asc_done r hr k a b
  · intro k a b
    rw [hnz] at b
    by_cases c : k + 1 = s.nz
    · rw [c, Inz, Ieq k (by omega)]
      exact h.cur_lt k a (by omega)
    · rw [Ieq k (by omega), Ieq (k + 1) c]
      exact h.asc_cur k a (by omega)
  · intro k a b
    rw [hnz] at b
    by_cases c : k = s.nz
    · rw [c, Inz]; omega
    · rw [Ieq k c]
      have := h.cur_lt k a (by omega); omega
  · intro r hr c
    have := uoff_mono A B (show r + 1 ≤ i by omega)
    rw [hsum _ _ (by omega) c]
    exact h.sum_done r hr c
  · intro c
    rw [hnz, Finset.sum_Ico_succ_top (by omega), hsum _ _ (le_refl _) c, h.sum_cur c, Inz, Vnz]
    by_cases c1 : c < j
    · have c3 : c < j + 1 := by omega
      have : ¬ j = c := by omega
      simp [c1, c3, this]
    · by_cases c2 : c = j
      · subst c2
        simp
      · have c3 : ¬ c < j + 1 := by omega
        have : ¬ j = c := fun e => c2 e.symm
        simp [c1, c3, this]

/-- A completed row joins the rows below. -/
theorem RebuildInv.next_row {solo : REAL → REAL} {A B : SPARSEMATRIXN}
    {i : Nat} {s : Merged} (h : RebuildInv solo A B i A._columns s)
    (hcols : ∀ c, A._columns ≤ c → A.entry i c + solo (B.entry i c) = 0) :
    RebuildInv solo A B (i + 1) 0 s := by
  have e : s.nz = uoff A B (i + 1) := by rw [h.nz_eq, uoff_succ]
  refine ⟨h.len_i, h.len_d, by rw [e, ucnt_zero]; rfl, h.init, ?_, ?_, ?_, ?_, ?_⟩
  · intro r hr k a b
    rcases Nat.eq_or_lt_of_le (Nat.lt_succ_iff.mp hr) with c | c
    · subst c
      exact h.asc_cur k a (by omega)
    · exact h.asc_done r c k a b
  · intro k a b; omega
  · intro k a b; omega
  · intro r hr c
    rcases Nat.eq_or_lt_of_le (Nat.lt_succ_iff.mp hr) with c1 | c1
    · subst c1
      rw [← e, h.sum_cur c]
      by_cases c2 : c < A._columns
      · rw [if_pos c2]
      · rw [if_neg c2, hcols c (by omega)]
    · exact h.sum_done r c1 c
  · intro c
    rw [e]; simp

theorem rebuildData_step (comb : REAL → REAL → REAL) (solo : REAL → REAL)
    (hcomb : ∀ a b, comb a b = a + solo b) (hsolo : solo 0 = 0)
    {A B : SPARSEMATRIXN} (hA : Valid A) (hB : Valid B) (hr : A._rows = B._rows)
    {i : Nat} (hi : i < A._rows) {j : Nat} (hj : j < A._columns) (s : Merged)
    (hinv : RebuildInv solo A B i j s) :
    ∃ s', ((findInRow A i j).bind fun f =>
          (match f with
            | some k =>
              (rd A._data k).bind fun x =>
              (wr s.ndata s.nz x).bind fun nd =>
              (rd A._indices k).bind fun c =>
              (wr s.nindices s.nz c).bind fun ni =>
              some ({ s with nindices := ni, ndata := nd }, true)
            | none => some (s, false)).bind fun (sf : Merged × Bool) =>
          (findInRow B i j).bind fun g =>
          (match g with
            | some k =>
              if sf.2 then
                (rd sf.1.ndata sf.1.nz).bind fun old =>
                (rd B._data k).bind fun b =>
                (wr sf.1.ndata sf.1.nz (comb old b)).bind fun nd =>
                some ({ sf.1 with ndata := nd }, true)
              else
                (rd B._data k).bind fun b =>
                (wr sf.1.ndata sf.1.nz (solo b)).bind fun nd =>
                (rd B._indices k).bind fun c =>
                (wr sf.1.nindices sf.1.nz c).bind fun ni =>
                some ({ sf.1 with nindices := ni, ndata := nd }, true)
            | none => some sf).bind fun (sg : Merged × Bool) =>
          some (if sg.2 then { sg.1 with nz := sg.1.nz + 1 } else sg.1)) = some s' ∧
      RebuildInv solo A B i (j + 1) s' := by
  obtain ⟨f, hf, hf1, hf2⟩ := findInRow_spec hA hi j
  obtain ⟨g, hg, hg1, hg2⟩ := findInRow_spec hB (i := i) (by omega) j
  rw [hf]
  simp only [Option.some_bind]
  cases f with
  | some ka =>
    obtain ⟨a1, a2, a3⟩ := hf1 ka rfl
    have hU : stored A i j ∨ stored B i j := Or.inl (stored_of_slot a1 a2 a3)
    have hka : ka < A._nnz := lt_of_lt_of_le a2 (hA.P_le_nnz (by omega))
    have hnz := hinv.nz_lt_total hi hj hU
    have eA : A.entry i j = A.V ka := by rw [← a3]; exact hA.entry_of_slot hi a1 a2
    have l1 : s.nz < s.ndata.length := by rw [hinv.len_d]; exact hnz
    have l2 : s.nz < s.nindices.length := by rw [hinv.len_i]; exact hnz
    simp only [hA.rd_data hka, hA.rd_indices hka, Option.some_bind, wr_of_lt _ _ l1,
      wr_of_lt _ _ l2, hg]
    cases g with
    | some kb =>
      obtain ⟨b1, b2, b3⟩ := hg1 kb rfl
      have hkb : kb < B._nnz := lt_of_lt_of_le b2 (hB.P_le_nnz (by omega))
      have eB : B.entry i j = B.V kb := by rw [← b3]; exact hB.entry_of_slot (by omega) b1 b2
      have l3 : s.nz < (s.ndata.set s.nz (some (A.V ka))).length := by simpa using l1
      simp only [if_true, rd_set_same _ _ l1, hB.rd_data hkb, Option.some_bind,
        wr_of_lt _ _ l3]
      refine ⟨_, rfl, hinv.push hj hU rfl (by simp) (by simp) ?_ ?_ ?_ ?_⟩
      · simp only; rw [rd_set_same _ _ l2, a3]
      · simp only; rw [rd_set_same _ _ l3, hcomb, eA, eB]
      · intro k hk; simp only; rw [rd_set_other _ _ hk]
      · intro k hk; simp only; rw [rd_set_other _ _ hk, rd_set_other _ _ hk]
    | none =>
      have eB : B.entry i j = 0 := entry_of_not_stored (hg2 rfl)
      simp only [Option.some_bind, if_true]
      refine ⟨_, rfl, hinv.push hj hU rfl (by simp) (by simp) ?_ ?_ ?_ ?_⟩
      · simp only; rw [rd_set_same _ _ l2, a3]
      · simp only; rw [rd_set_same _ _ l1, eA, eB, hsolo, add_zero]
      · intro k hk; simp only; rw [rd_set_other _ _ hk]
      · intro k hk; simp only; rw [rd_set_other _ _ hk]
  | none =>
    have eA : A.entry i j = 0 := entry_of_not_stored (hf2 rfl)
    simp only [Option.some_bind, hg]
    cases g with
    | some kb =>
      obtain ⟨b1, b2, b3⟩ := hg1 kb rfl
      have hU : stored A i j ∨ stored B i j := Or.inr (stored_of_slot b1 b2 b3)
      have hkb : kb < B._nnz := lt_of_lt_of_le b2 (hB.P_le_nnz (by omega))
      have eB : B.entry i j = B.V kb := by rw [← b3]; exact hB.entry_of_slot (by omega) b1 b2
      have hnz := hinv.nz_lt_total hi hj hU
      have l1 : s.nz < s.ndata.length := by rw [hinv.len_d]; exact hnz
      have l2 : s.nz < s.nindices.length := by rw [hinv.len_i]; exact hnz
      simp only [Bool.false_eq_true, if_false, hB.rd_data hkb, hB.rd_indices hkb,
        Option.some_bind, wr_of_lt _ _ l1, wr_of_lt _ _ l2, if_true]
      refine ⟨_, rfl, hinv.push hj hU rfl (by simp) (by simp) ?_ ?_ ?_ ?_⟩
      · simp only; rw [rd_set_same _ _ l2, b3]
      · simp only; rw [rd_set_same _ _ l1, eA, eB, zero_add]
      · intro k hk; simp only; rw [rd_set_other _ _ hk]
      · intro k hk; simp only; rw [rd_set_other _ _ hk]
    | none =>
      simp only [Option.some_bind, Bool.false_eq_true, if_false]
      exact ⟨_, rfl, hinv.skip hsolo (fun c => c.elim (hf2 rfl) (hg2 rfl))⟩

/-- The pass filling `nindices` and `ndata` is defined and ends with all rows complete. -/
theorem rebuildData_spec (comb : REAL → REAL → REAL) (solo : REAL → REAL)
    (hcomb : ∀ a b, comb a b = a + solo b) (hsolo : solo 0 = 0)
    {A B : SPARSEMATRIXN} (hA : Valid A) (hB : Valid B) (hr : A._rows = B._rows)
    (hc : A._columns = B._columns) :
    ∃ s, rebuildData comb solo A B (uoff A B A._rows) = some s ∧
      RebuildInv solo A B A._rows 0 s := by
  unfold rebuildData
  have key := loopFrom_inv
    (fun i s =>
      loopFrom (fun j (s : Merged) =>
          (findInRow A i j).bind fun f =>
          (match f with
            | some k =>
              (rd A._data k).bind fun x =>
              (wr s.ndata s.nz x).bind fun nd =>
              (rd A._indices k).bind fun c =>
              (wr s.nindices s.nz c).bind fun ni =>
              some ({ s with nindices := ni, ndata := nd }, true)
            | none => some (s, false)).bind fun (sf : Merged × Bool) =>
          (findInRow B i j).bind fun g =>
          (match g with
            | some k =>
              if sf.2 then
                (rd sf.1.ndata sf.1.nz).bind fun old =>
                (rd B._data k).bind fun b =>
                (wr sf.1.ndata sf.1.nz (comb old b)).bind fun nd =>
                some ({ sf.1 with ndata := nd }, true)
              else
                (rd B._data k).bind fun b =>
                (wr sf.1.ndata sf.1.nz (solo b)).bind fun nd =>
                (rd B._indices k).bind fun c =>
                (wr sf.1.nindices sf.1.nz c).bind fun ni =>
                some ({ sf.1 with nindices := ni, ndata := nd }, true)
            | none => some sf).bind fun (sg : Merged × Bool) =>
          some (if sg.2 then { sg.1 with nz := sg.1.nz + 1 } else sg.1))
        0 A._columns s)
    (fun i s => RebuildInv solo A B i 0 s) 0 A._rows ?_
    { nindices := newArray Nat (uoff A B A._rows), ndata := newArray REAL (uoff A B A._rows),
      nz := 0 } ?_
  · obtain ⟨s, h1, h2⟩ := key
    rw [Nat.zero_add] at h2
    exact ⟨s, h1, h2⟩
  · intro i s _ hi hinv
    have hi : i < A._rows := by omega
    dsimp only
    have inner := loopFrom_inv _ (fun j s => RebuildInv solo A B i j s) 0 A._columns
      (fun j s _ hj hinv =>
        rebuildData_step comb solo hcomb hsolo hA hB hr hi (show j < A._columns by omega) s hinv)
      s hinv
    obtain ⟨s1, g1, g2⟩ := inner
    rw [Nat.zero_add] at g2
    refine ⟨s1, g1, g2.next_row ?_⟩
    intro c hcc
    have nA : ¬ stored A i c := fun h => by
      have := hA.stored_lt hi h; omega
    have nB : ¬ stored B i c := fun h => by
      have := hB.stored_lt (i := i) (by omega) h; omega
    rw [entry_of_not_stored nA, entry_of_not_stored nB, hsolo, add_zero]
  · refine ⟨by simp [newArray], by simp [newArray], by simp [uoff_zero, ucnt_zero], ?_, ?_, ?_,
      ?_, ?_, ?_⟩
    · intro k hk; simp at hk
    · intro r hr1; omega
    · intro k _ hk; simp at hk
    · intro k _ hk; simp at hk
    · intro r hr1; omega
    · intro c; simp [uoff_zero]

/-- Every slot of a valid matrix lies in the range of some row. -/
theorem Valid.row_of_slot {A : SPARSEMATRIXN} (h : Valid A) {k : Nat} (hk : k < A._nnz) :
    ∃ r, r < A._rows ∧ A.P r ≤ k ∧ k < A.P (r + 1) := by
  have aux : ∀ n, n ≤ A._rows → k < A.P n →
      ∃ r, r < n ∧ A.P r ≤ k ∧ k < A.P (r + 1) := by
    intro n
    induction n with
    | zero => intro _ h0; rw [h.2.1] at h0; omega
    | succ n ih =>
      intro hn hlt
      by_cases c : k < A.P n
      · obtain ⟨r, r1, r2, r3⟩ := ih (by omega) c
        exact ⟨r, by omega, r2, r3⟩
      · exact ⟨n, by omega, by omega, hlt⟩
  obtain ⟨r, r1, r2, r3⟩ := aux A._rows (le_refl _) (by rw [h.2.2.2.1]; exact hk)
  exact ⟨r, r1, r2, r3⟩

/-- The common body of `operator+=` and `operator-=` on valid operands of equal dimensions: the
call returns a valid matrix of the same dimensions whose entry at every position is the entry
of `A` plus the sign-adjusted entry of `B`. -/
theorem addSub_spec (comb : REAL → REAL → REAL) (solo : REAL → REAL)
    (hcomb : ∀ a b, comb a b = a + solo b) (hsolo : solo 0 = 0) (NEXCEPT : Bool)
    {A B : SPARSEMATRIXN} (hA : Valid A) (hB : Valid B) (hr : A._rows = B._rows)
    (hc : A._columns = B._columns) :
    ∃ A', addSub comb solo NEXCEPT A B = Outcome.done A' ∧ Valid A' ∧
      A'._rows = A._rows ∧ A'._columns = A._columns ∧
      ∀ r c, r < A._rows → A'.entry r c = A.entry r c + solo (B.entry r c) := by
  unfold addSub
  rw [if_neg (by simp [hr, hc]), countUnion_spec hA hB hr, hA.rd_ptr (le_refl _)]
  simp only [Option.some_bind]
  by_cases hfast : uoff A B A._rows = A.P A._rows
  · rw [if_pos hfast]
    have hsub : ∀ i j, i < A._rows → stored B i j → stored A i j :=
      fun i j hi hs => stored_subset_of_count hA hB hr hc hfast hi hs
    obtain ⟨s, hs, hd⟩ := fastPath_spec comb solo hcomb hsolo hA hB hr hsub
    rw [hs]
    have hV : Valid { A with _data := s.1 } := by
      refine ⟨hA.1, hA.2.1, hA.2.2.1, hA.2.2.2.1, ?_, hA.2.2.2.2.2.1, hA.2.2.2.2.2.2⟩
      intro k hk
      refine ⟨(hA.2.2.2.2.1 k hk).1, ?_⟩
      obtain ⟨r, r1, r2, r3⟩ := hA.row_of_slot hk
      show (rd s.1 k).isSome = true
      rw [hd r r1 k r2 r3]; rfl
    refine ⟨_, rfl, hV, rfl, rfl, ?_⟩
    intro r c hr1
    by_cases hst : stored A r c
    · obtain ⟨k, hk, e⟩ := hst
      have hk := Finset.mem_Ico.mp hk
      have e1 := hV.entry_of_slot (r := r) hr1 (k := k) hk.1 hk.2
      have e2 := hA.entry_of_slot hr1 hk.1 hk.2
      have e3 : ({ A with _data := s.1 } : SPARSEMATRIXN).V k
          = A.V k + solo (B.entry r (A.I k)) := by
        show (rd s.1 k).getD 0 = _
        rw [hd r hr1 k hk.1 hk.2]; rfl
      have e4 : ({ A with _data := s.1 } : SPARSEMATRIXN).I k = A.I k := rfl
      rw [e4, e3] at e1
      rw [← e, e1, e2]
    · have nB : ¬ stored B r c := fun hb => hst (hsub r c hr1 hb)
      have n' : ¬ stored ({ A with _data := s.1 } : SPARSEMATRIXN) r c := hst
      rw [entry_of_not_stored n', entry_of_not_stored hst, entry_of_not_stored nB, hsolo,
        add_zero]
  · rw [if_neg hfast]
    obtain ⟨nptr, hp, hpr⟩ := rebuildPtr_spec hA hB hr
    obtain ⟨s, hs, hinv⟩ := rebuildData_spec comb solo hcomb hsolo hA hB hr hc
    rw [hp, hs]
    simp only [Option.some_bind, Outcome.ofOption]
    have hnz : s.nz = uoff A B A._rows := by rw [hinv.nz_eq, ucnt_zero]; rfl
    have hP : ∀ i, i ≤ A._rows → SPARSEMATRIXN.P
        { A with _ptr := nptr, _indices := s.nindices, _data := s.ndata, _nnz := s.nz } i
          = uoff A B i := by
      intro i hi
      show (rd nptr i).getD 0 = _
      rw [hpr i hi]; rfl
    have hV : Valid
        { A with _ptr := nptr, _indices := s.nindices, _data := s.ndata, _nnz := s.nz } := by
      refine ⟨?_, ?_, ?_, ?_, ?_, ?_, ?_⟩
      · intro i hi
        show (rd nptr i).isSome = true
        rw [hpr i (by simp at hi; omega)]; rfl
      · rw [hP 0 (Nat.zero_le _), uoff_zero]
      · intro i hi
        rw [hP i (le_of_lt hi), hP (i + 1) hi]
        exact uoff_mono A B (Nat.le_succ i)
      · rw [hP _ (le_refl _)]; exact hnz.symm
      · intro k hk
        exact ⟨(hinv.init k hk).1, (hinv.init k hk).2.1⟩
      · intro i hi k _ a b
        rw [hP i (le_of_lt hi)] at a
        rw [hP (i + 1) hi] at b
        exact hinv.asc_done i hi k a b
      · intro k hk
        exact (hinv.init k hk).2.2
    refine ⟨_, rfl, hV, rfl, rfl, ?_⟩
    intro r c hr1
    unfold entry
    rw [hP r (le_of_lt hr1), hP (r + 1) hr1]
    exact hinv.sum_done r hr1 c

theorem sampleA_valid : Valid sampleA := by decide

theorem sampleB_valid : Valid sampleB := by decide

/-- C6: for a valid sparse matrix `A` and a dense vector `x` of size `A.rows`,
`transpose_mult(x)` returns the vector of length `A.columns` whose entry `c` is the sum over the
rows `r` of `to_dense(A)(r,c) * x[r]`, the product of the dense transpose of `A` with `x`. -/
theorem transpose_mult_VECTORN_dense (NEXCEPT : Bool) (A : SPARSEMATRIXN) (x result : VECTORN)
    (m : MATRIXN) (hA : Valid A) (hx : x.length = A._rows) :
    ∃ D y, A.to_dense m = some D ∧
      A.transpose_mult_VECTORN NEXCEPT x result = Outcome.done y ∧ y.length = A._columns ∧
      ∀ c, c < A._columns →
        y.getD c 0 = ∑ r ∈ Finset.range A._rows, D.cell r c * x.getD r 0 := by
  obtain ⟨D, d1, _, _, d4⟩ := to_dense_spec A m hA
  obtain ⟨y, y1, y2, y3⟩ := transpose_mult_VECTORN_entry NEXCEPT A x result hA hx
  refine ⟨D, y, d1, y1, y2, ?_⟩
  intro c hc
  rw [y3 c hc]
  apply Finset.sum_congr rfl
  intro r hr
  rw [d4 r c, if_pos (Finset.mem_range.mp hr)]

/-- The statement of `transpose_mult_VECTORN_dense` at `sampleA` and `x = [1, 1]`. -/
theorem transpose_mult_VECTORN_dense_witness :
    ∃ D y, sampleA.to_dense (MATRIXN.set_zero 0 0) = some D ∧
      sampleA.transpose_mult_VECTORN false [1, 1] [] = Outcome.done y ∧
      y.length = sampleA._columns ∧
      ∀ c, c < sampleA._columns →
        y.getD c 0 =
          ∑ r ∈ Finset.range sampleA._rows, D.cell r c * ([1, 1] : VECTORN).getD r 0 :=
  transpose_mult_VECTORN_dense false sampleA [1, 1] [] (MATRIXN.set_zero 0 0) (by decide)
    (by decide)

/-- C7: for a valid sparse matrix `A` and a dense matrix `M` with `M.rows = A.columns`,
`mult(M)` returns the `A.rows × M.columns` matrix equal to the dense product
`to_dense(A) * M`, whatever the previous size and content of the result container. -/
theorem mult_MATRIXN_dense (NEXCEPT : Bool) (A : SPARSEMATRIXN) (M result m : MATRIXN)
    (hA : Valid A) (hM : M.rows = A._columns) :
    ∃ D R, A.to_dense m = some D ∧ A.mult_MATRIXN NEXCEPT M result = Outcome.done R ∧
      R.rows = A._rows ∧ R.columns = M.columns ∧
      ∀ r c, r < A._rows → c < M.columns →
        R.cell r c = ∑ k ∈ Finset.range A._columns, D.cell r k * M.cell k c := by
  obtain ⟨D, d1, _, _, d4⟩ := to_dense_spec A m hA
  obtain ⟨R, r1, r2, r3, r4⟩ := mult_MATRIXN_entry NEXCEPT A M result hA hM
  refine ⟨D, R, d1, r1, r2, r3, ?_⟩
  intro r c hr hc
  rw [r4 r c hr hc]
  apply Finset.sum_congr rfl
  intro k _
  rw [d4 r k, if_pos hr]

/-- The statement of `mult_MATRIXN_dense` at `sampleA`, `sampleM` and a 5 × 5 result container. -/
theorem mult_MATRIXN_dense_witness :
    ∃ D R, sampleA.to_dense (MATRIXN.set_zero 0 0) = some D ∧
      sampleA.mult_MATRIXN false sampleM (MATRIXN.set_zero 5 5) = Outcome.done R ∧
      R.rows = sampleA._rows ∧ R.columns = sampleM.columns ∧
      ∀ r c, r < sampleA._rows → c < sampleM.columns →
        R.cell r c = ∑ k ∈ Finset.range sampleA._columns, D.cell r k * sampleM.cell k c :=
  mult_MATRIXN_dense false sampleA sampleM (MATRIXN.set_zero 5 5) (MATRIXN.set_zero 0 0)
    (by decide) (by decide)

theorem Outcome.ofOption_ne_thrown {σ : Type} (o : Option σ) (e : Exn) (s : σ) :
    Outcome.ofOption o ≠ Outcome.thrown e s := by
  cases o <;> simp [Outcome.ofOption]

theorem addSub_thrown (comb : REAL → REAL → REAL) (solo : REAL → REAL) (A B : SPARSEMATRIXN) :
    (addSub comb solo false A B = Outcome.thrown Exn.MissizeException A ↔
      (A._rows ≠ B._rows ∨ A._columns ≠ B._columns)) ∧
    (∀ e s, addSub comb solo false A B = Outcome.thrown e s →
      e = Exn.MissizeException ∧ s = A) := by
  unfold addSub
  by_cases h : A._rows ≠ B._rows ∨ A._columns ≠ B._columns
  · rw [if_pos ⟨rfl, h⟩]
    refine ⟨⟨fun _ => h, fun _ => rfl⟩, ?_⟩
    intro e s hes
    cases hes
    exact ⟨rfl, rfl⟩
  · rw [if_neg (fun c => h c.2)]
    refine ⟨⟨fun c => absurd c (Outcome.ofOption_ne_thrown _ _ _), fun c => absurd c h⟩, ?_⟩
    intro e s hes
    exact absurd hes (Outcome.ofOption_ne_thrown _ _ _)

/-- C8: with bounds checking enabled (`NEXCEPT` not defined), `A += B` and `A -= B` throw
`MissizeException` exactly when `A.rows != B.rows` or `A.columns != B.columns`; whenever the
call throws, the exception is `MissizeException` and every field and array of `A` is as before
the call (`B` is passed by `const` reference and is not part of the mutable state). -/
theorem plus_minus_eq_missize (A B : SPARSEMATRIXN) :
    ((operator_plus_eq false A B = Outcome.thrown Exn.MissizeException A ↔
        (A._rows ≠ B._rows ∨ A._columns ≠ B._columns)) ∧
      (∀ e s, operator_plus_eq false A B = Outcome.thrown e s →
        e = Exn.MissizeException ∧ s = A)) ∧
    ((operator_minus_eq false A B = Outcome.thrown Exn.MissizeException A ↔
        (A._rows ≠ B._rows ∨ A._columns ≠ B._columns)) ∧
      (∀ e s, operator_minus_eq false A B = Outcome.thrown e s →
        e = Exn.MissizeException ∧ s = A)) :=
  ⟨addSub_thrown _ _ A B, addSub_thrown _ _ A B⟩

/-- C9: with bounds checking enabled, `mult` throws `MissizeException` exactly when
`A.columns` differs from the row count of the dense matrix operand or the size of the dense
vector operand, and `transpose_mult` exactly when `A.rows` differs from it; whenever one of
them throws, the exception is `MissizeException` and the result container is as before the
call (the sparse matrix and the operand are `const`). -/
theorem mult_missize (A : SPARSEMATRIXN) (x rv : VECTORN) (M rm : MATRIXN) :
    ((A.mult_MATRIXN false M rm = Outcome.thrown Exn.MissizeException rm ↔
        A._columns ≠ M.rows) ∧
      (∀ e s, A.mult_MATRIXN false M rm = Outcome.thrown e s →
        e = Exn.MissizeException ∧ s = rm)) ∧
    ((A.mult_VECTORN false x rv = Outcome.thrown Exn.MissizeException rv ↔
        A._columns ≠ x.length) ∧
      (∀ e s, A.mult_VECTORN false x rv = Outcome.thrown e s →
        e = Exn.MissizeException ∧ s = rv)) ∧
    ((A.transpose_mult_MATRIXN false M rm = Outcome.thrown Exn.MissizeException rm ↔
        A._rows ≠ M.rows) ∧
      (∀ e s, A.transpose_mult_MATRIXN false M rm = Outcome.thrown e s →
        e = Exn.MissizeException ∧ s = rm)) ∧
    ((A.transpose_mult_VECTORN false x rv = Outcome.thrown Exn.MissizeException rv ↔
        A._rows ≠ x.length) ∧
      (∀ e s, A.transpose_mult_VECTORN false x rv = Outcome.thrown e s →
        e = Exn.MissizeException ∧ s = rv)) := by
  refine ⟨?_, ?_, ?_, ?_⟩
  · unfold mult_MATRIXN
    by_cases h : A._columns ≠ M.rows
    · rw [if_pos ⟨rfl, h⟩]
      refine ⟨⟨fun _ => h, fun _ => rfl⟩, ?_⟩
      intro e s hes; cases hes; exact ⟨rfl, rfl⟩
    · rw [if_neg (fun c => h c.2)]
      refine ⟨⟨fun c => absurd c (Outcome.ofOption_ne_thrown _ _ _), fun c => absurd c h⟩,
        ?_⟩
      intro e s hes
      exact absurd hes (Outcome.ofOption_ne_thrown _ _ _)
  · unfold mult_VECTORN
    by_cases h : A._columns ≠ x.length
    · rw [if_pos ⟨rfl, h⟩]
      refine ⟨⟨fun _ => h, fun _ => rfl⟩, ?_⟩
      intro e s hes; cases hes; exact ⟨rfl, rfl⟩
    · rw [if_neg (fun c => h c.2)]
      refine ⟨⟨fun c => absurd c (Outcome.ofOption_ne_thrown _ _ _), fun c => absurd c h⟩,
        ?_⟩
      intro e s hes
      exact absurd hes (Outcome.ofOption_ne_thrown _ _ _)
  · unfold transpose_mult_MATRIXN
    by_cases h : A._rows ≠ M.rows
    · rw [if_pos ⟨rfl, h⟩]
      refine ⟨⟨fun _ => h, fun _ => rfl⟩, ?_⟩
      intro e s hes; cases hes; exact ⟨rfl, rfl⟩
    · rw [if_neg (fun c => h c.2)]
      refine ⟨⟨fun c => absurd c (Outcome.ofOption_ne_thrown _ _ _), fun c => absurd c h⟩,
        ?_⟩
      intro e s hes
      exact absurd hes (Outcome.ofOption_ne_thrown _ _ _)
  · unfold transpose_mult_VECTORN
    by_cases h : A._rows ≠ x.length
    · rw [if_pos ⟨rfl, h⟩]
      refine ⟨⟨fun _ => h, fun _ => rfl⟩, ?_⟩
      intro e s hes; cases hes; exact ⟨rfl, rfl⟩
    · rw [if_neg (fun c => h c.2)]
      refine ⟨⟨fun c => absurd c (Outcome.ofOption_ne_thrown _ _ _), fun c => absurd c h⟩,
        ?_⟩
      intro e s hes
      exact absurd hes (Outcome.ofOption_ne_thrown _ _ _)

end SPARSEMATRIXN

theorem keyLt_irrefl (a : Nat × Nat) : ¬ keyLt a a := by
  unfold keyLt; omega

theorem keyLt_trans {a b c : Nat × Nat} (h1 : keyLt a b) (h2 : keyLt b c) : keyLt a c := by
  unfold keyLt at *; omega

theorem keyLt_trichotomy (a b : Nat × Nat) : keyLt a b ∨ a = b ∨ keyLt b a := by
  unfold keyLt
  rcases Nat.lt_trichotomy a.1 b.1 with h | h | h
  · exact Or.inl (Or.inl h)
  · rcases Nat.lt_trichotomy a.2 b.2 with g | g | g
    · exact Or.inl (Or.inr ⟨h, g⟩)
    · exact Or.inr (Or.inl (Prod.ext h g))
    · exact Or.inr (Or.inr (Or.inr ⟨h.symm, g⟩))
  · exact Or.inr (Or.inr (Or.inl h))

theorem keyLt_succ (a : Nat × Nat) (r s : Nat) :
    keyLt a (r, s + 1) ↔ keyLt a (r, s) ∨ a = (r, s) := by
  unfold keyLt
  constructor
  · intro h
    rcases h with h | ⟨h1, h2⟩
    · exact Or.inl (Or.inl h)
    · rcases Nat.eq_or_lt_of_le (Nat.lt_succ_iff.mp h2) with e | e
      · exact Or.inr (Prod.ext h1 e)
      · exact Or.inl (Or.inr ⟨h1, e⟩)
  · intro h
    rcases h with (h | ⟨h1, h2⟩) | h
    · exact Or.inl h
    · exact Or.inr ⟨h1, by simp at h2 ⊢; omega⟩
    · subst h; exact Or.inr ⟨rfl, by simp⟩

theorem ValueMap.rank_nil (x : Nat × Nat) : ValueMap.rank [] x = 0 := rfl

theorem ValueMap.rank_cons (e : (Nat × Nat) × REAL) (t : ValueMap) (x : Nat × Nat) :
    ValueMap.rank (e :: t) x = ValueMap.rank t x + if keyLt e.1 x then 1 else 0 := by
  unfold ValueMap.rank
  rw [List.countP_cons]
  simp

theorem ValueMap.rank_le_length (values : ValueMap) (x : Nat × Nat) :
    values.rank x ≤ values.length :=
  List.countP_le_length _

theorem ValueMap.keyAt_zero (e : (Nat × Nat) × REAL) (t : ValueMap) :
    ValueMap.keyAt (e :: t) 0 = e.1 := rfl

theorem ValueMap.keyAt_succ (e : (Nat × Nat) × REAL) (t : ValueMap) (i : Nat) :
    ValueMap.keyAt (e :: t) (i + 1) = ValueMap.keyAt t i := rfl

theorem ValueMap.valAt_succ (e : (Nat × Nat) × REAL) (t : ValueMap) (i : Nat) :
    ValueMap.valAt (e :: t) (i + 1) = ValueMap.valAt t i := rfl

theorem ValueMap.keyAt_mem {values : ValueMap} {t : Nat} (h : t < values.length) :
    (values.keyAt t, values.valAt t) ∈ values := by
  induction values generalizing t with
  | nil => simp at h
  | cons e l ih =>
    cases t with
    | zero => exact List.mem_cons_self _ _
    | succ t =>
      rw [ValueMap.keyAt_succ, ValueMap.valAt_succ]
      exact List.mem_cons_of_mem _ (ih (by simpa using h))

theorem ValueMap.exists_index {values : ValueMap} {e : (Nat × Nat) × REAL} (h : e ∈ values) :
    ∃ t, t < values.length ∧ values.keyAt t = e.1 ∧ values.valAt t = e.2 := by
  induction values with
  | nil => simp at h
  | cons a l ih =>
    rcases List.mem_cons.mp h with c | c
    · subst c; exact ⟨0, by simp, rfl, rfl⟩
    · obtain ⟨t, t1, t2, t3⟩ := ih c
      exact ⟨t + 1, by simpa using t1, t2, t3⟩

/-- In a well-formed map the entries with key below `x` are the first `rank x` entries. -/
theorem ValueMap.WF.lt_rank_iff {values : ValueMap} (h : values.WF) (x : Nat × Nat) {t : Nat}
    (ht : t < values.length) : t < values.rank x ↔ keyLt (values.keyAt t) x := by
  induction values generalizing t with
  | nil => simp at ht
  | cons e l ih =>
    have hl : ValueMap.WF l := (List.pairwise_cons.mp h).2
    have he := (List.pairwise_cons.mp h).1
    rw [ValueMap.rank_cons]
    by_cases c : keyLt e.1 x
    · rw [if_pos c]
      cases t with
      | zero => rw [ValueMap.keyAt_zero]; exact ⟨fun _ => c, fun _ => by omega⟩
      | succ t =>
        rw [ValueMap.keyAt_succ, ← ih hl (by simpa using ht)]
        omega
    · rw [if_neg c]
      have z : ValueMap.rank l x = 0 := by
        unfold ValueMap.rank
        rw [List.countP_eq_zero]
        intro a ha
        simp only [decide_eq_true_eq]
        intro ha2
        exact c (keyLt_trans (he a ha) ha2)
      rw [z]
      cases t with
      | zero => rw [ValueMap.keyAt_zero]; exact ⟨fun h0 => by omega, fun h0 => absurd h0 c⟩
      | succ t =>
        rw [ValueMap.keyAt_succ]
        constructor
        · intro h0; omega
        · intro h0
          have hm := @ValueMap.keyAt_mem l t (by simpa using ht)
          exact absurd (keyLt_trans (he _ hm) h0) c

/-- In a well-formed map, positions are ordered as their keys. -/
theorem ValueMap.WF.keyAt_lt {values : ValueMap} (h : values.WF) {t1 t2 : Nat} (h12 : t1 < t2)
    (h2 : t2 < values.length) : keyLt (values.keyAt t1) (values.keyAt t2) := by
  induction values generalizing t1 t2 with
  | nil => simp at h2
  | cons e l ih =>
    have hl : ValueMap.WF l := (List.pairwise_cons.mp h).2
    have he := (List.pairwise_cons.mp h).1
    cases t2 with
    | zero => omega
    | succ t2 =>
      rw [ValueMap.keyAt_succ]
      cases t1 with
      | zero =>
        rw [ValueMap.keyAt_zero]
        exact he _ (ValueMap.keyAt_mem (by simpa using h2))
      | succ t1 =>
        rw [ValueMap.keyAt_succ]
        exact ih hl (by omega) (by simpa using h2)

theorem ValueMap.contains_iff (values : ValueMap) (key : Nat × Nat) :
    values.contains key = true ↔ ∃ x, (key, x) ∈ values := by
  unfold ValueMap.contains
  rw [List.any_eq_true]
  constructor
  · rintro ⟨e, he, hk⟩
    simp only [decide_eq_true_eq] at hk
    exact ⟨e.2, by rw [← hk]; exact he⟩
  · rintro ⟨x, hx⟩
    exact ⟨(key, x), hx, by simp⟩

/-- The rank of the next position of the row grows by one exactly at a key of the map, and then
the key sits at position `rank`. -/
theorem ValueMap.WF.rank_succ {values : ValueMap} (h : values.WF) (r s : Nat) :
    (values.contains (r, s) = true →
      values.rank (r, s + 1) = values.rank (r, s) + 1 ∧
      values.rank (r, s) < values.length ∧ values.keyAt (values.rank (r, s)) = (r, s)) ∧
    (values.contains (r, s) = false → values.rank (r, s + 1) = values.rank (r, s)) := by
  have mono : values.rank (r, s) ≤ values.rank (r, s + 1) := by
    unfold ValueMap.rank
    apply List.countP_mono_left
    intro e _ he
    simp only [decide_eq_true_eq] at he ⊢
    exact (keyLt_succ _ _ _).mpr (Or.inl he)
  have upper : values.rank (r, s + 1) ≤ values.rank (r, s) + 1 := by
    by_contra c
    have c : values.rank (r, s) + 1 < values.rank (r, s + 1) := by omega
    have l1 := values.rank_le_length (r, s + 1)
    have a1 := (h.lt_rank_iff (r, s + 1) (t := values.rank (r, s)) (by omega)).mp (by omega)
    have a2 := (h.lt_rank_iff (r, s + 1) (t := values.rank (r, s) + 1) (by omega)).mp c
    have b1 := mt (h.lt_rank_iff (r, s) (t := values.rank (r, s)) (by omega)).mpr (lt_irrefl _)
    have b2 := mt (h.lt_rank_iff (r, s) (t := values.rank (r, s) + 1) (by omega)).mpr (by omega)
    have e1 := ((keyLt_succ _ _ _).mp a1).resolve_left b1
    have e2 := ((keyLt_succ _ _ _).mp a2).resolve_left b2
    have := @ValueMap.WF.keyAt_lt values h (values.rank (r, s)) (values.rank (r, s) + 1) (by omega)
      (by omega)
    rw [e1, e2] at this
    exact keyLt_irrefl _ this
  constructor
  · intro hc
    obtain ⟨x, hx⟩ := (values.contains_iff _).mp hc
    obtain ⟨t, t1, t2, _⟩ := ValueMap.exists_index hx
    simp only at t2
    have n1 : ¬ t < values.rank (r, s) := fun c => by
      have := (h.lt_rank_iff (r, s) t1).mp c
      rw [t2] at this
      exact keyLt_irrefl _ this
    have n2 : t < values.rank (r, s + 1) :=
      (h.lt_rank_iff (r, s + 1) t1).mpr (by rw [t2]; exact (keyLt_succ _ _ _).mpr (Or.inr rfl))
    have e : t = values.rank (r, s) := by omega
    exact ⟨by omega, by omega, by rw [← e]; exact t2⟩
  · intro hc
    by_contra c
    have c : values.rank (r, s) < values.rank (r, s + 1) := by omega
    have l1 := values.rank_le_length (r, s + 1)
    have a1 := (h.lt_rank_iff (r, s + 1) (t := values.rank (r, s)) (by omega)).mp c
    have b1 := mt (h.lt_rank_iff (r, s) (t := values.rank (r, s)) (by omega)).mpr (lt_irrefl _)
    have e1 := ((keyLt_succ _ _ _).mp a1).resolve_left b1
    have hm := @ValueMap.keyAt_mem values (values.rank (r, s)) (by omega)
    rw [e1] at hm
    have := (values.contains_iff (r, s)).mpr ⟨_, hm⟩
    rw [hc] at this
    exact Bool.noConfusion this

theorem ValueMap.rank_next_row (values : ValueMap) (n : Nat)
    (hn : ∀ e ∈ values, e.1.2 < n) (r : Nat) : values.rank (r + 1, 0) = values.rank (r, n) := by
  unfold ValueMap.rank
  apply List.countP_congr
  intro e he
  have := hn e he
  simp only [decide_eq_true_eq, keyLt]
  omega

theorem ValueMap.rank_zero (values : ValueMap) : values.rank (0, 0) = 0 := by
  unfold ValueMap.rank
  rw [List.countP_eq_zero]
  intro e _
  simp [keyLt]

theorem ValueMap.rank_last (values : ValueMap) (m : Nat) (hm : ∀ e ∈ values, e.1.1 < m) :
    values.rank (m, 0) = values.length := by
  unfold ValueMap.rank
  rw [List.countP_eq_length]
  intro e he
  have := hm e he
  simp only [decide_eq_true_eq, keyLt]
  omega

namespace SPARSEMATRIXN

theorem ValueMap_get?_of_lt (values : ValueMap) {t : Nat} (h : t < values.length) :
    values.get? t = some (values.keyAt t, values.valAt t) := by
  unfold ValueMap.keyAt ValueMap.valAt
  rw [List.get?_eq_get h]
  rfl

/-- The loop of `set` that copies the values. -/
theorem set_data_loop (values : ValueMap) :
    ∃ data, loopFrom (fun j data =>
        (values.get? j).bind fun e => wr data j e.2) 0 values.length
          (newArray REAL values.length) = some data ∧
      ∀ t, t < values.length → rd data t = some (values.valAt t) := by
  have key := loopFrom_inv
    (fun j data => (values.get? j).bind fun e => wr data j e.2)
    (fun j (data : Cells REAL) => data.length = values.length ∧
      ∀ t, t < j → rd data t = some (values.valAt t))
    0 values.length ?_ (newArray REAL values.length) ?_
  · obtain ⟨d, h1, _, h3⟩ := key
    rw [Nat.zero_add] at h3
    exact ⟨d, h1, h3⟩
  · intro j d _ hj ⟨h1, h2⟩
    have hj : j < values.length := by omega
    dsimp only
    rw [ValueMap_get?_of_lt values hj]
    simp only [Option.some_bind]
    rw [wr_of_lt _ _ (by omega)]
    refine ⟨_, rfl, by simpa using h1, ?_⟩
    intro t ht
    rcases Nat.eq_or_lt_of_le (Nat.lt_succ_iff.mp ht) with e | e
    · subst e; exact rd_set_same _ _ (by omega)
    · rw [rd_set_other _ _ (by omega)]; exact h2 t e
  · exact ⟨by simp [newArray], fun t ht => by omega⟩

/-- The loop of `set` that fills `_ptr` and `_indices`. -/
theorem set_ptr_loop (values : ValueMap) (hWF : values.WF) (m n : Nat)
    (hn : ∀ e ∈ values, e.1.2 < n) :
    ∃ st, loopFrom (fun r st =>
        (loopFrom (fun s (st : SetState) =>
            if values.contains (r, s) then
              (wr st.indices st.k s).bind fun ix =>
              some { st with j := st.j + 1, k := st.k + 1, indices := ix }
            else some st) 0 n st).bind fun st =>
        (wr st.ptr (r + 1) st.j).bind fun p =>
        some { st with ptr := p })
      0 m { ptr := (newArray Nat (m + 1)).set 0 (some 0), indices := newArray Nat values.length,
            j := 0, k := 0 } = some st ∧
      (∀ r, r ≤ m → rd st.ptr r = some (values.rank (r, 0))) ∧
      (∀ t, t < values.rank (m, 0) → rd st.indices t = some (values.keyAt t).2) := by
  have key := loopFrom_inv
    (fun r st =>
        (loopFrom (fun s (st : SetState) =>
            if values.contains (r, s) then
              (wr st.indices st.k s).bind fun ix =>
              some { st with j := st.j + 1, k := st.k + 1, indices := ix }
            else some st) 0 n st).bind fun st =>
        (wr st.ptr (r + 1) st.j).bind fun p =>
        some { st with ptr := p })
    (fun r (st : SetState) => st.j = values.rank (r, 0) ∧ st.k = st.j ∧
      st.ptr.length = m + 1 ∧ st.indices.length = values.length ∧
      (∀ r1, r1 ≤ r → rd st.ptr r1 = some (values.rank (r1, 0))) ∧
      (∀ t, t < st.k → rd st.indices t = some (values.keyAt t).2))
    0 m ?_
    { ptr := (newArray Nat (m + 1)).set 0 (some 0), indices := newArray Nat values.length,
      j := 0, k := 0 } ?_
  · obtain ⟨st, h1, h2, h3, _, _, h6, h7⟩ := key
    rw [Nat.zero_add] at h2 h6
    refine ⟨st, h1, h6, ?_⟩
    rw [← h2, ← h3]; exact h7
  · intro r st _ hr ⟨h1, h2, h3, h4, h5, h6⟩
    have hr : r < m := by omega
    dsimp only
    have inner := loopFrom_inv
      (fun s (st : SetState) =>
            if values.contains (r, s) then
              (wr st.indices st.k s).bind fun ix =>
              some { st with j := st.j + 1, k := st.k + 1, indices := ix }
            else some st)
      (fun s (st : SetState) => st.j = values.rank (r, s) ∧ st.k = st.j ∧
        st.ptr.length = m + 1 ∧ st.indices.length = values.length ∧
        (∀ r1, r1 ≤ r → rd st.ptr r1 = some (values.rank (r1, 0))) ∧
        (∀ t, t < st.k → rd st.indices t = some (values.keyAt t).2))
      0 n ?_ st ⟨h1, h2, h3, h4, h5, h6⟩
    · obtain ⟨st1, g0, g1, g2, g3, g4, g5, g6⟩ := inner
      rw [Nat.zero_add] at g1
      rw [g0]
      simp only [Option.some_bind]
      rw [wr_of_lt _ _ (by omega)]
      refine ⟨_, rfl, ?_, g2, by simpa using g3, g4, ?_, g6⟩
      · rw [ValueMap.rank_next_row values n hn]; exact g1
      · intro r1 hr1
        rcases Nat.eq_or_lt_of_le hr1 with e | e
        · subst e
          rw [rd_set_same _ _ (by omega), g1, ValueMap.rank_next_row values n hn]
        · rw [rd_set_other _ _ (by omega)]; exact g5 r1 (by omega)
    · intro s st1 _ _ ⟨g1, g2, g3, g4, g5, g6⟩
      dsimp only
      cases hc : values.contains (r, s) with
      | true =>
        obtain ⟨q1, q2, q3⟩ := (hWF.rank_succ r s).1 hc
        simp only [if_true]
        rw [wr_of_lt _ _ (by omega)]
        refine ⟨_, rfl, by simp only; omega, by simp only; omega, g3, by simpa using g4, g5, ?_⟩
        intro t ht
        simp only at ht ⊢
        rcases Nat.eq_or_lt_of_le (Nat.lt_succ_iff.mp ht) with e | e
        · subst e
          rw [rd_set_same _ _ (by omega), g2, g1, q3]
        · rw [rd_set_other _ _ (by omega)]; exact g6 t e
      | false =>
        have q := (hWF.rank_succ r s).2 hc
        simp only [Bool.false_eq_true, if_false]
        exact ⟨_, rfl, by omega, g2, g3, g4, g5, g6⟩
  · refine ⟨(ValueMap.rank_zero values).symm, rfl, by simp [newArray], by simp [newArray], ?_,
      fun t ht => by simp at ht⟩
    intro r1 hr1
    have : r1 = 0 := by omega
    subst this
    rw [ValueMap.rank_zero]
    exact rd_set_same _ _ (by simp [newArray])

theorem ValueMap_rank_row_mono (values : ValueMap) (r : Nat) :
    values.rank (r, 0) ≤ values.rank (r + 1, 0) := by
  unfold ValueMap.rank
  apply List.countP_mono_left
  intro e _ he
  simp only [decide_eq_true_eq, keyLt] at he ⊢
  omega

/-- The entries of a well-formed map between the ranks of two consecutive rows have the first
row as their row. -/
theorem ValueMap_row_of_rank {values : ValueMap} (hWF : values.WF) {r t : Nat}
    (h1 : values.rank (r, 0) ≤ t) (h2 : t < values.rank (r + 1, 0)) :
    (values.keyAt t).1 = r := by
  have hl : t < values.length := lt_of_lt_of_le h2 (values.rank_le_length _)
  have a := mt (hWF.lt_rank_iff (r, 0) hl).mpr (by omega)
  have b := (hWF.lt_rank_iff (r + 1, 0) hl).mp h2
  simp only [keyLt] at a b
  omega

/-- A matrix whose arrays hold the ranks of the rows, the columns of the keys and the values
of a well-formed map with keys in the `m × n` grid is valid and has the entries of the map. -/
theorem valid_of_map_arrays (A : SPARSEMATRIXN) (m n : Nat) (values : ValueMap)
    (hWF : values.WF) (hgrid : ∀ e ∈ values, e.1.1 < m ∧ e.1.2 < n)
    (h1 : A._rows = m) (h2 : A._columns = n) (h3 : A._nnz = values.length)
    (hptr : ∀ r, r ≤ m → rd A._ptr r = some (values.rank (r, 0)))
    (hind : ∀ t, t < values.length → rd A._indices t = some (values.keyAt t).2)
    (hdata : ∀ t, t < values.length → rd A._data t = some (values.valAt t)) :
    Valid A ∧
      (∀ r, r ≤ m → A.P r = values.rank (r, 0)) ∧
      (∀ t, t < values.length → A.I t = (values.keyAt t).2 ∧ A.V t = values.valAt t) ∧
      ∀ r c, r < m → (∀ x, ((r, c), x) ∈ values → A.entry r c = x) ∧
        (values.contains (r, c) = false → A.entry r c = 0) := by
  have hlast := ValueMap.rank_last values m (fun e he => (hgrid e he).1)
  have hP : ∀ r, r ≤ m → A.P r = values.rank (r, 0) := by
    intro r hr
    unfold P
    rw [hptr r hr]; rfl
  have hI : ∀ t, t < values.length → A.I t = (values.keyAt t).2 := by
    intro t ht
    unfold I
    rw [hind t ht]; rfl
  have hVv : ∀ t, t < values.length → A.V t = values.valAt t := by
    intro t ht
    unfold V
    rw [hdata t ht]; rfl
  have hV : Valid A := by
    refine ⟨?_, ?_, ?_, ?_, ?_, ?_, ?_⟩
    · intro i hi
      rw [hptr i (by omega)]; rfl
    · rw [hP 0 (Nat.zero_le _), ValueMap.rank_zero]
    · intro i hi
      rw [hP i (by omega), hP (i + 1) (by omega)]
      exact ValueMap_rank_row_mono values i
    · rw [h1, hP m (le_refl _), h3]; exact hlast
    · intro k hk
      rw [hind k (by omega), hdata k (by omega)]
      exact ⟨rfl, rfl⟩
    · intro i hi k hk a b
      rw [hP i (by omega)] at a
      rw [hP (i + 1) (by omega)] at b
      have hk1 : k + 1 < values.length := lt_of_lt_of_le b (values.rank_le_length _)
      rw [hI k (by omega), hI (k + 1) hk1]
      have r1 := ValueMap_row_of_rank hWF a (by omega)
      have r2 := ValueMap_row_of_rank hWF (r := i) (t := k + 1) (by omega) b
      have := @ValueMap.WF.keyAt_lt values hWF k (k + 1) (by omega) hk1
      simp only [keyLt] at this
      omega
    · intro k hk
      rw [hI k (by omega), h2]
      exact (hgrid _ (ValueMap.keyAt_mem (by omega))).2
  refine ⟨hV, hP, fun t ht => ⟨hI t ht, hVv t ht⟩, ?_⟩
  intro r c hr
  constructor
  · intro x hx
    obtain ⟨t, t1, t2, t3⟩ := ValueMap.exists_index hx
    simp only at t2 t3
    have a : values.rank (r, 0) ≤ t := by
      by_contra q
      have := (hWF.lt_rank_iff (r, 0) t1).mp (by omega)
      rw [t2] at this
      simp [keyLt] at this
    have b : t < values.rank (r + 1, 0) := by
      apply (hWF.lt_rank_iff (r + 1, 0) t1).mpr
      rw [t2]
      simp [keyLt]
    have e := hV.entry_of_slot (r := r) (by omega) (k := t)
      (by rw [hP r (le_of_lt hr)]; exact a) (by rw [hP (r + 1) hr]; exact b)
    rw [hI t t1, hVv t t1, t2, t3] at e
    exact e
  · intro hc
    apply entry_of_no_slot
    intro k a b e
    rw [hP r (le_of_lt hr)] at a
    rw [hP (r + 1) hr] at b
    have hk : k < values.length := lt_of_lt_of_le b (values.rank_le_length _)
    rw [hI k hk] at e
    have r1 := ValueMap_row_of_rank hWF a b
    have hm := ValueMap.keyAt_mem hk
    have : values.keyAt k = (r, c) := Prod.ext r1 e
    rw [this] at hm
    have := (values.contains_iff (r, c)).mpr ⟨_, hm⟩
    rw [hc] at this
    exact Bool.noConfusion this

/-- The member function `set(m, n, values)` on a well-formed map whose keys lie in the
`m × n` grid returns, and these are the fields and arrays it builds. -/
theorem set_arrays (A : SPARSEMATRIXN) (m n : Nat) (values : ValueMap) (hWF : values.WF)
    (hgrid : ∀ e ∈ values, e.1.1 < m ∧ e.1.2 < n) (hm : m + 1 < UMOD) :
    ∃ A', A.set m n values = some A' ∧ A'._rows = m ∧ A'._columns = n ∧
      A'._nnz = values.length ∧ A'._nnz_capacity = values.length ∧ A'._row_capacity = m + 1 ∧
      (∀ r, r ≤ m → rd A'._ptr r = some (values.rank (r, 0))) ∧
      (∀ t, t < values.length → rd A'._indices t = some (values.keyAt t).2) ∧
      (∀ t, t < values.length → rd A'._data t = some (values.valAt t)) := by
  obtain ⟨data, hd, hdata⟩ := set_data_loop values
  obtain ⟨st, hs, hptr, hind⟩ := set_ptr_loop values hWF m n (fun e he => (hgrid e he).2)
  rw [ValueMap.rank_last values m (fun e he => (hgrid e he).1)] at hind
  have h0 : (0 : Nat) < (newArray Nat (m + 1)).length := by simp [newArray]
  unfold set
  simp only [uadd_one_of_lt hm, hd, Option.some_bind, wr_of_lt (newArray Nat (m + 1)) 0 h0, hs]
  exact ⟨_, rfl, rfl, rfl, rfl, rfl, rfl, hptr, hind, hdata⟩

/-- The member function `set(m, n, values)` on a well-formed map whose keys lie in the
`m × n` grid: the result is valid and has the entries of the map. -/
theorem set_spec (A : SPARSEMATRIXN) (m n : Nat) (values : ValueMap) (hWF : values.WF)
    (hgrid : ∀ e ∈ values, e.1.1 < m ∧ e.1.2 < n) (hm : m + 1 < UMOD) :
    ∃ A', A.set m n values = some A' ∧ Valid A' ∧ A'._rows = m ∧ A'._columns = n ∧
      A'._nnz = values.length ∧ A'._nnz_capacity = values.length ∧ A'._row_capacity = m + 1 ∧
      (∀ r, r ≤ m → A'.P r = values.rank (r, 0)) ∧
      (∀ t, t < values.length → A'.I t = (values.keyAt t).2 ∧ A'.V t = values.valAt t) ∧
      ∀ r c, r < m → (∀ x, ((r, c), x) ∈ values → A'.entry r c = x) ∧
        (values.contains (r, c) = false → A'.entry r c = 0) := by
  obtain ⟨A', e, h1, h2, h3, h4, h5, hp, hi, hd⟩ := set_arrays A m n values hWF hgrid hm
  obtain ⟨g1, g2, g3, g4⟩ := valid_of_map_arrays A' m n values hWF hgrid h1 h2 h3 hp hi hd
  exact ⟨A', e, g1, h1, h2, h3, h4, h5, g2, g3, g4⟩

/-- When `m + 1` wraps to 0, `set(m, n, values)` writes `_ptr[0]` into an offset array without
cells, which is undefined. -/
theorem set_none_of_wrap (A : SPARSEMATRIXN) (m n : Nat) (values : ValueMap)
    (h : uadd m 1 = 0) : A.set m n values = none := by
  unfold set
  dsimp only
  rw [h]
  cases loopFrom (fun j data => (values.get? j).bind fun e => wr data j e.2) 0 values.length
      (newArray REAL values.length) with
  | none => rfl
  | some d => rfl

theorem ValueMap_assign_last (values : ValueMap) (key : Nat × Nat) (x : REAL)
    (h : ∀ e ∈ values, keyLt e.1 key) : values.assign key x = values ++ [(key, x)] := by
  induction values with
  | nil => rfl
  | cons e t ih =>
    have he := h e (List.mem_cons_self _ _)
    have n1 : ¬ keyLt key e.1 := fun c => keyLt_irrefl _ (keyLt_trans c he)
    have n2 : ¬ key = e.1 := fun c => by rw [c] at he; exact keyLt_irrefl _ he
    unfold ValueMap.assign
    rw [if_neg n1, if_neg n2, ih (fun a ha => h a (List.mem_cons_of_mem _ ha))]
    rfl

theorem scan_spec (EPS : REAL) (M : MATRIXN) :
    ∃ values, loopFrom (fun i values =>
        loopFrom (fun j (values : ValueMap) =>
            (M.at i j).bind fun x =>
            if |x| > EPS then some (values.assign (i, j) x) else some values)
          0 M.columns values)
      0 M.rows [] = some values ∧ ScanInv EPS M M.rows 0 values := by
  have key := loopFrom_inv
    (fun i values =>
        loopFrom (fun j (values : ValueMap) =>
            (M.at i j).bind fun x =>
            if |x| > EPS then some (values.assign (i, j) x) else some values)
          0 M.columns values)
    (fun i values => ScanInv EPS M i 0 values) 0 M.rows ?_ [] ?_
  · obtain ⟨v, h1, h2⟩ := key
    rw [Nat.zero_add] at h2
    exact ⟨v, h1, h2⟩
  · intro i values _ hi hinv
    have hi : i < M.rows := by omega
    dsimp only
    have inner := loopFrom_inv
      (fun j (values : ValueMap) =>
            (M.at i j).bind fun x =>
            if |x| > EPS then some (values.assign (i, j) x) else some values)
      (fun j values => ScanInv EPS M i j values) 0 M.columns ?_ values hinv
    · obtain ⟨v1, g1, g2, g3, g4⟩ := inner
      rw [Nat.zero_add] at g3 g4
      refine ⟨v1, g1, g2, ?_, ?_⟩
      · intro e he
        obtain ⟨a1, a2, a3, a4, a5⟩ := g3 e he
        refine ⟨?_, a2, a3, a4, a5⟩
        simp only [keyLt] at a1 ⊢
        omega
      · intro r c hlt hc habs
        apply g4 r c _ hc habs
        simp only [keyLt] at hlt ⊢
        omega
    · intro j v1 _ hj ⟨g2, g3, g4⟩
      have hj : j < M.columns := by omega
      dsimp only
      simp only [MATRIXN.at, hi, hj, and_self, if_true, Option.some_bind]
      by_cases c : |M.cell i j| > EPS
      · rw [if_pos c, ValueMap_assign_last v1 (i, j) _ (fun e he => (g3 e he).1)]
        refine ⟨_, rfl, ?_, ?_, ?_⟩
        · unfold ValueMap.WF
          rw [List.pairwise_append]
          refine ⟨g2, List.pairwise_singleton _ _, ?_⟩
          intro a ha b hb
          rw [List.mem_singleton] at hb
          subst hb
          exact (g3 a ha).1
        · intro e he
          rcases List.mem_append.mp he with h1 | h1
          · obtain ⟨a1, a2, a3, a4, a5⟩ := g3 e h1
            exact ⟨(keyLt_succ _ _ _).mpr (Or.inl a1), a2, a3, a4, a5⟩
          · rw [List.mem_singleton] at h1
            subst h1
            exact ⟨(keyLt_succ _ _ _).mpr (Or.inr rfl), hi, hj, c, rfl⟩
        · intro r c1 hlt hc habs
          rcases (keyLt_succ _ _ _).mp hlt with h1 | h1
          · exact List.mem_append_left _ (g4 r c1 h1 hc habs)
          · cases h1
            exact List.mem_append_right _ (List.mem_singleton.mpr rfl)
      · rw [if_neg c]
        refine ⟨_, rfl, g2, ?_, ?_⟩
        · intro e he
          obtain ⟨a1, a2, a3, a4, a5⟩ := g3 e he
          exact ⟨(keyLt_succ _ _ _).mpr (Or.inl a1), a2, a3, a4, a5⟩
        · intro r c1 hlt hc habs
          rcases (keyLt_succ _ _ _).mp hlt with h1 | h1
          · exact g4 r c1 h1 hc habs
          · cases h1
            exact absurd habs c
  · refine ⟨List.Pairwise.nil, ?_, ?_⟩
    · intro e he; simp at he
    · intro r c hlt
      simp [keyLt] at hlt

/-- C5: for a valid sparse matrix `A` and a dense vector `x` of size `A.columns`, `mult(x)`
returns the vector of length `A.rows` whose entry `r` is the sum over the columns `c` of
`to_dense(A)(r,c) * x[c]`; and for the matrix built from `{(0,0):2, (1,2):3}` over a 2 × 3 shape
and `x = [1,1,1]` the result is `[2, 3]`. -/
theorem mult_VECTORN_dense :
    (∀ (NEXCEPT : Bool) (A : SPARSEMATRIXN) (x result : VECTORN) (m : MATRIXN),
      Valid A → x.length = A._columns →
      ∃ D y, A.to_dense m = some D ∧
        A.mult_VECTORN NEXCEPT x result = Outcome.done y ∧ y.length = A._rows ∧
        ∀ r, r < A._rows →
          y.getD r 0 = ∑ c ∈ Finset.range A._columns, D.cell r c * x.getD c 0) ∧
    (∃ A, ctor_map 2 3 [((0, 0), 2), ((1, 2), 3)] = some A ∧
      A.mult_VECTORN false [1, 1, 1] [] = Outcome.done [2, 3]) := by
  refine ⟨?_, ⟨sampleA, by decide, ?_⟩⟩
  · intro NEXCEPT A x result m hA hx
    obtain ⟨D, d1, _, _, d4⟩ := to_dense_spec A m hA
    obtain ⟨y, y1, y2, y3⟩ := mult_VECTORN_entry NEXCEPT A x result hA hx
    refine ⟨D, y, d1, y1, y2, ?_⟩
    intro r hr
    rw [y3 r hr]
    apply Finset.sum_congr rfl
    intro c _
    rw [d4 r c, if_pos hr]
  · simp [mult_VECTORN, sampleA, loopFrom, rd, VECTORN.addAt, VECTORN.set_zero,
      Outcome.ofOption]

/-- The general part of `mult_VECTORN_dense` at `sampleA` and `x = [1, 1, 1]`. -/
theorem mult_VECTORN_dense_witness :
    ∃ D y, sampleA.to_dense (MATRIXN.set_zero 0 0) = some D ∧
      sampleA.mult_VECTORN false [1, 1, 1] [] = Outcome.done y ∧ y.length = sampleA._rows ∧
      ∀ r, r < sampleA._rows →
        y.getD r 0 = ∑ c ∈ Finset.range sampleA._columns,
          D.cell r c * ([1, 1, 1] : VECTORN).getD c 0 :=
  mult_VECTORN_dense.1 false sampleA [1, 1, 1] [] (MATRIXN.set_zero 0 0) (by decide) (by decide)

/-- C1 (failing input): on the valid 3 × 3 matrix holding 1 at (0,0) and 9 at (2,2),
`set_row(0, [5,6,7])` grows row 0 from one to three stored values; the call returns, but the
offsets of the rows after row 0 are no longer consistent (`ptr = [0,3,3,2]`, `nnz = 4`) and the
dense form of the result has lost the value 9 of row 2. -/
theorem set_row_grow_corrupts_other_row :
    Valid sampleC ∧
    (sampleC.to_dense (MATRIXN.set_zero 0 0)).map MATRIXN.toLists
      = some [[1, 0, 0], [0, 0, 0], [0, 0, 9]] ∧
    set_row (1 / 100000000) false sampleC 0 [5, 6, 7] = Outcome.done sampleC_after ∧
    (sampleC_after.to_dense (MATRIXN.set_zero 0 0)).map MATRIXN.toLists
      = some [[5, 6, 7], [0, 0, 0], [0, 0, 0]] := by
  refine ⟨by decide, by decide, by decide!, by decide⟩

/-- Both paths of `operator+=` are taken: `sampleA += sampleD` counts `nz = 2 = _ptr[_rows]` and
updates the values in place; `sampleA += sampleB` counts `nz = 3` and rebuilds the arrays. -/
theorem operator_plus_eq_both_paths :
    (countUnion sampleA sampleD = some 2 ∧ rd sampleA._ptr sampleA._rows = some 2 ∧
      operator_plus_eq false sampleA sampleD
        = Outcome.done { sampleA with _data := [some 2, some 10] }) ∧
    (countUnion sampleA sampleB = some 3 ∧
      operator_plus_eq false sampleA sampleB
        = Outcome.done { sampleA with
            _ptr := [some 0, some 2, some 3], _indices := [some 0, some 1, some 2],
            _data := [some 2, some 5, some 10], _nnz := 3 }) := by
  refine ⟨⟨by decide, by decide, by decide!⟩, by decide, by decide!⟩

/-- C17 (failing input): the adoption constructor called with `m = 1`, `n = 1` and the arrays
`ptr = [0,1]`, `indices = [0]`, `data = [5]` does not yield a matrix with `nnz = ptr[1] = 1`:
it reads element 1 of its own, still null, member `_ptr`, which is undefined; and so it does
for all arguments. -/
theorem ctor_arrays_reads_null_member :
    ctor_arrays 1 1 [some 0, some 1] [some 0] [some 5] = none ∧
    rd ([some 0, some 1] : Cells Nat) 1 = some 1 ∧
    ∀ (m n : Nat) (ptr indices : Cells Nat) (data : Cells REAL),
      ctor_arrays m n ptr indices data = none := by
  refine ⟨rfl, rfl, ?_⟩
  intro m n ptr indices data
  simp [ctor_arrays, rd]

theorem get?_set_ge {α : Type} (a : Cells α) {i k : Nat} (x : α) (h : i < k) :
    (a.set i (some x)).get? k = a.get? k := by
  simp [List.get?_eq_getElem?, List.getElem?_set_ne (show i ≠ k by omega)]

/-- The loop `for (i=0; i< n; i++) _data[i] = f(_data[i])` on an array whose first `n` cells
are initialised. -/
theorem map_data_loop (f : REAL → REAL) (n : Nat) (g : Nat → REAL) (d : Cells REAL)
    (h : ∀ k, k < n → rd d k = some (g k)) :
    ∃ d1, loopFrom (fun i data => (rd data i).bind fun x => wr data i (f x)) 0 n d = some d1 ∧
      d1.length = d.length ∧ (∀ k, k < n → rd d1 k = some (f (g k))) ∧
      (∀ k, n ≤ k → d1.get? k = d.get? k) := by
  have key := loopFrom_inv
    (fun i data => (rd data i).bind fun x => wr data i (f x))
    (fun i (d1 : Cells REAL) => d1.length = d.length ∧
      (∀ k, k < i → rd d1 k = some (f (g k))) ∧
      (∀ k, i ≤ k → d1.get? k = d.get? k))
    0 n ?_ d ⟨rfl, fun k hk => by omega, fun k _ => rfl⟩
  · obtain ⟨d1, h1, h2, h3, h4⟩ := key
    rw [Nat.zero_add] at h3 h4
    exact ⟨d1, h1, h2, h3, h4⟩
  · intro i d1 _ hi ⟨h2, h3, h4⟩
    have hi : i < n := by omega
    have hrd : rd d1 i = some (g i) := by
      rw [← h i hi]
      unfold rd
      rw [h4 i (le_refl _)]
    dsimp only
    rw [hrd]
    simp only [Option.some_bind]
    rw [wr_of_lt _ _ (rd_lt hrd)]
    refine ⟨_, rfl, by simpa using h2, ?_, ?_⟩
    · intro k hk
      rcases Nat.eq_or_lt_of_le (Nat.lt_succ_iff.mp hk) with e | e
      · subst e; exact rd_set_same _ _ (rd_lt hrd)
      · rw [rd_set_other _ _ (by omega)]; exact h3 k e
    · intro k hk
      rw [get?_set_ge _ _ (by omega)]
      exact h4 k (by omega)

/-- Two arrays with the same cells are equal. -/
theorem cells_ext {α : Type} (a b : Cells α) (n : Nat)
    (h1 : ∀ k, k < n → rd a k = rd b k) (h1' : ∀ k, k < n → (rd b k).isSome = true)
    (h2 : ∀ k, n ≤ k → a.get? k = b.get? k) : a = b := by
  apply List.ext_get?
  intro k
  by_cases c : k < n
  · have e := h1 k c
    have s := h1' k c
    cases hb : rd b k with
    | none => rw [hb] at s; cases s
    | some x =>
      rw [hb] at e
      rw [(rd_eq_some_iff a k x).mp e, (rd_eq_some_iff b k x).mp hb]
  · exact h2 k (by omega)

/-- A loop over the stored values of a valid matrix, as run by `operator*=` and `negate`. -/
theorem map_values_spec (f : REAL → REAL) {A : SPARSEMATRIXN} (h : Valid A) :
    ∃ d1, (rd A._ptr A._rows).bind (fun n =>
        (loopFrom (fun i data => (rd data i).bind fun x => wr data i (f x)) 0 n A._data).bind
          fun data => some { A with _data := data }) = some { A with _data := d1 } ∧
      d1.length = A._data.length ∧ (∀ k, k < A._nnz → rd d1 k = some (f (A.V k))) ∧
      (∀ k, A._nnz ≤ k → d1.get? k = A._data.get? k) ∧ Valid { A with _data := d1 } := by
  rw [h.rd_ptr (le_refl _), h.2.2.2.1]
  obtain ⟨d1, h1, h2, h3, h4⟩ := map_data_loop f A._nnz A.V A._data (fun k hk => h.rd_data hk)
  simp only [Option.some_bind, h1]
  refine ⟨d1, rfl, h2, h3, h4, ?_⟩
  refine ⟨h.1, h.2.1, h.2.2.1, h.2.2.2.1, ?_, h.2.2.2.2.2.1, h.2.2.2.2.2.2⟩
  intro k hk
  refine ⟨(h.2.2.2.2.1 k hk).1, ?_⟩
  show (rd d1 k).isSome = true
  rw [h3 k hk]; rfl

/-- Applying to the stored values a function and then an inverse of it gives back the matrix. -/
theorem map_values_inverse (f g : REAL → REAL) (hfg : ∀ x, g (f x) = x) {A : SPARSEMATRIXN}
    (h : Valid A) (d1 d2 : Cells REAL)
    (a1 : ∀ k, k < A._nnz → rd d1 k = some (f (A.V k)))
    (a2 : ∀ k, A._nnz ≤ k → d1.get? k = A._data.get? k)
    (b1 : ∀ k, k < A._nnz → rd d2 k = some (g (SPARSEMATRIXN.V { A with _data := d1 } k)))
    (b2 : ∀ k, A._nnz ≤ k → d2.get? k = d1.get? k) : d2 = A._data := by
  apply cells_ext d2 A._data A._nnz
  · intro k hk
    have e : SPARSEMATRIXN.V { A with _data := d1 } k = f (A.V k) := by
      show (rd d1 k).getD 0 = _
      rw [a1 k hk]; rfl
    rw [b1 k hk, e, hfg, h.rd_data hk]
  · intro k hk
    exact (h.2.2.2.2.1 k hk).2
  · intro k hk
    rw [b2 k hk, a2 k hk]

/-- C18: for every valid sparse matrix `A`, `negate` applied twice returns `A`: dimensions,
`nnz`, capacities, row offsets, column indices and every stored value are those of `A`. -/
theorem negate_negate (A : SPARSEMATRIXN) (h : Valid A) :
    ∃ A1, A.negate = some A1 ∧ A1.negate = some A ∧
      A1._rows = A._rows ∧ A1._columns = A._columns ∧ A1._nnz = A._nnz ∧
      A1._ptr = A._ptr ∧ A1._indices = A._indices ∧
      ∀ k, k < A._nnz → rd A1._data k = some (-A.V k) := by
  obtain ⟨d1, e1, _, a1, a2, hV1⟩ := map_values_spec (fun x => -x) h
  obtain ⟨d2, e2, _, b1, b2, _⟩ := map_values_spec (fun x => -x) hV1
  have hd : d2 = A._data :=
    map_values_inverse (fun x => -x) (fun x => -x) (fun x => neg_neg x) h d1 d2 a1 a2 b1 b2
  refine ⟨{ A with _data := d1 }, e1, ?_, rfl, rfl, rfl, rfl, rfl, a1⟩
  unfold negate
  rw [e2, hd]

/-- The statement of `negate_negate` at `sampleA`. -/
theorem negate_negate_witness :
    ∃ A1, sampleA.negate = some A1 ∧ A1.negate = some sampleA ∧
      A1._rows = sampleA._rows ∧ A1._columns = sampleA._columns ∧ A1._nnz = sampleA._nnz ∧
      A1._ptr = sampleA._ptr ∧ A1._indices = sampleA._indices ∧
      ∀ k, k < sampleA._nnz → rd A1._data k = some (-sampleA.V k) :=
  negate_negate sampleA (by decide)

/-- C19: for every valid sparse matrix `A` and scalar `s ≠ 0`, over exact arithmetic,
`operator*=(s)` multiplies every stored value by `s` and changes nothing else (dimensions,
`nnz`, row offsets, column indices, the cells after the stored values), and a following
`operator*=(1/s)` returns `A`. -/
theorem operator_times_eq_inverse (A : SPARSEMATRIXN) (s : REAL) (h : Valid A) (hs : s ≠ 0) :
    ∃ A1, A.operator_times_eq s = some A1 ∧ A1.operator_times_eq (1 / s) = some A ∧
      A1._rows = A._rows ∧ A1._columns = A._columns ∧ A1._nnz = A._nnz ∧
      A1._nnz_capacity = A._nnz_capacity ∧ A1._row_capacity = A._row_capacity ∧
      A1._ptr = A._ptr ∧ A1._indices = A._indices ∧
      A1._data.length = A._data.length ∧
      (∀ k, k < A._nnz → rd A1._data k = some (A.V k * s)) ∧
      (∀ k, A._nnz ≤ k → A1._data.get? k = A._data.get? k) := by
  obtain ⟨d1, e1, l1, a1, a2, hV1⟩ := map_values_spec (fun x => x * s) h
  obtain ⟨d2, e2, _, b1, b2, _⟩ := map_values_spec (fun x => x * (1 / s)) hV1
  have hd : d2 = A._data :=
    map_values_inverse (fun x => x * s) (fun x => x * (1 / s))
      (fun x => by field_simp) h d1 d2 a1 a2 b1 b2
  refine ⟨{ A with _data := d1 }, e1, ?_, rfl, rfl, rfl, rfl, rfl, rfl, rfl, l1, a1, a2⟩
  unfold operator_times_eq
  rw [e2, hd]

/-- The statement of `operator_times_eq_inverse` at `sampleA` and `s = 3`. -/
theorem operator_times_eq_inverse_witness :
    ∃ A1, sampleA.operator_times_eq 3 = some A1 ∧
      A1.operator_times_eq (1 / 3) = some sampleA ∧
      A1._rows = sampleA._rows ∧ A1._columns = sampleA._columns ∧ A1._nnz = sampleA._nnz ∧
      A1._nnz_capacity = sampleA._nnz_capacity ∧ A1._row_capacity = sampleA._row_capacity ∧
      A1._ptr = sampleA._ptr ∧ A1._indices = sampleA._indices ∧
      A1._data.length = sampleA._data.length ∧
      (∀ k, k < sampleA._nnz → rd A1._data k = some (sampleA.V k * 3)) ∧
      (∀ k, sampleA._nnz ≤ k → A1._data.get? k = sampleA._data.get? k) :=
  operator_times_eq_inverse sampleA 3 (by decide) (by simp)

/-- The position of a key of a well-formed map lies between the ranks of its row and of the
next row. -/
theorem ValueMap_rank_of_key {values : ValueMap} (hWF : values.WF) {t r c : Nat}
    (ht : t < values.length) (hk : values.keyAt t = (r, c)) :
    values.rank (r, 0) ≤ t ∧ t < values.rank (r + 1, 0) := by
  constructor
  · by_contra q
    have := (hWF.lt_rank_iff (r, 0) ht).mp (by omega)
    rw [hk] at this
    simp [keyLt] at this
  · apply (hWF.lt_rank_iff (r + 1, 0) ht).mpr
    rw [hk]
    simp [keyLt]

/-- The algorithm `std::copy` of the first `n` cells of an array into a fresh array. -/
theorem copyCells_prefix {α : Type} (src dst : Cells α) (n : Nat)
    (hsrc : ∀ k, k < n → (rd src k).isSome = true) (hn : n ≤ dst.length) :
    ∃ d, copyCells src 0 n dst 0 = some d ∧ d.length = dst.length ∧
      (∀ k, k < n → rd d k = rd src k) ∧ (∀ k, n ≤ k → d.get? k = dst.get? k) := by
  unfold copyCells
  rw [if_pos (Nat.zero_le _), Nat.sub_zero]
  have key := loopFrom_inv
    (fun i dst => (rd src (0 + i)).bind fun x => wr dst (0 + i) x)
    (fun i (d : Cells α) => d.length = dst.length ∧
      (∀ k, k < i → rd d k = rd src k) ∧ (∀ k, i ≤ k → d.get? k = dst.get? k))
    0 n ?_ dst ⟨rfl, fun k hk => by omega, fun k _ => rfl⟩
  · obtain ⟨d, h1, h2, h3, h4⟩ := key
    rw [Nat.zero_add] at h3 h4
    exact ⟨d, h1, h2, h3, h4⟩
  · intro i d _ hi ⟨h2, h3, h4⟩
    have hi : i < n := by omega
    dsimp only
    rw [Nat.zero_add]
    have hs := hsrc i hi
    cases hx : rd src i with
    | none => rw [hx] at hs; cases hs
    | some x =>
      simp only [Option.some_bind]
      rw [wr_of_lt _ _ (by omega)]
      refine ⟨_, rfl, by simpa using h2, ?_, ?_⟩
      · intro k hk
        rcases Nat.eq_or_lt_of_le (Nat.lt_succ_iff.mp hk) with e | e
        · subst e; rw [rd_set_same _ _ (by omega), hx]
        · rw [rd_set_other _ _ (by omega)]; exact h3 k e
      · intro k hk
        rw [get?_set_ge _ _ (by omega)]
        exact h4 k (by omega)

/-- C20 (counterexample): `set_capacities(.., preserve = true)` does not behave as stated on
every sparse matrix and request.  On the default-constructed matrix it copies one offset out of
the null offset array (undefined); on `sampleE`, whose `nnzCapacity` is below its `nnz`, it
copies three values into two cells (undefined); and for the requested row capacity `2^32 - 1`
the increment wraps, so that `sampleA` ends with `rowCapacity = 3`. -/
theorem set_capacities_preserve_fails :
    ctor.set_capacities 4 4 true = none ∧
    sampleE.set_capacities 0 0 true = none ∧
    (∃ A', sampleA.set_capacities 2 4294967295 true = some A' ∧ A'._row_capacity = 3 ∧
      ¬ (A'._row_capacity ≥ max 4294967295 sampleA._row_capacity)) := by
  refine ⟨by decide, by decide, ?_⟩
  refine ⟨{ sampleA with _ptr := [some 0, some 1, some 2] }, by decide, rfl, by decide⟩

/-- C20 (amended): for every sparse matrix `A` whose arrays hold its `rows+1` offsets and its
`nnz` column indices and values, and every request under which the new arrays can hold them
(`nnz ≤ max(nnzCap, nnzCapacity)`, `rows+1 ≤ max(rowCap+1 mod 2^32, rowCapacity)`) and with
`rowCap + 1 < 2^32` or `rowCap ≤ rowCapacity`, `set_capacities(nnzCap, rowCap, true)` returns,
leaves `rows`, `columns` and `nnz` unchanged, leaves the first `rows+1` row offsets and the
first `nnz` column indices and values unchanged, and ends with
`nnzCapacity = max(nnzCap, old nnzCapacity)` and
`rowCapacity = max(rowCap+1 mod 2^32, old rowCapacity) ≥ max(rowCap, old rowCapacity)`, the
new arrays having these sizes. -/
theorem set_capacities_preserve (A : SPARSEMATRIXN) (nnzCap rowCap : Nat)
    (hptr : ∀ i, i < A._rows + 1 → (rd A._ptr i).isSome = true)
    (hslots : ∀ k, k < A._nnz →
      (rd A._indices k).isSome = true ∧ (rd A._data k).isSome = true)
    (hc1 : A._nnz ≤ max nnzCap A._nnz_capacity)
    (hc2 : A._rows + 1 ≤ max (uadd rowCap 1) A._row_capacity)
    (hr : rowCap + 1 < UMOD ∨ rowCap ≤ A._row_capacity) :
    ∃ A', A.set_capacities nnzCap rowCap true = some A' ∧
      A'._rows = A._rows ∧ A'._columns = A._columns ∧ A'._nnz = A._nnz ∧
      (∀ i, i < A._rows + 1 → rd A'._ptr i = rd A._ptr i) ∧
      (∀ k, k < A._nnz →
        rd A'._indices k = rd A._indices k ∧ rd A'._data k = rd A._data k) ∧
      A'._nnz_capacity = max nnzCap A._nnz_capacity ∧
      A'._row_capacity = max (uadd rowCap 1) A._row_capacity ∧
      A'._nnz_capacity ≥ max nnzCap A._nnz_capacity ∧
      A'._row_capacity ≥ max rowCap A._row_capacity ∧
      A'._ptr.length = A'._row_capacity ∧ A'._indices.length = A'._nnz_capacity ∧
      A'._data.length = A'._nnz_capacity := by
  have l1 : A._nnz ≤ (newArray REAL (max nnzCap A._nnz_capacity)).length := by
    simp only [newArray, List.length_replicate]; exact hc1
  have l2 : A._rows + 1 ≤ (newArray Nat (max (uadd rowCap 1) A._row_capacity)).length := by
    simp only [newArray, List.length_replicate]; exact hc2
  have l3 : A._nnz ≤ (newArray Nat (max nnzCap A._nnz_capacity)).length := by
    simp only [newArray, List.length_replicate]; exact hc1
  obtain ⟨d, d1, d2, d3, _⟩ := copyCells_prefix A._data _ A._nnz (fun k hk => (hslots k hk).2) l1
  obtain ⟨p, p1, p2, p3, _⟩ := copyCells_prefix A._ptr _ (A._rows + 1) hptr l2
  obtain ⟨x, x1, x2, x3, _⟩ :=
    copyCells_prefix A._indices _ A._nnz (fun k hk => (hslots k hk).1) l3
  unfold set_capacities
  simp only [if_true, Bool.true_eq_false, if_false, d1, p1, x1, Option.some_bind]
  refine ⟨_, rfl, rfl, rfl, rfl, p3, fun k hk => ⟨x3 k hk, d3 k hk⟩, rfl, rfl, le_refl _, ?_,
    ?_, ?_, ?_⟩
  · show max rowCap A._row_capacity ≤ max (uadd rowCap 1) A._row_capacity
    rcases hr with hr | hr
    · have hu : uadd rowCap 1 = rowCap + 1 := by
        unfold uadd; exact Nat.mod_eq_of_lt hr
      rw [hu]
      omega
    · rw [max_eq_right hr]
      exact le_max_right _ _
  · rw [p2]; simp [newArray]
  · rw [x2]; simp [newArray]
  · rw [d2]; simp [newArray]

/-- The statement of `set_capacities_preserve` at `sampleE` (whose `nnz = 3` exceeds its
`nnzCapacity = 2`) and the request `(5, 7)`. -/
theorem set_capacities_preserve_witness :
    ∃ A', sampleE.set_capacities 5 7 true = some A' ∧
      A'._rows = sampleE._rows ∧ A'._columns = sampleE._columns ∧ A'._nnz = sampleE._nnz ∧
      (∀ i, i < sampleE._rows + 1 → rd A'._ptr i = rd sampleE._ptr i) ∧
      (∀ k, k < sampleE._nnz →
        rd A'._indices k = rd sampleE._indices k ∧ rd A'._data k = rd sampleE._data k) ∧
      A'._nnz_capacity = max 5 sampleE._nnz_capacity ∧
      A'._row_capacity = max (uadd 7 1) sampleE._row_capacity ∧
      A'._nnz_capacity ≥ max 5 sampleE._nnz_capacity ∧
      A'._row_capacity ≥ max 7 sampleE._row_capacity ∧
      A'._ptr.length = A'._row_capacity ∧ A'._indices.length = A'._nnz_capacity ∧
      A'._data.length = A'._nnz_capacity :=
  set_capacities_preserve sampleE 5 7 (by decide) (by decide) (by decide) (by decide)
    (by decide)

/-- C14: with bounds checking enabled, `get_sub_mat(rstart, rend, cstart, cend)` throws
`InvalidIndexException` exactly when `rend < rstart`, or `cend < cstart`, or `rend > rows`, or
`cend > columns`; whenever it throws, the exception is `InvalidIndexException` and the source
matrix is as before the call. -/
theorem get_sub_mat_invalid_index (A : SPARSEMATRIXN) (rstart rend cstart cend : Nat) :
    (A.get_sub_mat false rstart rend cstart cend
        = Outcome.thrown Exn.InvalidIndexException A ↔
      (rend < rstart ∨ cend < cstart ∨ rend > A._rows ∨ cend > A._columns)) ∧
    (∀ e s, A.get_sub_mat false rstart rend cstart cend = Outcome.thrown e s →
      e = Exn.InvalidIndexException ∧ s = A) := by
  unfold get_sub_mat
  dsimp only
  by_cases h1 : rend < rstart ∨ cend < cstart
  · rw [if_pos ⟨rfl, h1⟩]
    refine ⟨⟨fun _ => ?_, fun _ => rfl⟩, ?_⟩
    · rcases h1 with h | h
      · exact Or.inl h
      · exact Or.inr (Or.inl h)
    · intro e s hes; cases hes; exact ⟨rfl, rfl⟩
  · rw [if_neg (fun c => h1 c.2)]
    by_cases h2 : rend > A._rows ∨ cend > A._columns
    · rw [if_pos ⟨rfl, h2⟩]
      refine ⟨⟨fun _ => ?_, fun _ => rfl⟩, ?_⟩
      · exact Or.inr (Or.inr h2)
      · intro e s hes; cases hes; exact ⟨rfl, rfl⟩
    · rw [if_neg (fun c => h2 c.2)]
      refine ⟨⟨fun c => absurd c (Outcome.ofOption_ne_thrown _ _ _), fun c => ?_⟩, ?_⟩
      · rcases c with c | c | c
        · exact absurd (Or.inl c) h1
        · exact absurd (Or.inr c) h1
        · exact absurd c h2
      · intro e s hes
        exact absurd hes (Outcome.ofOption_ne_thrown _ _ _)

theorem Valid.row_slot_count {A : SPARSEMATRIXN} (h : Valid A) {r : Nat} (hr : r < A._rows)
    (i : Nat) :
    (∑ j ∈ Finset.Ico (A.P r) (A.P (r + 1)), if A.I j = i then 1 else 0)
      = if stored A r i then 1 else 0 := by
  by_cases hs : stored A r i
  · rw [if_pos hs]
    obtain ⟨k, hk, e⟩ := hs
    have hk2 := Finset.mem_Ico.mp hk
    rw [Finset.sum_eq_single k]
    · rw [if_pos e]
    · intro b hb hne
      have hb := Finset.mem_Ico.mp hb
      have : A.I b ≠ i := fun e2 => hne (h.I_inj hr hb.1 hb.2 hk2.1 hk2.2 (e2.trans e.symm))
      rw [if_neg this]
    · intro hn; exact absurd hk hn
  · rw [if_neg hs]
    apply Finset.sum_eq_zero
    intro j hj
    have hj2 := Finset.mem_Ico.mp hj
    have : A.I j ≠ i := fun e => hs ⟨j, hj, e⟩
    rw [if_neg this]

/-- Counting the slots that hold column `i` up to the offset of row `r` counts the rows below
`r` that store column `i`. -/
theorem Valid.colCount_P {A : SPARSEMATRIXN} (h : Valid A) (i : Nat) {r : Nat}
    (hr : r ≤ A._rows) : colCount A i (A.P r) = rowCount A i r := by
  induction r with
  | zero => simp [colCount, rowCount, h.2.1]
  | succ r ih =>
    have hle : A.P r ≤ A.P (r + 1) := h.2.2.1 r (by omega)
    have e := Finset.sum_Ico_consecutive (fun j => if A.I j = i then 1 else 0)
      (Nat.zero_le (A.P r)) hle
    unfold colCount rowCount at *
    rw [Finset.range_eq_Ico, ← e, ← Finset.range_eq_Ico, ih (by omega),
      h.row_slot_count (by omega) i, Finset.sum_range_succ]

theorem rowCount_succ (A : SPARSEMATRIXN) (i r : Nat) :
    rowCount A i (r + 1) = rowCount A i r + if stored A r i then 1 else 0 := by
  unfold rowCount
  rw [Finset.sum_range_succ]

theorem rowCount_mono (A : SPARSEMATRIXN) (i : Nat) {r1 r2 : Nat} (h : r1 ≤ r2) :
    rowCount A i r1 ≤ rowCount A i r2 := by
  unfold rowCount
  exact Finset.sum_le_sum_of_subset (Finset.range_mono h)

/-- The first pass of `get_column` counts the rows that store column `i`. -/
theorem get_column_count_spec {A : SPARSEMATRIXN} (h : Valid A) (i : Nat) :
    A.get_column_count i = some (rowCount A i A._rows) := by
  unfold get_column_count
  rw [h.rd_ptr (le_refl _)]
  simp only [Option.some_bind]
  have key := loopFrom_inv
    (fun j nelm => (rd A._indices j).bind fun c => some (if c = i then nelm + 1 else nelm))
    (fun j nelm => nelm = colCount A i j) 0 (A.P A._rows) ?_ 0 (by simp [colCount])
  · obtain ⟨n, h1, h2⟩ := key
    rw [h1, h2, Nat.zero_add, h.colCount_P i (le_refl _)]
  · intro j nelm _ hj hinv
    dsimp only
    rw [h.rd_indices (by rw [← h.2.2.2.1]; omega)]
    refine ⟨_, rfl, ?_⟩
    unfold colCount
    rw [Finset.sum_range_succ, ← colCount, ← hinv]
    by_cases c : A.I j = i
    · rw [if_pos c, if_pos c]
    · rw [if_neg c, if_neg c]; rfl

/-- The rest of a row whose columns all exceed `i` is skipped at once. -/
theorem get_column_row_skip {A : SPARSEMATRIXN} (i row : Nat) (k n : Nat) (s : ColFill)
    (hrd : ∀ t, k ≤ t → t < k + n → rd A._indices t = some (A.I t))
    (hgt : ∀ t, k ≤ t → t < k + n → i < A.I t) :
    get_column_row A i row k n s = some s := by
  cases n with
  | zero => rfl
  | succ n =>
    unfold get_column_row
    rw [hrd k (le_refl _) (by omega)]
    simp only [Option.some_bind]
    rw [if_pos (hgt k (le_refl _) (by omega))]

/-- The inner loop of the second pass of `get_column` on a row of a valid matrix: the row and
its value are collected if the row stores column `i`, and nothing changes otherwise; the early
exit loses nothing. -/
theorem get_column_row_spec {A : SPARSEMATRIXN} (h : Valid A) (i : Nat) {row : Nat}
    (hrow : row < A._rows) (n : Nat) :
    ∀ k, A.P row ≤ k → k + n = A.P (row + 1) → (∀ t, A.P row ≤ t → t < k → A.I t < i) →
      ∀ s : ColFill,
        (stored A row i → s.elm < s.indices.length → s.elm < s.data.length →
          get_column_row A i row k n s = some
            { indices := s.indices.set s.elm (some row),
              data := s.data.set s.elm (some (A.entry row i)), elm := s.elm + 1 }) ∧
        (¬ stored A row i → get_column_row A i row k n s = some s) := by
  have hnnz := h.P_le_nnz (i := row + 1) (by omega)
  induction n with
  | zero =>
    intro k hk1 hk2 hlt s
    refine ⟨?_, fun _ => rfl⟩
    rintro ⟨t, ht, e⟩
    have ht := Finset.mem_Ico.mp ht
    have := hlt t ht.1 (by omega)
    omega
  | succ n ih =>
    intro k hk1 hk2 hlt s
    unfold get_column_row
    rw [h.rd_indices (show k < A._nnz by omega)]
    simp only [Option.some_bind]
    by_cases c1 : A.I k > i
    · rw [if_pos c1]
      refine ⟨?_, fun _ => rfl⟩
      rintro ⟨t, ht, e⟩
      have ht := Finset.mem_Ico.mp ht
      by_cases c : t < k
      · have := hlt t ht.1 c; omega
      · rcases Nat.eq_or_lt_of_le (Nat.le_of_not_lt c) with e2 | e2
        · subst e2; omega
        · have := h.I_lt hrow hk1 e2 ht.2; omega
    · rw [if_neg c1]
      by_cases c2 : A.I k = i
      · rw [if_pos c2]
        have hst : stored A row i := stored_of_slot hk1 (by omega) c2
        refine ⟨fun _ l1 l2 => ?_, fun hn => absurd hst hn⟩
        have ev : A.entry row i = A.V k := by
          rw [← c2]; exact h.entry_of_slot hrow hk1 (by omega)
        rw [wr_of_lt _ _ l1, h.rd_data (show k < A._nnz by omega)]
        simp only [Option.some_bind]
        rw [wr_of_lt _ _ l2]
        simp only [Option.some_bind]
        rw [get_column_row_skip i row (k + 1) n _
          (fun t _ b => h.rd_indices (by omega))
          (fun t a b => by
            have := h.I_lt hrow hk1 (show k < t by omega) (by omega)
            omega), ev]
      · rw [if_neg c2]
        exact ih (k + 1) (by omega) (by omega) (fun t a b => by
          rcases Nat.eq_or_lt_of_le (Nat.lt_succ_iff.mp b) with e | e
          · subst e; omega
          · exact hlt t a e) s

/-- The second pass of `get_column` into arrays of the counted size: it is defined, collects
as many entries as counted, and these are the rows storing column `i`, in ascending order, with
their values. -/
theorem get_column_fill_spec {A : SPARSEMATRIXN} (h : Valid A) (i : Nat) :
    ∃ s, A.get_column_fill i (rowCount A i A._rows) = some s ∧
      ColInv A i (rowCount A i A._rows) A._rows s := by
  unfold get_column_fill
  have key := loopFrom_inv
    (fun row (s : ColFill) =>
      (rd A._ptr row).bind fun lo =>
      (rd A._ptr (row + 1)).bind fun hi =>
      get_column_row A i row lo (hi - lo) s)
    (fun row s => ColInv A i (rowCount A i A._rows) row s ∧
      ∀ t r, t < s.elm → rd s.indices t = some r → r < row)
    0 A._rows ?_
    { indices := newArray Nat (rowCount A i A._rows),
      data := newArray REAL (rowCount A i A._rows), elm := 0 } ?_
  · obtain ⟨s, h1, h2, _⟩ := key
    rw [Nat.zero_add] at h2
    exact ⟨s, h1, h2⟩
  · intro row s _ hrow ⟨hinv, hlt⟩
    have hrow : row < A._rows := by omega
    dsimp only
    rw [h.rd_ptr (le_of_lt hrow), h.rd_ptr (i := row + 1) (by omega)]
    simp only [Option.some_bind]
    have hle : A.P row ≤ A.P (row + 1) := h.2.2.1 row hrow
    obtain ⟨sp1, sp2⟩ := get_column_row_spec h i hrow (A.P (row + 1) - A.P row) (A.P row)
      (le_refl _) (by omega) (fun t a b => by omega) s
    by_cases hs : stored A row i
    · have hsucc := rowCount_succ A i row
      rw [if_pos hs] at hsucc
      have hmono := rowCount_mono A i (show row + 1 ≤ A._rows by omega)
      have hel := hinv.elm_eq
      have l1 : s.elm < s.indices.length := by rw [hinv.len_i]; omega
      have l2 : s.elm < s.data.length := by rw [hinv.len_d]; omega
      rw [sp1 hs l1 l2]
      refine ⟨_, rfl, ⟨by simpa using hinv.len_i, by simpa using hinv.len_d, ?_, ?_, ?_, ?_⟩, ?_⟩
      · simp only; omega
      · intro t ht
        simp only at ht ⊢
        rcases Nat.eq_or_lt_of_le (Nat.lt_succ_iff.mp ht) with e | e
        · subst e
          exact ⟨row, Nat.lt_succ_self _, hs, rd_set_same _ _ l1, rd_set_same _ _ l2⟩
        · obtain ⟨r, r1, r2, r3, r4⟩ := hinv.cells t e
          refine ⟨r, by omega, r2, ?_, ?_⟩
          · rw [rd_set_other _ _ (by omega)]; exact r3
          · rw [rd_set_other _ _ (by omega)]; exact r4
      · intro t ht
        simp only at ht ⊢
        by_cases c : t + 1 = s.elm
        · obtain ⟨r, r1, r2, r3, r4⟩ := hinv.cells t (by omega)
          refine ⟨r, row, ?_, ?_, r1⟩
          · rw [rd_set_other _ _ (by omega)]; exact r3
          · rw [c]; exact rd_set_same _ _ l1
        · obtain ⟨r1, r2, a, b, c3⟩ := hinv.asc t (by omega)
          refine ⟨r1, r2, ?_, ?_, c3⟩
          · rw [rd_set_other _ _ (by omega)]; exact a
          · rw [rd_set_other _ _ c]; exact b
      · intro r hr hsr
        simp only
        rcases Nat.eq_or_lt_of_le (Nat.lt_succ_iff.mp hr) with e | e
        · subst e
          exact ⟨s.elm, Nat.lt_succ_self _, rd_set_same _ _ l1⟩
        · obtain ⟨t, t1, t2⟩ := hinv.all r e hsr
          refine ⟨t, by omega, ?_⟩
          rw [rd_set_other _ _ (by omega)]; exact t2
      · intro t r ht hrd
        simp only at ht hrd
        rcases Nat.eq_or_lt_of_le (Nat.lt_succ_iff.mp ht) with e | e
        · subst e
          rw [rd_set_same _ _ l1] at hrd
          cases hrd
          exact Nat.lt_succ_self _
        · rw [rd_set_other _ _ (by omega)] at hrd
          have := hlt t r e hrd
          omega
    · have hsucc := rowCount_succ A i row
      rw [if_neg hs] at hsucc
      rw [sp2 hs]
      refine ⟨_, rfl, ⟨hinv.len_i, hinv.len_d, ?_, ?_, hinv.asc, ?_⟩, ?_⟩
      · rw [hinv.elm_eq, hsucc]; rfl
      · intro t ht
        obtain ⟨r, r1, r2, r3, r4⟩ := hinv.cells t ht
        exact ⟨r, by omega, r2, r3, r4⟩
      · intro r hr hsr
        rcases Nat.eq_or_lt_of_le (Nat.lt_succ_iff.mp hr) with e | e
        · subst e; exact absurd hsr hs
        · exact hinv.all r e hsr
      · intro t r ht hrd
        have := hlt t r ht hrd
        omega
  · refine ⟨⟨by simp [newArray], by simp [newArray], by simp [rowCount], ?_, ?_, ?_⟩, ?_⟩
    · intro t ht; simp at ht
    · intro t ht; simp at ht
    · intro r hr; omega
    · intro t r ht; simp at ht

/-- C15: for a valid sparse matrix `A` and a column index `i < A.columns`, `get_column(i)`
returns a sparse vector of dimension `A.rows`; the number of entries counted by the first pass
is the number of rows storing column `i` and equals the number collected by the second pass
(the early exit on `col > i` loses nothing); the stored indices are the rows `r` at which
`(r,i)` is stored in `A`, all of them, in ascending order, each with the value `A` stores at
`(r,i)`. -/
theorem get_column_spec (NEXCEPT : Bool) (A : SPARSEMATRIXN) (i : Nat) (column : SPARSEVECTORN)
    (h : Valid A) (hi : i < A._columns) :
    ∃ nelm s, A.get_column_count i = some nelm ∧ A.get_column_fill i nelm = some s ∧
      s.elm = nelm ∧ nelm = rowCount A i A._rows ∧
      A.get_column NEXCEPT i column = Outcome.done
        { size := A._rows, nelm := nelm, indices := s.indices, data := s.data } ∧
      (∀ t, t < nelm → ∃ r k x, r < A._rows ∧ rd s.indices t = some r ∧
        rd s.data t = some x ∧ A.P r ≤ k ∧ k < A.P (r + 1) ∧ rd A._indices k = some i ∧
        rd A._data k = some x) ∧
      (∀ t, t + 1 < nelm → ∃ r1 r2, rd s.indices t = some r1 ∧
        rd s.indices (t + 1) = some r2 ∧ r1 < r2) ∧
      (∀ r, r < A._rows → stored A r i → ∃ t, t < nelm ∧ rd s.indices t = some r) := by
  obtain ⟨s, hs, hinv⟩ := get_column_fill_spec h i
  have hc := get_column_count_spec h i
  refine ⟨_, s, hc, hs, hinv.elm_eq, rfl, ?_, ?_, ?_, ?_⟩
  · unfold get_column
    rw [if_neg (fun c => by omega), hc]
    simp only [Option.some_bind, hs, Outcome.ofOption]
  · intro t ht
    rw [← hinv.elm_eq] at ht
    obtain ⟨r, r1, ⟨k, hk, e⟩, r3, r4⟩ := hinv.cells t ht
    have hk := Finset.mem_Ico.mp hk
    have hkn : k < A._nnz := lt_of_lt_of_le hk.2 (h.P_le_nnz (by omega))
    refine ⟨r, k, _, r1, r3, r4, hk.1, hk.2, ?_, ?_⟩
    · rw [h.rd_indices hkn, e]
    · rw [h.rd_data hkn, ← e, h.entry_of_slot r1 hk.1 hk.2]
  · intro t ht
    rw [← hinv.elm_eq] at ht
    exact hinv.asc t ht
  · intro r hr hsr
    obtain ⟨t, t1, t2⟩ := hinv.all r hr hsr
    exact ⟨t, by rw [← hinv.elm_eq]; exact t1, t2⟩

/-- The statement of `get_column_spec` at `sampleF` and column 2. -/
theorem get_column_spec_witness :
    ∃ nelm s, sampleF.get_column_count 2 = some nelm ∧
      sampleF.get_column_fill 2 nelm = some s ∧
      s.elm = nelm ∧ nelm = rowCount sampleF 2 sampleF._rows ∧
      sampleF.get_column false 2 ⟨0, 0, [], []⟩ = Outcome.done
        { size := sampleF._rows, nelm := nelm, indices := s.indices, data := s.data } ∧
      (∀ t, t < nelm → ∃ r k x, r < sampleF._rows ∧ rd s.indices t = some r ∧
        rd s.data t = some x ∧ sampleF.P r ≤ k ∧ k < sampleF.P (r + 1) ∧
        rd sampleF._indices k = some 2 ∧ rd sampleF._data k = some x) ∧
      (∀ t, t + 1 < nelm → ∃ r1 r2, rd s.indices t = some r1 ∧
        rd s.indices (t + 1) = some r2 ∧ r1 < r2) ∧
      (∀ r, r < sampleF._rows → stored sampleF r 2 →
        ∃ t, t < nelm ∧ rd s.indices t = some r) :=
  get_column_spec false sampleF 2 ⟨0, 0, [], []⟩ (by decide) (by decide)

theorem ValueMap_erase_WF {values : ValueMap} (h : values.WF) (key : Nat × Nat) :
    (values.erase key).WF :=
  List.Pairwise.sublist (List.filter_sublist _) h

theorem ValueMap_mem_erase (values : ValueMap) (key : Nat × Nat) (e : (Nat × Nat) × REAL) :
    e ∈ values.erase key ↔ e ∈ values ∧ e.1 ≠ key := by
  unfold ValueMap.erase
  rw [List.mem_filter]
  simp

/-- The assignment `values[key] = x` on a well-formed map: the map stays well-formed and holds
the new entry and the old entries with another key. -/
theorem ValueMap_assign_spec {values : ValueMap} (h : values.WF) (key : Nat × Nat) (x : REAL) :
    (values.assign key x).WF ∧
      ∀ e, e ∈ values.assign key x ↔ e = (key, x) ∨ (e ∈ values ∧ e.1 ≠ key) := by
  induction values with
  | nil =>
    refine ⟨List.pairwise_singleton _ _, ?_⟩
    intro e
    simp [ValueMap.assign]
  | cons e0 t ih =>
    have ht : ValueMap.WF t := (List.pairwise_cons.mp h).2
    have he := (List.pairwise_cons.mp h).1
    obtain ⟨ih1, ih2⟩ := ih ht
    unfold ValueMap.assign
    by_cases c1 : keyLt key e0.1
    · rw [if_pos c1]
      constructor
      · apply List.Pairwise.cons _ h
        intro a ha
        rcases List.mem_cons.mp ha with e | e
        · subst e; exact c1
        · exact keyLt_trans c1 (he a e)
      · intro e
        constructor
        · intro hm
          rcases List.mem_cons.mp hm with q | q
          · exact Or.inl q
          · refine Or.inr ⟨q, ?_⟩
            intro hk
            rcases List.mem_cons.mp q with q2 | q2
            · subst q2; rw [hk] at c1; exact keyLt_irrefl _ c1
            · have := keyLt_trans c1 (he e q2)
              rw [hk] at this; exact keyLt_irrefl _ this
        · intro hm
          rcases hm with q | ⟨q, _⟩
          · subst q; exact List.mem_cons_self _ _
          · exact List.mem_cons_of_mem _ q
    · rw [if_neg c1]
      by_cases c2 : key = e0.1
      · rw [if_pos c2]
        constructor
        · apply List.Pairwise.cons _ ht
          intro a ha
          show keyLt key a.1
          rw [c2]; exact he a ha
        · intro e
          constructor
          · intro hm
            rcases List.mem_cons.mp hm with q | q
            · exact Or.inl q
            · refine Or.inr ⟨List.mem_cons_of_mem _ q, ?_⟩
              intro hk
              have := he e q
              rw [hk, c2] at this; exact keyLt_irrefl _ this
          · intro hm
            rcases hm with q | ⟨q, hne⟩
            · subst q; exact List.mem_cons_self _ _
            · rcases List.mem_cons.mp q with q2 | q2
              · subst q2; exact absurd c2.symm hne
              · exact List.mem_cons_of_mem _ q2
      · rw [if_neg c2]
        have c3 : keyLt e0.1 key := by
          rcases keyLt_trichotomy key e0.1 with q | q | q
          · exact absurd q c1
          · exact absurd q c2
          · exact q
        constructor
        · apply List.Pairwise.cons _ ih1
          intro a ha
          rcases (ih2 a).mp ha with q | ⟨q, _⟩
          · subst q; exact c3
          · exact he a q
        · intro e
          constructor
          · intro hm
            rcases List.mem_cons.mp hm with q | q
            · subst q
              refine Or.inr ⟨List.mem_cons_self _ _, ?_⟩
              intro hk
              rw [hk] at c3; exact keyLt_irrefl _ c3
            · rcases (ih2 e).mp q with q2 | ⟨q2, q3⟩
              · exact Or.inl q2
              · exact Or.inr ⟨List.mem_cons_of_mem _ q2, q3⟩
          · intro hm
            rcases hm with q | ⟨q, hne⟩
            · exact List.mem_cons_of_mem _ ((ih2 e).mpr (Or.inl q))
            · rcases List.mem_cons.mp q with q2 | q2
              · subst q2; exact List.mem_cons_self _ _
              · exact List.mem_cons_of_mem _ ((ih2 e).mpr (Or.inr ⟨q2, hne⟩))

theorem usub_of_le {a b : Nat} (h : b ≤ a) (ha : a < UMOD) : usub a b = a - b := by
  unfold usub UMOD at *
  omega

/-- The member function `get_values` on a valid matrix (whose `nnz`, an `unsigned` value, is
below `2^32`): the map of all stored entries. -/
theorem get_values_spec {A : SPARSEMATRIXN} (h : Valid A) (hU : A._nnz < UMOD)
    (v0 : ValueMap) :
    ∃ values, A.get_values v0 = some values ∧ MapUpTo A A._nnz values := by
  unfold get_values
  have key := loopFrom_inv
    (fun i values =>
      (rd A._ptr i).bind fun lo =>
      (rd A._ptr (i + 1)).bind fun hi =>
      loopFrom (fun j (values : ValueMap) =>
          (rd A._indices (lo + j)).bind fun c =>
          (rd A._data (lo + j)).bind fun x =>
          some (values.assign (i, c) x))
        0 (usub hi lo) values)
    (fun i values => MapUpTo A (A.P i) values) 0 A._rows ?_ [] ?_
  · obtain ⟨values, h1, h2⟩ := key
    rw [Nat.zero_add, h.2.2.2.1] at h2
    exact ⟨values, h1, h2⟩
  · intro i values _ hi hinv
    have hi : i < A._rows := by omega
    have hle : A.P i ≤ A.P (i + 1) := h.2.2.1 i hi
    have hn : A.P (i + 1) ≤ A._nnz := h.P_le_nnz (by omega)
    dsimp only
    rw [h.rd_ptr (le_of_lt hi), h.rd_ptr (i := i + 1) (by omega)]
    simp only [Option.some_bind]
    rw [usub_of_le hle (by omega)]
    have inner := loopFrom_inv
      (fun j (values : ValueMap) =>
          (rd A._indices (A.P i + j)).bind fun c =>
          (rd A._data (A.P i + j)).bind fun x =>
          some (values.assign (i, c) x))
      (fun j values => MapUpTo A (A.P i + j) values) 0 (A.P (i + 1) - A.P i) ?_ values
      (by simpa using hinv)
    · obtain ⟨v1, g1, g2⟩ := inner
      refine ⟨v1, g1, ?_⟩
      have e : A.P i + (0 + (A.P (i + 1) - A.P i)) = A.P (i + 1) := by omega
      rw [e] at g2
      exact g2
    · intro j v1 _ hj ⟨w, hm⟩
      have hj : A.P i + j < A.P (i + 1) := by omega
      dsimp only
      rw [h.rd_indices (by omega), h.rd_data (by omega)]
      simp only [Option.some_bind]
      have hlast : ∀ e ∈ v1, keyLt e.1 (i, A.I (A.P i + j)) := by
        intro e he
        obtain ⟨r, k, r1, k1, k2, k3, ee⟩ := (hm e).mp he
        subst ee
        simp only [keyLt]
        by_cases c : r < i
        · exact Or.inl c
        · have hri : r = i := by
            by_contra q
            have := h.P_mono (i := i + 1) (j := r) (by omega) (by omega)
            omega
          subst hri
          exact Or.inr ⟨rfl, h.I_lt hi k1 k3 hj⟩
      rw [ValueMap_assign_last v1 _ _ hlast]
      refine ⟨_, rfl, ?_, ?_⟩
      · unfold ValueMap.WF
        rw [List.pairwise_append]
        refine ⟨w, List.pairwise_singleton _ _, ?_⟩
        intro a ha b hb
        rw [List.mem_singleton] at hb
        subst hb
        exact hlast a ha
      · intro e
        rw [List.mem_append, List.mem_singleton, hm e]
        constructor
        · rintro (⟨r, k, r1, k1, k2, k3, ee⟩ | ee)
          · exact ⟨r, k, r1, k1, k2, by omega, ee⟩
          · exact ⟨i, A.P i + j, hi, by omega, hj, by omega, ee⟩
        · rintro ⟨r, k, r1, k1, k2, k3, ee⟩
          by_cases c : k < A.P i + j
          · exact Or.inl ⟨r, k, r1, k1, k2, c, ee⟩
          · have hk : k = A.P i + j := by omega
            subst hk
            have : r = i := h.row_unique r1 hi k1 k2 (by omega) hj
            subst this
            exact Or.inr ee
  · refine ⟨List.Pairwise.nil, ?_⟩
    intro e
    rw [h.2.1]
    simp

/-- The loop of `set_column` that erases column `col` from the map. -/
theorem erase_column_loop (values : ValueMap) (hWF : values.WF) (col n : Nat) :
    ∃ v1, loopFrom (fun i (values : ValueMap) => some (values.erase (i, col))) 0 n values
        = some v1 ∧ v1.WF ∧
      ∀ e, e ∈ v1 ↔ e ∈ values ∧ ¬ (e.1.2 = col ∧ e.1.1 < n) := by
  have key := loopFrom_inv
    (fun i (values : ValueMap) => some (values.erase (i, col)))
    (fun i (v1 : ValueMap) => v1.WF ∧ ∀ e, e ∈ v1 ↔ e ∈ values ∧ ¬ (e.1.2 = col ∧ e.1.1 < i))
    0 n ?_ values ⟨hWF, fun e => by simp⟩
  · obtain ⟨v1, h1, h2, h3⟩ := key
    rw [Nat.zero_add] at h3
    exact ⟨v1, h1, h2, h3⟩
  · intro i v1 _ _ ⟨w, hm⟩
    refine ⟨_, rfl, ValueMap_erase_WF w _, ?_⟩
    intro e
    rw [ValueMap_mem_erase, hm e]
    constructor
    · rintro ⟨⟨a, b⟩, c⟩
      refine ⟨a, ?_⟩
      rintro ⟨d1, d2⟩
      rcases Nat.eq_or_lt_of_le (Nat.lt_succ_iff.mp d2) with q | q
      · exact c (Prod.ext q d1)
      · exact b ⟨d1, q⟩
    · rintro ⟨a, b⟩
      refine ⟨⟨a, fun c => b ⟨c.1, by omega⟩⟩, ?_⟩
      intro c
      exact b ⟨by rw [c], by rw [c]; exact Nat.lt_succ_self _⟩

/-- The loop of `set_column` that inserts the entries of `v` above the tolerance, on a map
without keys in column `col` at the rows of `v`. -/
theorem insert_column_loop (EPS : REAL) (values : ValueMap) (hWF : values.WF) (col : Nat)
    (v : VECTORN) (hfree : ∀ e ∈ values, ¬ (e.1.2 = col ∧ e.1.1 < v.length)) :
    ∃ v1, loopFrom (fun i (values : ValueMap) =>
        (v.get? i).bind fun x =>
        if x > EPS ∨ x < -EPS then some (values.assign (i, col) x) else some values)
        0 v.length values = some v1 ∧ v1.WF ∧
      ∀ e, e ∈ v1 ↔ e ∈ values ∨
        (e.1.2 = col ∧ e.1.1 < v.length ∧ (v.getD e.1.1 0 > EPS ∨ v.getD e.1.1 0 < -EPS) ∧
          e.2 = v.getD e.1.1 0) := by
  have key := loopFrom_inv
    (fun i (values : ValueMap) =>
        (v.get? i).bind fun x =>
        if x > EPS ∨ x < -EPS then some (values.assign (i, col) x) else some values)
    (fun i (v1 : ValueMap) => v1.WF ∧ ∀ e, e ∈ v1 ↔ e ∈ values ∨
        (e.1.2 = col ∧ e.1.1 < i ∧ (v.getD e.1.1 0 > EPS ∨ v.getD e.1.1 0 < -EPS) ∧
          e.2 = v.getD e.1.1 0))
    0 v.length ?_ values ⟨hWF, fun e => by simp⟩
  · obtain ⟨v1, h1, h2, h3⟩ := key
    rw [Nat.zero_add] at h3
    exact ⟨v1, h1, h2, h3⟩
  · intro i v1 _ hi ⟨w, hm⟩
    have hi : i < v.length := by omega
    dsimp only
    rw [get?_of_lt v hi]
    simp only [Option.some_bind]
    by_cases c : v.getD i 0 > EPS ∨ v.getD i 0 < -EPS
    · rw [if_pos c]
      obtain ⟨w2, hm2⟩ := ValueMap_assign_spec w (i, col) (v.getD i 0)
      refine ⟨_, rfl, w2, ?_⟩
      intro e
      rw [hm2 e, hm e]
      constructor
      · rintro (q | ⟨q1 | ⟨a, b, c2, d⟩, _⟩)
        · subst q
          exact Or.inr ⟨rfl, Nat.lt_succ_self _, c, rfl⟩
        · exact Or.inl q1
        · exact Or.inr ⟨a, by omega, c2, d⟩
      · rintro (q | ⟨a, b, c2, d⟩)
        · refine Or.inr ⟨Or.inl q, ?_⟩
          intro hk
          exact hfree e q ⟨by rw [hk], by rw [hk]; exact hi⟩
        · rcases Nat.eq_or_lt_of_le (Nat.lt_succ_iff.mp b) with q | q
          · refine Or.inl ?_
            apply Prod.ext
            · exact Prod.ext q a
            · rw [d, q]
          · refine Or.inr ⟨Or.inr ⟨a, q, c2, d⟩, ?_⟩
            intro hk
            rw [hk] at q
            exact lt_irrefl _ q
    · rw [if_neg c]
      refine ⟨_, rfl, w, ?_⟩
      intro e
      rw [hm e]
      constructor
      · rintro (q | ⟨a, b, c2, d⟩)
        · exact Or.inl q
        · exact Or.inr ⟨a, by omega, c2, d⟩
      · rintro (q | ⟨a, b, c2, d⟩)
        · exact Or.inl q
        · rcases Nat.eq_or_lt_of_le (Nat.lt_succ_iff.mp b) with q | q
          · rw [q] at c2; exact absurd c2 c
          · exact Or.inr ⟨a, q, c2, d⟩

/-- The member function `set_column(col, v)` on a valid matrix: the result is valid, has the
dimensions of `A`, holds in column `col` the entries of `v` above the tolerance and elsewhere
the entries of `A`. -/
theorem set_column_entry (EPS : REAL) {A : SPARSEMATRIXN} (h : Valid A) (hU : A._nnz < UMOD)
    (hR : A._rows + 1 < UMOD)
    {col : Nat} (hc : col < A._columns) {v : VECTORN} (hv : v.length = A._rows) :
    ∃ A', A.set_column EPS col v = some A' ∧ Valid A' ∧ A'._rows = A._rows ∧
      A'._columns = A._columns ∧
      ∀ r c, r < A._rows → A'.entry r c =
        if c = col then (if v.getD r 0 > EPS ∨ v.getD r 0 < -EPS then v.getD r 0 else 0)
        else A.entry r c := by
  obtain ⟨v0, g0, w0, m0⟩ := get_values_spec h hU []
  obtain ⟨v1, g1, w1, m1⟩ := erase_column_loop v0 w0 col A._rows
  have hfree : ∀ e ∈ v1, ¬ (e.1.2 = col ∧ e.1.1 < v.length) := by
    intro e he
    rw [hv]
    exact ((m1 e).mp he).2
  obtain ⟨v2, g2, w2, m2⟩ := insert_column_loop EPS v1 w1 col v hfree
  have hmem : ∀ e, e ∈ v2 ↔
      (e.1.2 ≠ col ∧ ∃ r k, r < A._rows ∧ A.P r ≤ k ∧ k < A.P (r + 1) ∧
        e = ((r, A.I k), A.V k)) ∨
      (e.1.2 = col ∧ e.1.1 < A._rows ∧ (v.getD e.1.1 0 > EPS ∨ v.getD e.1.1 0 < -EPS) ∧
        e.2 = v.getD e.1.1 0) := by
    intro e
    rw [m2 e, m1 e, m0 e, hv]
    constructor
    · rintro (⟨⟨r, k, r1, k1, k2, _, ee⟩, b⟩ | q)
      · refine Or.inl ⟨fun c => b ⟨c, ?_⟩, r, k, r1, k1, k2, ee⟩
        rw [ee]; exact r1
      · exact Or.inr q
    · rintro (⟨a, r, k, r1, k1, k2, ee⟩ | q)
      · refine Or.inl ⟨⟨r, k, r1, k1, k2, ?_, ee⟩, fun c => a c.1⟩
        exact lt_of_lt_of_le k2 (h.P_le_nnz (by omega))
      · exact Or.inr q
  have hgrid : ∀ e ∈ v2, e.1.1 < A._rows ∧ e.1.2 < A._columns := by
    intro e he
    rcases (hmem e).mp he with ⟨_, r, k, r1, k1, k2, ee⟩ | ⟨a, b, _, _⟩
    · subst ee
      exact ⟨r1, h.2.2.2.2.2.2 k (lt_of_lt_of_le k2 (h.P_le_nnz (by omega)))⟩
    · exact ⟨b, by rw [a]; exact hc⟩
  obtain ⟨A', e, hV, h1, h2, _, _, _, _, _, hent⟩ :=
    set_spec A A._rows A._columns v2 w2 hgrid hR
  refine ⟨A', ?_, hV, h1, h2, ?_⟩
  · unfold set_column
    simp only [g0, g1, g2, Option.some_bind]
    exact e
  · intro r c hr
    have hnot : ∀ {c' : Nat}, (∀ x, ((r, c'), x) ∉ v2) → A'.entry r c' = 0 := by
      intro c' hx
      apply (hent r c' hr).2
      cases hcn : v2.contains (r, c') with
      | false => rfl
      | true =>
        obtain ⟨x, hx2⟩ := (v2.contains_iff (r, c')).mp hcn
        exact absurd hx2 (hx x)
    by_cases c1 : c = col
    · subst c1
      rw [if_pos rfl]
      by_cases c2 : v.getD r 0 > EPS ∨ v.getD r 0 < -EPS
      · rw [if_pos c2]
        exact (hent r c hr).1 _ ((hmem _).mpr (Or.inr ⟨rfl, hr, c2, rfl⟩))
      · rw [if_neg c2]
        apply hnot
        intro x hx
        rcases (hmem _).mp hx with ⟨a, _⟩ | ⟨_, _, b, _⟩
        · exact a rfl
        · exact c2 b
    · rw [if_neg c1]
      by_cases hs : stored A r c
      · obtain ⟨k, hk, ee⟩ := hs
        have hk := Finset.mem_Ico.mp hk
        have hm : ((r, c), A.V k) ∈ v2 :=
          (hmem _).mpr (Or.inl ⟨c1, r, k, hr, hk.1, hk.2, by rw [ee]⟩)
        rw [(hent r c hr).1 _ hm, ← ee, h.entry_of_slot hr hk.1 hk.2]
      · rw [entry_of_not_stored hs]
        apply hnot
        intro x hx
        rcases (hmem _).mp hx with ⟨_, r', k, r1, k1, k2, ee⟩ | ⟨a, _⟩
        · have e1 : r = r' := congrArg (fun p => p.1.1) ee
          have e2 : c = A.I k := congrArg (fun p => p.1.2) ee
          subst e1
          exact hs (stored_of_slot k1 k2 e2.symm)
        · exact c1 a

theorem scnt_zero (EPS : REAL) (x : VECTORN) : scnt EPS x 0 = 0 := by
  simp [scnt]

theorem scnt_succ (EPS : REAL) (x : VECTORN) (j : Nat) :
    scnt EPS x (j + 1) = scnt EPS x j + if supp EPS x j then 1 else 0 := by
  unfold scnt
  rw [Finset.sum_range_succ]

theorem scnt_mono (EPS : REAL) (x : VECTORN) {j1 j2 : Nat} (h : j1 ≤ j2) :
    scnt EPS x j1 ≤ scnt EPS x j2 := by
  unfold scnt
  exact Finset.sum_le_sum_of_subset (Finset.range_mono h)

theorem scnt_lt_of_supp (EPS : REAL) (x : VECTORN) {j : Nat} (hj : j < x.length)
    (hs : supp EPS x j) : scnt EPS x j + 1 ≤ scnt EPS x x.length := by
  have h1 := scnt_succ EPS x j
  rw [if_pos hs] at h1
  have h2 := scnt_mono EPS x (show j + 1 ≤ x.length by omega)
  omega

theorem scnt_eq_card (EPS : REAL) (x : VECTORN) (j : Nat) :
    scnt EPS x j = ((Finset.range j).filter fun i => supp EPS x i).card := by
  unfold scnt
  rw [Finset.card_filter]

/-- The first two loops of `outer_square`: the flags of the support and its size. -/
theorem outer_square_nz_spec (EPS : REAL) (x : VECTORN) :
    ∃ enz, outer_square_nz EPS x = some enz ∧ enz.2 = scnt EPS x x.length ∧
      ∀ i, i < x.length → rd enz.1 i = some (decide (supp EPS x i)) := by
  unfold outer_square_nz
  dsimp only
  have k1 := loopFrom_inv
    (fun i (e : Cells Bool) => wr e i false)
    (fun i (e : Cells Bool) => e.length = x.length ∧ ∀ t, t < i → rd e t = some false)
    0 x.length ?_ (newArray Bool x.length) ⟨by simp [newArray], fun t ht => by omega⟩
  · obtain ⟨e, e1, e2, e3⟩ := k1
    rw [Nat.zero_add] at e3
    have k2 := loopFrom_inv
      (fun i (s : Cells Bool × Nat) =>
        (x.get? i).bind fun xi =>
        if |xi| > EPS then (wr s.1 i true).bind fun e => some (e, s.2 + 1) else some s)
      (fun i (s : Cells Bool × Nat) => s.1.length = x.length ∧ s.2 = scnt EPS x i ∧
        (∀ t, t < i → rd s.1 t = some (decide (supp EPS x t))) ∧
        (∀ t, i ≤ t → t < x.length → rd s.1 t = some false))
      0 x.length ?_ (e, 0) ⟨e2, (scnt_zero EPS x).symm, fun t ht => by omega,
        fun t _ ht => e3 t ht⟩
    · obtain ⟨enz, f1, _, f3, f4, _⟩ := k2
      rw [Nat.zero_add] at f3 f4
      rw [e1]
      exact ⟨enz, f1, f3, f4⟩
    · intro i s _ hi ⟨g1, g2, g3, g4⟩
      have hi : i < x.length := by omega
      dsimp only
      rw [get?_of_lt x hi]
      simp only [Option.some_bind]
      by_cases c : |x.getD i 0| > EPS
      · rw [if_pos c, wr_of_lt _ _ (by omega)]
        simp only [Option.some_bind]
        refine ⟨_, rfl, by simpa using g1, ?_, ?_, ?_⟩
        · simp only
          rw [scnt_succ, if_pos (show supp EPS x i from c), g2]
        · intro t ht
          simp only
          rcases Nat.eq_or_lt_of_le (Nat.lt_succ_iff.mp ht) with q | q
          · subst q
            rw [rd_set_same _ _ (by omega), decide_eq_true (show supp EPS x t from c)]
          · rw [rd_set_other _ _ (by omega)]; exact g3 t q
        · intro t ht1 ht2
          simp only
          rw [rd_set_other _ _ (by omega)]
          exact g4 t (by omega) ht2
      · rw [if_neg c]
        refine ⟨_, rfl, g1, ?_, ?_, ?_⟩
        · rw [scnt_succ, if_neg (show ¬ supp EPS x i from c), g2]; rfl
        · intro t ht
          rcases Nat.eq_or_lt_of_le (Nat.lt_succ_iff.mp ht) with q | q
          · subst q
            rw [g4 t (le_refl _) hi, decide_eq_false (show ¬ supp EPS x t from c)]
          · exact g3 t q
        · intro t ht1 ht2
          exact g4 t (by omega) ht2
  · intro i e _ hi ⟨g1, g2⟩
    have hi : i < x.length := by omega
    dsimp only
    rw [wr_of_lt _ _ (by omega)]
    refine ⟨_, rfl, by simpa using g1, ?_⟩
    intro t ht
    rcases Nat.eq_or_lt_of_le (Nat.lt_succ_iff.mp ht) with q | q
    · subst q; exact rd_set_same _ _ (by omega)
    · rw [rd_set_other _ _ (by omega)]; exact g2 t q

/-- The loop of `outer_square` that sets up `ptr`: row `i` starts at `nz * scnt i`. -/
theorem outer_square_ptr_spec (EPS : REAL) (x : VECTORN) (flags : Cells Bool) (nz : Nat)
    (hf : ∀ i, i < x.length → rd flags i = some (decide (supp EPS x i)))
    (hn : x.length + 1 < UMOD) :
    ∃ ptr, outer_square_ptr x.length flags nz = some ptr ∧ ptr.length = x.length + 1 ∧
      ∀ i, i ≤ x.length → rd ptr i = some (nz * scnt EPS x i) := by
  unfold outer_square_ptr
  rw [uadd_one_of_lt hn, wr_of_lt _ _ (by simp [newArray])]
  simp only [Option.some_bind]
  have key := loopFrom_inv
    (fun i (ptr : Cells Nat) =>
      (rd ptr i).bind fun p =>
      (wr ptr (i + 1) p).bind fun ptr =>
      (rd flags i).bind fun b =>
      if b then (rd ptr (i + 1)).bind fun q => wr ptr (i + 1) (q + nz) else some ptr)
    (fun i (ptr : Cells Nat) => ptr.length = x.length + 1 ∧
      ∀ t, t ≤ i → rd ptr t = some (nz * scnt EPS x t))
    0 x.length ?_ ((newArray Nat (x.length + 1)).set 0 (some 0)) ⟨by simp [newArray], ?_⟩
  · obtain ⟨ptr, p1, p2, p3⟩ := key
    rw [Nat.zero_add] at p3
    exact ⟨ptr, p1, p2, p3⟩
  · intro i ptr _ hi ⟨g1, g2⟩
    have hi : i < x.length := by omega
    dsimp only
    rw [g2 i (le_refl _)]
    simp only [Option.some_bind]
    rw [wr_of_lt _ _ (by omega)]
    simp only [Option.some_bind]
    rw [hf i hi]
    simp only [Option.some_bind]
    by_cases c : supp EPS x i
    · rw [decide_eq_true c, if_pos rfl, rd_set_same _ _ (by omega)]
      simp only [Option.some_bind]
      rw [wr_of_lt _ _ (by simp; omega)]
      refine ⟨_, rfl, by simp; omega, ?_⟩
      intro t ht
      rcases Nat.eq_or_lt_of_le ht with q | q
      · subst q
        rw [rd_set_same _ _ (by simp; omega), scnt_succ, if_pos c, Nat.mul_add, Nat.mul_one]
      · rw [rd_set_other _ _ (by omega), rd_set_other _ _ (by omega)]
        exact g2 t (by omega)
    · rw [decide_eq_false c]
      simp only [Bool.false_eq_true, if_false]
      refine ⟨_, rfl, by simp; omega, ?_⟩
      intro t ht
      rcases Nat.eq_or_lt_of_le ht with q | q
      · subst q
        rw [rd_set_same _ _ (by omega), scnt_succ, if_neg c, Nat.add_zero]
      · rw [rd_set_other _ _ (by omega)]
        exact g2 t (by omega)
  · intro t ht
    have : t = 0 := by omega
    subst this
    rw [rd_set_same _ _ (by simp [newArray]), scnt_zero, Nat.mul_zero]

theorem OuterFill.Ix_set (s : OuterFill) (d : Cells REAL) (j k t : Nat)
    (hk : s.k < s.indices.length) :
    OuterFill.Ix { indices := s.indices.set s.k (some j), data := d, k := k } t =
      if t = s.k then j else s.Ix t := by
  unfold OuterFill.Ix
  dsimp only
  by_cases c : t = s.k
  · subst c; rw [rd_set_same _ _ hk, if_pos rfl]; rfl
  · rw [rd_set_other _ _ c, if_neg c]

theorem OuterFill.Vx_set (s : OuterFill) (ix : Cells Nat) (v : REAL) (k t : Nat)
    (hk : s.k < s.data.length) :
    OuterFill.Vx { indices := ix, data := s.data.set s.k (some v), k := k } t =
      if t = s.k then v else s.Vx t := by
  unfold OuterFill.Vx
  dsimp only
  by_cases c : t = s.k
  · subst c; rw [rd_set_same _ _ hk, if_pos rfl]; rfl
  · rw [rd_set_other _ _ c, if_neg c]

/-- One turn of the inner loop of the last pass of `outer_square`, in a row of the support. -/
theorem outer_square_cell_spec (EPS : REAL) (x : VECTORN) (flags : Cells Bool) (nz : Nat)
    (hf : ∀ i, i < x.length → rd flags i = some (decide (supp EPS x i)))
    (hnz : nz = scnt EPS x x.length) (hS : nz * nz < UMOD)
    {i j : Nat} (hi : i < x.length) (hsi : supp EPS x i) (hj : j < x.length)
    {s : OuterFill} (inv : OuterInv EPS x nz i j s) :
    ∃ s', outer_square_cell x flags nz i j s = some s' ∧ OuterInv EPS x nz i (j + 1) s' := by
  unfold outer_square_cell
  rw [hf j hj]
  simp only [Option.some_bind]
  have hmono : ∀ r, r < i → nz * scnt EPS x (r + 1) ≤ nz * scnt EPS x i := fun r hr =>
    Nat.mul_le_mul_left _ (scnt_mono EPS x (by omega))
  by_cases c : supp EPS x j
  · have b1 := scnt_lt_of_supp EPS x hi hsi
    have b2 := scnt_lt_of_supp EPS x hj c
    rw [← hnz] at b1 b2
    have b3 : nz * (scnt EPS x i + 1) ≤ nz * nz := Nat.mul_le_mul_left _ b1
    rw [Nat.mul_add, Nat.mul_one] at b3
    have hk : s.k < nz * nz := by rw [inv.k_eq]; omega
    have hum : umul nz nz = nz * nz := by unfold umul; exact Nat.mod_eq_of_lt hS
    rw [decide_eq_true c, if_neg (by simp), hum, if_pos hk,
      wr_of_lt _ _ (by rw [inv.len_i]; exact hk)]
    simp only [Option.some_bind]
    rw [get?_of_lt x hi, get?_of_lt x hj]
    simp only [Option.some_bind]
    rw [wr_of_lt _ _ (by rw [inv.len_d]; exact hk)]
    have hki : s.k < s.indices.length := by rw [inv.len_i]; exact hk
    have hkd : s.k < s.data.length := by rw [inv.len_d]; exact hk
    have eI := fun t => OuterFill.Ix_set s (s.data.set s.k (some (x.getD i 0 * x.getD j 0)))
      j (s.k + 1) t hki
    have eV := fun t => OuterFill.Vx_set s (s.indices.set s.k (some j))
      (x.getD i 0 * x.getD j 0) (s.k + 1) t hkd
    have hbase : nz * scnt EPS x i ≤ s.k := by rw [inv.k_eq]; omega
    refine ⟨_, rfl, ?_⟩
    constructor
    · simpa using inv.len_i
    · simpa using inv.len_d
    · show s.k + 1 = _
      rw [scnt_succ, if_pos c, inv.k_eq]; omega
    · intro t ht
      have ht : t < s.k + 1 := ht
      rw [eI]
      dsimp only
      by_cases q : t = s.k
      · subst q
        rw [rd_set_same _ _ hki, rd_set_same _ _ hkd, if_pos rfl]
        exact ⟨rfl, rfl, hj⟩
      · rw [rd_set_other _ _ q, rd_set_other _ _ q, if_neg q]
        exact inv.init t (by omega)
    · intro r hr t ht1 ht2
      have := hmono r hr
      rw [eI, eI, if_neg (by omega), if_neg (by omega)]
      exact inv.asc_done r hr t ht1 ht2
    · intro t ht1 ht2
      have ht2 : t + 1 < s.k + 1 := ht2
      rw [eI, eI, if_neg (by omega)]
      by_cases q : t + 1 = s.k
      · rw [if_pos q]
        exact inv.cur_lt t ht1 (by omega)
      · rw [if_neg q]
        exact inv.asc_cur t ht1 (by omega)
    · intro t ht1 ht2
      have ht2 : t < s.k + 1 := ht2
      rw [eI]
      by_cases q : t = s.k
      · rw [if_pos q]; omega
      · rw [if_neg q]
        have := inv.cur_lt t ht1 (by omega)
        omega
    · intro r hr col
      have := hmono r hr
      rw [← inv.mem_done r hr col]
      constructor
      · rintro ⟨t, t1, t2, t3⟩
        rw [eI, if_neg (by omega)] at t3
        exact ⟨t, t1, t2, t3⟩
      · rintro ⟨t, t1, t2, t3⟩
        refine ⟨t, t1, t2, ?_⟩
        rw [eI, if_neg (by omega)]
        exact t3
    · intro col
      constructor
      · rintro ⟨t, t1, t2, t3⟩
        have t2 : t < s.k + 1 := t2
        rw [eI] at t3
        by_cases q : t = s.k
        · rw [if_pos q] at t3
          subst t3
          exact ⟨c, by omega⟩
        · rw [if_neg q] at t3
          have := (inv.mem_cur col).mp ⟨t, t1, by omega, t3⟩
          exact ⟨this.1, by omega⟩
      · rintro ⟨c1, c2⟩
        by_cases q : col = j
        · subst q
          refine ⟨s.k, hbase, Nat.lt_succ_self _, ?_⟩
          rw [eI, if_pos rfl]
        · obtain ⟨t, t1, t2, t3⟩ := (inv.mem_cur col).mpr ⟨c1, by omega⟩
          refine ⟨t, t1, Nat.lt_succ_of_lt t2, ?_⟩
          rw [eI, if_neg (by omega)]
          exact t3
    · intro r hr t ht1 ht2
      have := hmono r hr
      rw [eI, eV, if_neg (by omega), if_neg (by omega)]
      exact inv.val_done r hr t ht1 ht2
    · intro t ht1 ht2
      have ht2 : t < s.k + 1 := ht2
      rw [eI, eV]
      by_cases q : t = s.k
      · rw [if_pos q, if_pos q]
      · rw [if_neg q, if_neg q]
        exact inv.val_cur t ht1 (by omega)
  · rw [decide_eq_false c, if_pos rfl]
    refine ⟨s, rfl, ?_⟩
    constructor
    · exact inv.len_i
    · exact inv.len_d
    · rw [scnt_succ, if_neg c, inv.k_eq]; rfl
    · exact inv.init
    · exact inv.asc_done
    · exact inv.asc_cur
    · intro t ht1 ht2
      have := inv.cur_lt t ht1 ht2
      omega
    · exact inv.mem_done
    · intro col
      rw [inv.mem_cur col]
      constructor
      · rintro ⟨c1, c2⟩
        exact ⟨c1, by omega⟩
      · rintro ⟨c1, c2⟩
        refine ⟨c1, ?_⟩
        rcases Nat.eq_or_lt_of_le (Nat.lt_succ_iff.mp c2) with q | q
        · subst q; exact absurd c1 c
        · exact q
    · exact inv.val_done
    · exact inv.val_cur

/-- A whole turn of the outer loop of the last pass of `outer_square`. -/
theorem outer_square_row_spec (EPS : REAL) (x : VECTORN) (flags : Cells Bool) (nz : Nat)
    (hf : ∀ i, i < x.length → rd flags i = some (decide (supp EPS x i)))
    (hnz : nz = scnt EPS x x.length) (hS : nz * nz < UMOD)
    {i : Nat} (hi : i < x.length) {s : OuterFill} (inv : OuterInv EPS x nz i 0 s) :
    ∃ s', ((rd flags i).bind fun bi =>
        if bi = false then some s
        else loopFrom (outer_square_cell x flags nz i) 0 x.length s) = some s' ∧
      OuterInv EPS x nz (i + 1) 0 s' := by
  rw [hf i hi]
  simp only [Option.some_bind]
  by_cases c : supp EPS x i
  · rw [decide_eq_true c, if_neg (by simp)]
    obtain ⟨s', e1, e2⟩ := loopFrom_inv (outer_square_cell x flags nz i)
      (fun j s => OuterInv EPS x nz i j s) 0 x.length
      (fun j s _ hj inv => outer_square_cell_spec EPS x flags nz hf hnz hS hi c
        (by omega) inv) s inv
    rw [Nat.zero_add] at e2
    have hk : s'.k = nz * scnt EPS x (i + 1) := by
      rw [e2.k_eq, scnt_succ, if_pos c, ← hnz, Nat.mul_add, Nat.mul_one]
    refine ⟨s', e1, ?_⟩
    constructor
    · exact e2.len_i
    · exact e2.len_d
    · rw [hk, scnt_zero]; rfl
    · exact e2.init
    · intro r hr t ht1 ht2
      rcases Nat.eq_or_lt_of_le (Nat.lt_succ_iff.mp hr) with q | q
      · subst q
        exact e2.asc_cur t ht1 (by rw [hk]; exact ht2)
      · exact e2.asc_done r q t ht1 ht2
    · intro t ht1 ht2
      rw [hk] at ht2; omega
    · intro t ht1 ht2
      rw [hk] at ht2; omega
    · intro r hr col
      rcases Nat.eq_or_lt_of_le (Nat.lt_succ_iff.mp hr) with q | q
      · subst q
        rw [← hk, e2.mem_cur col]
        exact ⟨fun a => ⟨c, a⟩, fun a => a.2⟩
      · exact e2.mem_done r q col
    · intro col
      constructor
      · rintro ⟨t, t1, t2, _⟩
        rw [hk] at t2; omega
      · rintro ⟨_, c2⟩
        omega
    · intro r hr t ht1 ht2
      rcases Nat.eq_or_lt_of_le (Nat.lt_succ_iff.mp hr) with q | q
      · subst q
        exact e2.val_cur t ht1 (by rw [hk]; exact ht2)
      · exact e2.val_done r q t ht1 ht2
    · intro t ht1 ht2
      rw [hk] at ht2; omega
  · rw [decide_eq_false c, if_pos rfl]
    have hsc : scnt EPS x (i + 1) = scnt EPS x i := by rw [scnt_succ, if_neg c]; rfl
    have hk : s.k = nz * scnt EPS x i := by rw [inv.k_eq, scnt_zero]; rfl
    refine ⟨s, rfl, ?_⟩
    constructor
    · exact inv.len_i
    · exact inv.len_d
    · rw [hsc]; exact inv.k_eq
    · exact inv.init
    · intro r hr t ht1 ht2
      rcases Nat.eq_or_lt_of_le (Nat.lt_succ_iff.mp hr) with q | q
      · subst q
        rw [hsc] at ht2; omega
      · exact inv.asc_done r q t ht1 ht2
    · intro t ht1 ht2
      rw [hsc] at ht1; omega
    · intro t ht1 ht2
      rw [hsc] at ht1; omega
    · intro r hr col
      rcases Nat.eq_or_lt_of_le (Nat.lt_succ_iff.mp hr) with q | q
      · subst q
        rw [hsc]
        constructor
        · rintro ⟨t, t1, t2, _⟩
          omega
        · rintro ⟨c1, _⟩
          exact absurd c1 c
      · exact inv.mem_done r q col
    · intro col
      rw [hsc]
      exact inv.mem_cur col
    · intro r hr t ht1 ht2
      rcases Nat.eq_or_lt_of_le (Nat.lt_succ_iff.mp hr) with q | q
      · subst q
        rw [hsc] at ht2; omega
      · exact inv.val_done r q t ht1 ht2
    · intro t ht1 ht2
      rw [hsc] at ht1; omega

/-- The last pass of `outer_square` fills the `nz * nz` slots row by row. -/
theorem outer_square_fill_spec (EPS : REAL) (x : VECTORN) (flags : Cells Bool) (nz : Nat)
    (hf : ∀ i, i < x.length → rd flags i = some (decide (supp EPS x i)))
    (hnz : nz = scnt EPS x x.length) (hS : nz * nz < UMOD) :
    ∃ s, outer_square_fill x flags nz = some s ∧ OuterInv EPS x nz x.length 0 s := by
  unfold outer_square_fill
  dsimp only
  have hum : umul nz nz = nz * nz := by unfold umul; exact Nat.mod_eq_of_lt hS
  rw [hum]
  have key := loopFrom_inv
    (fun i (s : OuterFill) =>
      (rd flags i).bind fun bi =>
      if bi = false then some s
      else loopFrom (outer_square_cell x flags nz i) 0 x.length s)
    (fun i s => OuterInv EPS x nz i 0 s) 0 x.length
    (fun i s _ hi inv => outer_square_row_spec EPS x flags nz hf hnz hS (by omega) inv)
    { indices := newArray Nat (nz * nz), data := newArray REAL (nz * nz), k := 0 } ?_
  · obtain ⟨s, s1, s2⟩ := key
    rw [Nat.zero_add] at s2
    exact ⟨s, s1, s2⟩
  · constructor
    · simp [newArray]
    · simp [newArray]
    · rw [scnt_zero]; rfl
    · intro t ht
      exact absurd ht (Nat.not_lt_zero _)
    · intro r hr
      exact absurd hr (Nat.not_lt_zero _)
    · intro t ht1 ht2
      have ht2 : t + 1 < 0 := ht2
      omega
    · intro t ht1 ht2
      have ht2 : t < 0 := ht2
      omega
    · intro r hr
      exact absurd hr (Nat.not_lt_zero _)
    · intro col
      constructor
      · rintro ⟨t, t1, t2, _⟩
        have t2 : t < 0 := t2
        omega
      · rintro ⟨_, c2⟩
        omega
    · intro r hr
      exact absurd hr (Nat.not_lt_zero _)
    · intro t ht1 ht2
      have ht2 : t < 0 := ht2
      omega

/-- When the first entry of `x` is in the support and the square of the support size is a
multiple of `2^32`, the arrays of `outer_square` have no cell and its `assert` fails. -/
theorem outer_square_assert_fails (EPS : REAL) (x : VECTORN) (result : SPARSEMATRIXN)
    (h0 : 0 < x.length) (hs : supp EPS x 0)
    (hw : umul (scnt EPS x x.length) (scnt EPS x x.length) = 0) :
    outer_square EPS x result = none := by
  obtain ⟨enz, e1, e2, e3⟩ := outer_square_nz_spec EPS x
  have hfill : outer_square_fill x enz.1 enz.2 = none := by
    unfold outer_square_fill
    dsimp only
    apply loopFrom_first_none _ _ _ _ h0
    dsimp only
    rw [e3 0 h0, decide_eq_true hs]
    simp only [Option.some_bind]
    rw [if_neg (by simp)]
    apply loopFrom_first_none _ _ _ _ h0
    unfold outer_square_cell
    rw [e3 0 h0, decide_eq_true hs]
    simp only [Option.some_bind]
    rw [if_neg (by simp), e2, hw, if_neg (Nat.not_lt_zero _)]
  unfold outer_square
  dsimp only
  rw [e1]
  simp only [Option.some_bind]
  cases outer_square_ptr x.length enz.1 enz.2 with
  | none => rfl
  | some ptr => simp only [Option.some_bind, hfill, Option.none_bind]

theorem getD_replicate_one (n j : Nat) (hj : j < n) :
    (List.replicate n (1 : REAL)).getD j 0 = 1 := by
  simp [List.getD_eq_getElem?_getD, List.getElem?_replicate, hj]

theorem scnt_replicate_one (n j : Nat) (hj : j ≤ n) : scnt 0 (List.replicate n 1) j = j := by
  induction j with
  | zero => exact scnt_zero _ _
  | succ j ih =>
    have hs : supp 0 (List.replicate n 1) j := by
      unfold supp
      rw [getD_replicate_one _ _ (by omega)]
      norm_num
    rw [scnt_succ, if_pos hs, ih (by omega)]

/-- When `n + 1` wraps to 0, `outer_square` writes `ptr[0]` into an offset array without
cells, which is undefined. -/
theorem outer_square_ptr_wraps (EPS : REAL) (x : VECTORN) (result : SPARSEMATRIXN)
    (h : uadd x.length 1 = 0) : outer_square EPS x result = none := by
  obtain ⟨enz, e1, _⟩ := outer_square_nz_spec EPS x
  have hp : outer_square_ptr x.length enz.1 enz.2 = none := by
    unfold outer_square_ptr
    rw [h]
    rfl
  unfold outer_square
  dsimp only
  rw [e1]
  simp only [Option.some_bind, hp, Option.none_bind]

theorem scnt_replicate_zero (n j : Nat) : scnt 0 (List.replicate n 0) j = 0 := by
  induction j with
  | zero => exact scnt_zero _ _
  | succ j ih =>
    have hs : ¬ supp 0 (List.replicate n 0) j := by
      unfold supp
      have e : (List.replicate n (0 : REAL)).getD j 0 = 0 := by
        by_cases c : j < n
        · simp [List.getD_eq_getElem?_getD, List.getElem?_replicate, c]
        · simp [List.getD_eq_getElem?_getD, List.getElem?_replicate, c]
      rw [e]
      norm_num
    rw [scnt_succ, if_neg hs, ih]

/-- C11 (counterexample): for the vector of 65536 ones the square of the support size is
`2^32`, which the `unsigned` product `nz*nz` cannot hold; the arrays are allocated with no cell
and the `assert` of the last pass fails at the first pair.  For the zero vector of size
`2^32 - 1`, whose support is empty, the size `n+1` of the offset array wraps to 0 and the
statement `ptr[0] = 0` writes into an array without cells. -/
theorem outer_square_large_support_fails :
    ((List.replicate 65536 (1 : REAL)).length = 65536 ∧
      scnt 0 (List.replicate 65536 1) 65536 = 65536 ∧
      outer_square 0 (List.replicate 65536 1) ctor = none) ∧
    ((List.replicate 4294967295 (0 : REAL)).length = 4294967295 ∧
      scnt 0 (List.replicate 4294967295 0) 4294967295 = 0 ∧
      outer_square 0 (List.replicate 4294967295 0) ctor = none) := by
  refine ⟨⟨List.length_replicate _ _, scnt_replicate_one 65536 65536 (le_refl _), ?_⟩,
    ⟨List.length_replicate _ _, scnt_replicate_zero _ _, ?_⟩⟩
  · apply outer_square_assert_fails
    · rw [List.length_replicate]; norm_num
    · unfold supp
      rw [getD_replicate_one _ _ (by norm_num)]
      norm_num
    · rw [List.length_replicate, scnt_replicate_one 65536 65536 (le_refl _)]
      unfold umul UMOD
      norm_num
  · apply outer_square_ptr_wraps
    rw [List.length_replicate]
    exact uadd_one_max

theorem rd_of_length_le {α : Type} (a : Cells α) {i : Nat} (h : a.length ≤ i) :
    rd a i = none := by
  unfold rd
  rw [List.get?_eq_none.mpr h]
  rfl

/-- C11 (amended with the bounds that the `unsigned` values `nz*nz` and `n+1` need): for every
dense vector `x` of size `n` with `n + 1 < 2^32` whose support `S` (the indices `i < n` with
`|x[i]| > EPS`) has `|S|^2 < 2^32`, `outer_square(x, result)` returns an `n × n` matrix with `nnz = |S|^2` that is
valid (so each row's column indices ascend), whose stored positions are exactly the pairs
`(i,j)` with `i` and `j` in `S`, and which stores `x[i]*x[j]` at `(i,j)`; for `n = 4`,
`x[1] = 2`, `x[3] = 5` and zeros elsewhere the arrays hold exactly `(1,1)=4`, `(1,3)=10`,
`(3,1)=10`, `(3,3)=25`. -/
theorem outer_square_spec (EPS : REAL) (x : VECTORN) (result : SPARSEMATRIXN)
    (hS : ((Finset.range x.length).filter (supp EPS x)).card *
      ((Finset.range x.length).filter (supp EPS x)).card < UMOD)
    (hn : x.length + 1 < UMOD) :
    (∃ R, outer_square EPS x result = some R ∧ R._rows = x.length ∧ R._columns = x.length ∧
      R._nnz = ((Finset.range x.length).filter (supp EPS x)).card ^ 2 ∧ Valid R ∧
      (∀ i j, stored R i j ↔
        (i ∈ (Finset.range x.length).filter (supp EPS x) ∧
          j ∈ (Finset.range x.length).filter (supp EPS x))) ∧
      (∀ i j, i ∈ (Finset.range x.length).filter (supp EPS x) →
        j ∈ (Finset.range x.length).filter (supp EPS x) →
        ∃ k, R.P i ≤ k ∧ k < R.P (i + 1) ∧ rd R._indices k = some j ∧
          rd R._data k = some (x.getD i 0 * x.getD j 0))) ∧
    outer_square (1 / 1000) [0, 2, 0, 5] ctor = some
      { _rows := 4, _columns := 4, _nnz := 4, _nnz_capacity := 0, _row_capacity := 0,
        _ptr := [some 0, some 0, some 2, some 2, some 4],
        _indices := [some 1, some 3, some 1, some 3],
        _data := [some 4, some 10, some 10, some 25] } := by
  refine ⟨?_, by decide!⟩
  obtain ⟨enz, e1, e2, e3⟩ := outer_square_nz_spec EPS x
  have hcard := scnt_eq_card EPS x x.length
  rw [← hcard, ← e2] at hS
  obtain ⟨ptr, p1, p2, p3⟩ := outer_square_ptr_spec EPS x enz.1 enz.2 e3 hn
  obtain ⟨s, s1, inv⟩ := outer_square_fill_spec EPS x enz.1 enz.2 e3 e2 hS
  have hum : umul enz.2 enz.2 = enz.2 * enz.2 := by unfold umul; exact Nat.mod_eq_of_lt hS
  have hk : s.k = enz.2 * enz.2 := by
    rw [inv.k_eq, scnt_zero, ← e2]; rfl
  have hmem : ∀ i, i ∈ (Finset.range x.length).filter (supp EPS x) ↔
      (i < x.length ∧ supp EPS x i) := fun i => by
    rw [Finset.mem_filter, Finset.mem_range]
  have hrun : outer_square EPS x result = some
      { result with
        _rows := x.length, _columns := x.length, _ptr := ptr, _indices := s.indices,
        _data := s.data, _nnz := enz.2 * enz.2 } := by
    unfold outer_square
    dsimp only
    rw [e1]
    simp only [Option.some_bind]
    rw [p1]
    simp only [Option.some_bind]
    rw [s1]
    simp only [Option.some_bind, hum]
  refine ⟨_, hrun, rfl, rfl, ?_, ?_, ?_, ?_⟩
  · show enz.2 * enz.2 = _
    rw [← hcard, ← e2, Nat.pow_two]
  all_goals
    generalize hR : ({ result with
        _rows := x.length, _columns := x.length, _ptr := ptr, _indices := s.indices,
        _data := s.data, _nnz := enz.2 * enz.2 } : SPARSEMATRIXN) = R
    have r1 : R._rows = x.length := by rw [← hR]
    have r2 : R._columns = x.length := by rw [← hR]
    have r3 : R._nnz = enz.2 * enz.2 := by rw [← hR]
    have r4 : R._ptr = ptr := by rw [← hR]
    have r5 : R._indices = s.indices := by rw [← hR]
    have r6 : R._data = s.data := by rw [← hR]
    have hP : ∀ i, i ≤ x.length → R.P i = enz.2 * scnt EPS x i := fun i hi => by
      unfold P; rw [r4, p3 i hi]; rfl
    have hP' : ∀ i, x.length < i → R.P i = 0 := fun i hi => by
      unfold P; rw [r4, rd_of_length_le _ (by omega)]; rfl
    have hI : ∀ t, R.I t = s.Ix t := fun t => by
      unfold I OuterFill.Ix; rw [r5]
    have hV : ∀ t, R.V t = s.Vx t := fun t => by
      unfold V OuterFill.Vx; rw [r6]
    have hsome : ∀ {α : Type} (o : Option α) (d : α), o.isSome = true → o = some (o.getD d) :=
      fun o d h => by cases o with
        | none => simp at h
        | some v => rfl
  · refine ⟨?_, ?_, ?_, ?_, ?_, ?_, ?_⟩
    · intro i hi
      rw [r4, p3 i (by omega)]; rfl
    · rw [hP 0 (Nat.zero_le _), scnt_zero, Nat.mul_zero]
    · intro i hi
      rw [hP i (by omega), hP (i + 1) (by omega)]
      exact Nat.mul_le_mul_left _ (scnt_mono EPS x (by omega))
    · rw [hP _ (by omega), r1, r3, ← e2]
    · intro k hk'
      rw [r3, ← hk] at hk'
      rw [r5, r6]
      exact ⟨(inv.init k hk').1, (inv.init k hk').2.1⟩
    · intro i hi k _ h1 h2
      rw [hP i (by omega)] at h1
      rw [hP (i + 1) (by omega)] at h2
      rw [hI, hI]
      exact inv.asc_done i (by omega) k h1 h2
    · intro k hk'
      rw [r3, ← hk] at hk'
      rw [hI, r2]
      exact (inv.init k hk').2.2
  · intro i j
    rw [hmem, hmem]
    by_cases ci : i < x.length
    · have hiff := inv.mem_done i ci j
      constructor
      · rintro ⟨k, k1, k2⟩
        have k1 := Finset.mem_Ico.mp k1
        rw [hP i (by omega), hP (i + 1) (by omega)] at k1
        rw [hI] at k2
        have := hiff.mp ⟨k, k1.1, k1.2, k2⟩
        exact ⟨⟨ci, this.1⟩, this.2.2, this.2.1⟩
      · rintro ⟨⟨_, a1⟩, a2, a3⟩
        obtain ⟨t, t1, t2, t3⟩ := hiff.mpr ⟨a1, a3, a2⟩
        refine ⟨t, Finset.mem_Ico.mpr ⟨?_, ?_⟩, ?_⟩
        · rw [hP i (by omega)]; exact t1
        · rw [hP (i + 1) (by omega)]; exact t2
        · rw [hI]; exact t3
    · constructor
      · rintro ⟨k, k1, _⟩
        have k1 := Finset.mem_Ico.mp k1
        rw [hP' (i + 1) (by omega)] at k1
        omega
      · rintro ⟨⟨a, _⟩, _⟩
        exact absurd a ci
  · intro i j hi hj
    rw [hmem] at hi hj
    obtain ⟨t, t1, t2, t3⟩ := (inv.mem_done i hi.1 j).mpr ⟨hi.2, hj.2, hj.1⟩
    have hle : enz.2 * scnt EPS x (i + 1) ≤ s.k := by
      have := Nat.mul_le_mul_left enz.2 (scnt_mono EPS x (show i + 1 ≤ x.length by omega))
      rw [← e2] at this
      rw [hk]; exact this
    have hin := inv.init t (by omega)
    refine ⟨t, ?_, ?_, ?_, ?_⟩
    · rw [hP i (by omega)]; exact t1
    · rw [hP (i + 1) (by omega)]; exact t2
    · rw [r5, hsome _ 0 hin.1]
      exact congrArg some t3
    · rw [r6, hsome _ 0 hin.2.1]
      have := inv.val_done i hi.1 t t1 t2
      rw [t3] at this
      exact congrArg some this

/-- The statement of `outer_square_spec` at the vector `(0, 2, 0, 5)`. -/
theorem outer_square_spec_witness :
    (∃ R, outer_square (1 / 1000) [0, 2, 0, 5] ctor = some R ∧ R._rows = 4 ∧ R._columns = 4 ∧
      R._nnz = ((Finset.range 4).filter (supp (1 / 1000) [0, 2, 0, 5])).card ^ 2 ∧ Valid R ∧
      (∀ i j, stored R i j ↔
        (i ∈ (Finset.range 4).filter (supp (1 / 1000) [0, 2, 0, 5]) ∧
          j ∈ (Finset.range 4).filter (supp (1 / 1000) [0, 2, 0, 5]))) ∧
      (∀ i j, i ∈ (Finset.range 4).filter (supp (1 / 1000) [0, 2, 0, 5]) →
        j ∈ (Finset.range 4).filter (supp (1 / 1000) [0, 2, 0, 5]) →
        ∃ k, R.P i ≤ k ∧ k < R.P (i + 1) ∧ rd R._indices k = some j ∧
          rd R._data k = some ((([0, 2, 0, 5] : VECTORN).getD i 0) *
            (([0, 2, 0, 5] : VECTORN).getD j 0)))) ∧
    outer_square (1 / 1000) [0, 2, 0, 5] ctor = some
      { _rows := 4, _columns := 4, _nnz := 4, _nnz_capacity := 0, _row_capacity := 0,
        _ptr := [some 0, some 0, some 2, some 2, some 4],
        _indices := [some 1, some 3, some 1, some 3],
        _data := [some 4, some 10, some 10, some 25] } :=
  outer_square_spec (1 / 1000) [0, 2, 0, 5] ctor (by decide!) (by decide)

theorem subCnt_self (A : SPARSEMATRIXN) (cstart cend a : Nat) :
    subCnt A cstart cend a a = 0 := by
  simp [subCnt]

theorem subCnt_succ (A : SPARSEMATRIXN) (cstart cend : Nat) {a b : Nat} (h : a ≤ b) :
    subCnt A cstart cend a (b + 1) =
      subCnt A cstart cend a b + if cstart ≤ A.I b ∧ A.I b < cend then 1 else 0 := by
  unfold subCnt
  rw [Finset.sum_Ico_succ_top h]

theorem subCnt_mono (A : SPARSEMATRIXN) (cstart cend a : Nat) {b1 b2 : Nat} (h : b1 ≤ b2) :
    subCnt A cstart cend a b1 ≤ subCnt A cstart cend a b2 := by
  unfold subCnt
  exact Finset.sum_le_sum_of_subset (Finset.Ico_subset_Ico_right h)

theorem subCnt_lt (A : SPARSEMATRIXN) (cstart cend : Nat) {a t b : Nat} (h1 : a ≤ t)
    (h2 : t < b) (q1 : cstart ≤ A.I t) (q2 : A.I t < cend) :
    subCnt A cstart cend a t < subCnt A cstart cend a b := by
  have e := subCnt_succ A cstart cend h1
  rw [if_pos ⟨q1, q2⟩] at e
  have := subCnt_mono A cstart cend a (show t + 1 ≤ b from h2)
  omega

/-- Every position below the count is the position of a slot inside the column range. -/
theorem subCnt_surj (A : SPARSEMATRIXN) (cstart cend a : Nat) (b k : Nat)
    (h : k < subCnt A cstart cend a b) :
    ∃ t, a ≤ t ∧ t < b ∧ cstart ≤ A.I t ∧ A.I t < cend ∧ subCnt A cstart cend a t = k := by
  induction b with
  | zero => simp [subCnt] at h
  | succ b ih =>
    by_cases hab : a ≤ b
    · rw [subCnt_succ A cstart cend hab] at h
      by_cases hk : k < subCnt A cstart cend a b
      · obtain ⟨t, t1, t2, t3⟩ := ih hk
        exact ⟨t, t1, by omega, t3⟩
      · by_cases q : cstart ≤ A.I b ∧ A.I b < cend
        · rw [if_pos q] at h
          exact ⟨b, hab, Nat.lt_succ_self _, q.1, q.2, by omega⟩
        · rw [if_neg q] at h
          omega
    · have : Finset.Ico a (b + 1) = ∅ := Finset.Ico_eq_empty (by omega)
      simp [subCnt, this] at h

/-- Two slots inside the column range at the same position are the same slot. -/
theorem subCnt_inj (A : SPARSEMATRIXN) (cstart cend : Nat) {a t1 t2 : Nat} (h1 : a ≤ t1)
    (h2 : a ≤ t2) (p1 : cstart ≤ A.I t1) (p2 : A.I t1 < cend) (q1 : cstart ≤ A.I t2)
    (q2 : A.I t2 < cend)
    (e : subCnt A cstart cend a t1 = subCnt A cstart cend a t2) : t1 = t2 := by
  rcases Nat.lt_trichotomy t1 t2 with c | c | c
  · have := subCnt_lt A cstart cend h1 c p1 p2; omega
  · exact c
  · have := subCnt_lt A cstart cend h2 c q1 q2; omega

/-- The first pass of `get_sub_mat` counts the slots of the rows `[rstart, rend)` that lie
inside the column range. -/
theorem get_sub_mat_count_spec {A : SPARSEMATRIXN} (h : Valid A) (rstart rend cstart cend : Nat)
    (hr1 : rstart ≤ rend) (hr2 : rend ≤ A._rows) :
    A.get_sub_mat_count rstart rend cstart cend =
      some (subCnt A cstart cend (A.P rstart) (A.P rend)) := by
  unfold get_sub_mat_count
  have key := loopFrom_inv
    (fun row nv =>
      (rd A._ptr row).bind fun lo =>
      (rd A._ptr (row + 1)).bind fun hi =>
      loopFrom (fun col nv =>
          (rd A._indices col).bind fun c =>
          some (if cstart ≤ c ∧ c < cend then nv + 1 else nv))
        lo (hi - lo) nv)
    (fun row nv => nv = subCnt A cstart cend (A.P rstart) (A.P row))
    rstart (rend - rstart) ?_ 0 (subCnt_self A cstart cend _).symm
  · obtain ⟨nv, n1, n2⟩ := key
    rw [Nat.add_sub_cancel' hr1] at n2
    rw [n1, n2]
  · intro row nv hrow1 hrow2 inv
    have hrow : row < A._rows := by omega
    dsimp only
    rw [h.rd_ptr (show row ≤ A._rows by omega), h.rd_ptr (show row + 1 ≤ A._rows by omega)]
    simp only [Option.some_bind]
    have hle : A.P row ≤ A.P (row + 1) := h.2.2.1 row hrow
    have hbase : A.P rstart ≤ A.P row := h.P_mono hrow1 (by omega)
    have hn := h.P_le_nnz (show row + 1 ≤ A._rows by omega)
    have inner := loopFrom_inv
      (fun col nv =>
          (rd A._indices col).bind fun c =>
          some (if cstart ≤ c ∧ c < cend then nv + 1 else nv))
      (fun col nv => nv = subCnt A cstart cend (A.P rstart) col)
      (A.P row) (A.P (row + 1) - A.P row) ?_ nv inv
    · rw [Nat.add_sub_cancel' hle] at inner
      exact inner
    · intro col nv hc1 hc2 inv
      dsimp only
      rw [h.rd_indices (show col < A._nnz by omega)]
      simp only [Option.some_bind]
      refine ⟨_, rfl, ?_⟩
      rw [subCnt_succ A cstart cend (show A.P rstart ≤ col by omega), inv]
      split <;> rfl

/-- The second pass of `get_sub_mat` stores the value of every slot inside the ranges at the
position of the slot. -/
theorem get_sub_mat_data_spec {A : SPARSEMATRIXN} (h : Valid A) (rstart rend cstart cend : Nat)
    (hr1 : rstart ≤ rend) (hr2 : rend ≤ A._rows) :
    ∃ sd, A.get_sub_mat_data rstart rend cstart cend
        (subCnt A cstart cend (A.P rstart) (A.P rend)) = some sd ∧
      sd.1.length = subCnt A cstart cend (A.P rstart) (A.P rend) ∧
      ∀ t, A.P rstart ≤ t → t < A.P rend → cstart ≤ A.I t → A.I t < cend →
        rd sd.1 (subCnt A cstart cend (A.P rstart) t) = some (A.V t) := by
  unfold get_sub_mat_data
  have key := loopFrom_inv
    (fun row (s : Cells REAL × Nat) =>
      (rd A._ptr row).bind fun lo =>
      (rd A._ptr (row + 1)).bind fun hi =>
      loopFrom (fun col (s : Cells REAL × Nat) =>
          (rd A._indices col).bind fun c =>
          if cstart ≤ c ∧ c < cend then
            (rd A._data col).bind fun x =>
            (wr s.1 s.2 x).bind fun d => some (d, s.2 + 1)
          else some s)
        lo (hi - lo) s)
    (fun row (s : Cells REAL × Nat) =>
      s.1.length = subCnt A cstart cend (A.P rstart) (A.P rend) ∧
      s.2 = subCnt A cstart cend (A.P rstart) (A.P row) ∧
      ∀ t, A.P rstart ≤ t → t < A.P row → cstart ≤ A.I t → A.I t < cend →
        rd s.1 (subCnt A cstart cend (A.P rstart) t) = some (A.V t))
    rstart (rend - rstart) ?_ (newArray REAL (subCnt A cstart cend (A.P rstart) (A.P rend)), 0)
    ⟨by simp [newArray], (subCnt_self A cstart cend _).symm, fun t t1 t2 => by omega⟩
  · obtain ⟨sd, n1, n2, _, n4⟩ := key
    rw [Nat.add_sub_cancel' hr1] at n4
    exact ⟨sd, n1, n2, n4⟩
  · intro row s hrow1 hrow2 inv
    have hrow : row < A._rows := by omega
    dsimp only
    rw [h.rd_ptr (show row ≤ A._rows by omega), h.rd_ptr (show row + 1 ≤ A._rows by omega)]
    simp only [Option.some_bind]
    have hle : A.P row ≤ A.P (row + 1) := h.2.2.1 row hrow
    have hbase : A.P rstart ≤ A.P row := h.P_mono hrow1 (by omega)
    have htop : A.P (row + 1) ≤ A.P rend := h.P_mono (show row + 1 ≤ rend by omega) hr2
    have hn := h.P_le_nnz (show row + 1 ≤ A._rows by omega)
    have inner := loopFrom_inv
      (fun col (s : Cells REAL × Nat) =>
          (rd A._indices col).bind fun c =>
          if cstart ≤ c ∧ c < cend then
            (rd A._data col).bind fun x =>
            (wr s.1 s.2 x).bind fun d => some (d, s.2 + 1)
          else some s)
      (fun col (s : Cells REAL × Nat) =>
        s.1.length = subCnt A cstart cend (A.P rstart) (A.P rend) ∧
        s.2 = subCnt A cstart cend (A.P rstart) col ∧
        ∀ t, A.P rstart ≤ t → t < col → cstart ≤ A.I t → A.I t < cend →
          rd s.1 (subCnt A cstart cend (A.P rstart) t) = some (A.V t))
      (A.P row) (A.P (row + 1) - A.P row) ?_ s inv
    · rw [Nat.add_sub_cancel' hle] at inner
      exact inner
    · intro col s hc1 hc2 ⟨g1, g2, g3⟩
      have hcol : A.P rstart ≤ col := by omega
      dsimp only
      rw [h.rd_indices (show col < A._nnz by omega)]
      simp only [Option.some_bind]
      by_cases q : cstart ≤ A.I col ∧ A.I col < cend
      · rw [if_pos q, h.rd_data (show col < A._nnz by omega)]
        simp only [Option.some_bind]
        have hlt := subCnt_lt A cstart cend hcol (show col < A.P rend by omega) q.1 q.2
        rw [wr_of_lt _ _ (by rw [g1, g2]; exact hlt)]
        simp only [Option.some_bind]
        refine ⟨_, rfl, by simpa using g1, ?_, ?_⟩
        · show s.2 + 1 = _
          rw [subCnt_succ A cstart cend hcol, if_pos q, g2]
        · intro t t1 t2 t3 t4
          show rd (s.1.set s.2 _) _ = _
          rcases Nat.eq_or_lt_of_le (Nat.lt_succ_iff.mp t2) with e | e
          · subst e
            rw [← g2, rd_set_same _ _ (by rw [g1, g2]; exact hlt)]
          · have := subCnt_lt A cstart cend t1 e t3 t4
            rw [rd_set_other _ _ (by omega)]
            exact g3 t t1 e t3 t4
      · rw [if_neg q]
        refine ⟨_, rfl, g1, ?_, ?_⟩
        · rw [subCnt_succ A cstart cend hcol, if_neg q, g2]; rfl
        · intro t t1 t2 t3 t4
          rcases Nat.eq_or_lt_of_le (Nat.lt_succ_iff.mp t2) with e | e
          · subst e; exact absurd ⟨t3, t4⟩ q
          · exact g3 t t1 e t3 t4

/-- One turn of the inner loop of the last pass of `get_sub_mat`. -/
theorem get_sub_mat_cell_spec {A : SPARSEMATRIXN} (h : Valid A)
    (rstart rend cstart cend : Nat) (hr2 : rend ≤ A._rows) (hU : cend < UMOD)
    {row col : Nat} (hrow1 : rstart ≤ row) (hrow2 : row < rend) (hc1 : A.P row ≤ col)
    (hc2 : col < A.P (row + 1)) {s : SubFill}
    (inv : SubInv A rstart rend cstart cend row col s) :
    ∃ s', get_sub_mat_cell A rstart cstart cend row col s = some s' ∧
      SubInv A rstart rend cstart cend row (col + 1) s' := by
  have hbase : A.P rstart ≤ A.P row := h.P_mono hrow1 (by omega)
  have htop : A.P (row + 1) ≤ A.P rend := h.P_mono (show row + 1 ≤ rend by omega) hr2
  have hn := h.P_le_nnz (show row + 1 ≤ A._rows by omega)
  have hcol : A.P rstart ≤ col := by omega
  unfold get_sub_mat_cell
  rw [h.rd_indices (show col < A._nnz by omega)]
  simp only [Option.some_bind]
  by_cases q : cstart ≤ A.I col ∧ A.I col < cend
  · have hlt := subCnt_lt A cstart cend hcol (show col < A.P rend by omega) q.1 q.2
    have hj : s.j < s.indices.length := by rw [inv.len_i, inv.j_eq]; exact hlt
    rw [if_pos q, incrAt_of_rd inv.ptr_cur]
    simp only [Option.some_bind]
    rw [wr_of_lt _ _ hj, usub_of_le q.1 (by omega)]
    simp only [Option.some_bind]
    have hp : row - rstart + 1 < s.ptr.length := rd_lt inv.ptr_cur
    refine ⟨_, rfl, ?_⟩
    constructor
    · simpa using inv.len_p
    · simpa using inv.len_i
    · show s.j + 1 = _
      rw [subCnt_succ A cstart cend hcol, if_pos q, inv.j_eq]
    · intro i hi
      show rd (s.ptr.set _ _) i = _
      rw [rd_set_other _ _ (by omega)]
      exact inv.ptr_done i hi
    · show rd (s.ptr.set _ _) _ = _
      rw [rd_set_same _ _ hp, subCnt_succ A cstart cend hcol, if_pos q]
    · intro t t1 t2 t3 t4
      show rd (s.indices.set s.j _) _ = _
      rcases Nat.eq_or_lt_of_le (Nat.lt_succ_iff.mp t2) with e | e
      · subst e
        rw [← inv.j_eq, rd_set_same _ _ hj]
      · have := subCnt_lt A cstart cend t1 e t3 t4
        rw [rd_set_other _ _ (by rw [inv.j_eq]; omega)]
        exact inv.cells t t1 e t3 t4
  · rw [if_neg q]
    refine ⟨s, rfl, ?_⟩
    constructor
    · exact inv.len_p
    · exact inv.len_i
    · rw [subCnt_succ A cstart cend hcol, if_neg q, inv.j_eq]; rfl
    · exact inv.ptr_done
    · rw [subCnt_succ A cstart cend hcol, if_neg q]; exact inv.ptr_cur
    · intro t t1 t2 t3 t4
      rcases Nat.eq_or_lt_of_le (Nat.lt_succ_iff.mp t2) with e | e
      · subst e; exact absurd ⟨t3, t4⟩ q
      · exact inv.cells t t1 e t3 t4

/-- One turn of the outer loop of the last pass of `get_sub_mat`. -/
theorem get_sub_mat_row_spec {A : SPARSEMATRIXN} (h : Valid A)
    (rstart rend cstart cend : Nat) (hr2 : rend ≤ A._rows) (hU : cend < UMOD)
    {row : Nat} (hrow1 : rstart ≤ row) (hrow2 : row < rend) {s : SubFill}
    (inv : SubRowInv A rstart rend cstart cend row s) :
    ∃ s', get_sub_mat_row A rstart cstart cend row s = some s' ∧
      SubRowInv A rstart rend cstart cend (row + 1) s' := by
  have hle : A.P row ≤ A.P (row + 1) := h.2.2.1 row (by omega)
  unfold get_sub_mat_row
  have hp := inv.ptr_done (row - rstart) (le_refl _)
  rw [Nat.add_sub_cancel' hrow1] at hp
  rw [hp]
  simp only [Option.some_bind]
  have hlen : row - rstart + 1 < s.ptr.length := by rw [inv.len_p]; omega
  rw [wr_of_lt _ _ hlen, h.rd_ptr (show row ≤ A._rows by omega),
    h.rd_ptr (show row + 1 ≤ A._rows by omega)]
  simp only [Option.some_bind]
  have key := loopFrom_inv (get_sub_mat_cell A rstart cstart cend row)
    (fun col s => SubInv A rstart rend cstart cend row col s)
    (A.P row) (A.P (row + 1) - A.P row)
    (fun col s c1 c2 inv =>
      get_sub_mat_cell_spec h rstart rend cstart cend hr2 hU hrow1 hrow2 c1 (by omega) inv)
    ⟨s.ptr.set (row - rstart + 1) (some (subCnt A cstart cend (A.P rstart) (A.P row))),
      s.indices, s.j⟩ ?_
  · obtain ⟨s', e1, e2⟩ := key
    rw [Nat.add_sub_cancel' hle] at e2
    refine ⟨s', e1, ?_⟩
    constructor
    · exact e2.len_p
    · exact e2.len_i
    · exact e2.j_eq
    · intro i hi
      rcases Nat.eq_or_lt_of_le hi with q | q
      · rw [q, show rstart + (row + 1 - rstart) = row + 1 by omega,
          show row + 1 - rstart = row - rstart + 1 by omega]
        exact e2.ptr_cur
      · exact e2.ptr_done i (by omega)
    · exact e2.cells
  · constructor
    · simpa using inv.len_p
    · exact inv.len_i
    · exact inv.j_eq
    · intro i hi
      show rd (s.ptr.set _ _) i = _
      rw [rd_set_other _ _ (by omega)]
      exact inv.ptr_done i hi
    · show rd (s.ptr.set _ _) _ = _
      exact rd_set_same _ _ hlen
    · exact inv.cells

/-- The last pass of `get_sub_mat`: the offsets are the running counts and the column indices
are re-based by `cstart`. -/
theorem get_sub_mat_ptr_spec {A : SPARSEMATRIXN} (h : Valid A)
    (rstart rend cstart cend : Nat) (hr1 : rstart ≤ rend) (hr2 : rend ≤ A._rows)
    (hUr : rend < UMOD) (hU : cend < UMOD) :
    ∃ s, A.get_sub_mat_ptr rstart rend cstart cend
        (subCnt A cstart cend (A.P rstart) (A.P rend)) = some s ∧
      SubRowInv A rstart rend cstart cend rend s := by
  unfold get_sub_mat_ptr
  rw [usub_of_le hr1 hUr, wr_of_lt _ _ (by simp [newArray])]
  simp only [Option.some_bind]
  have key := loopFrom_inv (get_sub_mat_row A rstart cstart cend)
    (fun row s => SubRowInv A rstart rend cstart cend row s) rstart (rend - rstart)
    (fun row s r1 r2 inv =>
      get_sub_mat_row_spec h rstart rend cstart cend hr2 hU r1 (by omega) inv)
    { ptr := (newArray Nat (rend - rstart + 1)).set 0 (some 0),
      indices := newArray Nat (subCnt A cstart cend (A.P rstart) (A.P rend)), j := 0 } ?_
  · obtain ⟨s, e1, e2⟩ := key
    rw [Nat.add_sub_cancel' hr1] at e2
    exact ⟨s, e1, e2⟩
  · constructor
    · simp [newArray]
    · simp [newArray]
    · rw [subCnt_self]
    · intro i hi
      have : i = 0 := by omega
      subst this
      show rd (List.set _ _ _) 0 = _
      rw [rd_set_same _ _ (by simp [newArray]), Nat.add_zero, subCnt_self]
    · intro t t1 t2
      omega

/-- The slots of the rows `[rstart, rend)` are the slots of the single rows. -/
theorem Valid.subCnt_rows {A : SPARSEMATRIXN} (h : Valid A) (cstart cend rstart : Nat)
    (rend : Nat) (hr1 : rstart ≤ rend) (hr2 : rend ≤ A._rows) :
    subCnt A cstart cend (A.P rstart) (A.P rend) =
      ∑ r ∈ Finset.Ico rstart rend, subCnt A cstart cend (A.P r) (A.P (r + 1)) := by
  induction rend with
  | zero =>
    have : rstart = 0 := by omega
    subst this
    simp [subCnt]
  | succ n ih =>
    rcases Nat.eq_or_lt_of_le hr1 with q | q
    · rw [q]; simp [subCnt]
    · have hle : rstart ≤ n := by omega
      rw [Finset.sum_Ico_succ_top hle, ← ih hle (by omega)]
      unfold subCnt
      exact (Finset.sum_Ico_consecutive _ (h.P_mono hle (by omega))
        (h.2.2.1 n (by omega))).symm

/-- In one row, the slots inside the column range are the stored columns of the range. -/
theorem Valid.subCnt_row {A : SPARSEMATRIXN} (h : Valid A) (cstart cend : Nat) {r : Nat}
    (hr : r < A._rows) :
    subCnt A cstart cend (A.P r) (A.P (r + 1)) =
      ∑ c ∈ Finset.Ico cstart cend, if stored A r c then 1 else 0 := by
  unfold subCnt
  have e1 : ∀ t, (if cstart ≤ A.I t ∧ A.I t < cend then 1 else 0) =
      ∑ c ∈ Finset.Ico cstart cend, if A.I t = c then 1 else 0 := by
    intro t
    rw [Finset.sum_ite_eq]
    simp only [Finset.mem_Ico]
  simp only [e1]
  rw [Finset.sum_comm]
  apply Finset.sum_congr rfl
  intro c _
  exact h.row_slot_count hr c

/-- The arrays built by the three passes of `get_sub_mat` form a valid matrix whose row `i`
holds, re-based by `cstart`, the slots of row `rstart + i` of `A` inside the column range. -/
theorem get_sub_mat_arrays {A S : SPARSEMATRIXN} (h : Valid A)
    (rstart rend cstart cend : Nat) (hr1 : rstart ≤ rend) (hr2 : rend ≤ A._rows)
    (s1 : S._rows = rend - rstart) (s2 : S._columns = cend - cstart)
    (s3 : S._nnz = subCnt A cstart cend (A.P rstart) (A.P rend))
    (hp : ∀ i, i ≤ rend - rstart →
      rd S._ptr i = some (subCnt A cstart cend (A.P rstart) (A.P (rstart + i))))
    (hi : ∀ t, A.P rstart ≤ t → t < A.P rend → cstart ≤ A.I t → A.I t < cend →
      rd S._indices (subCnt A cstart cend (A.P rstart) t) = some (A.I t - cstart))
    (hd : ∀ t, A.P rstart ≤ t → t < A.P rend → cstart ≤ A.I t → A.I t < cend →
      rd S._data (subCnt A cstart cend (A.P rstart) t) = some (A.V t)) :
    Valid S ∧
    (∀ i j, i < rend - rstart →
      (stored S i j ↔ (j < cend - cstart ∧ stored A (rstart + i) (cstart + j)))) ∧
    (∀ i j, i < rend - rstart → j < cend - cstart →
      S.entry i j = A.entry (rstart + i) (cstart + j)) := by
  have hP : ∀ i, i ≤ rend - rstart →
      S.P i = subCnt A cstart cend (A.P rstart) (A.P (rstart + i)) := fun i hi' => by
    unfold P; rw [hp i hi']; rfl
  have hI : ∀ t, A.P rstart ≤ t → t < A.P rend → cstart ≤ A.I t → A.I t < cend →
      S.I (subCnt A cstart cend (A.P rstart) t) = A.I t - cstart := fun t a b c d => by
    unfold I; rw [hi t a b c d]; rfl
  have hV : ∀ t, A.P rstart ≤ t → t < A.P rend → cstart ≤ A.I t → A.I t < cend →
      S.V (subCnt A cstart cend (A.P rstart) t) = A.V t := fun t a b c d => by
    unfold V; rw [hd t a b c d]; rfl
  have hbase : ∀ i, i ≤ rend - rstart → A.P rstart ≤ A.P (rstart + i) := fun i hi' =>
    h.P_mono (by omega) (by omega)
  have htop : ∀ i, i ≤ rend - rstart → A.P (rstart + i) ≤ A.P rend := fun i hi' =>
    h.P_mono (by omega) hr2
  have htop1 : ∀ i, i < rend - rstart → A.P (rstart + i + 1) ≤ A.P rend := fun i hi' =>
    h.P_mono (by omega) hr2
  -- a slot of `S` in row `i` comes from a slot of `A` in row `rstart + i`
  have hfrom : ∀ i k, i < rend - rstart → S.P i ≤ k → k < S.P (i + 1) →
      ∃ t, A.P (rstart + i) ≤ t ∧ t < A.P (rstart + i + 1) ∧ cstart ≤ A.I t ∧ A.I t < cend ∧
        subCnt A cstart cend (A.P rstart) t = k := by
    intro i k hi' k1 k2
    rw [hP i (by omega)] at k1
    rw [hP (i + 1) (by omega)] at k2
    obtain ⟨t, t1, t2, t3, t4, t5⟩ := subCnt_surj A cstart cend (A.P rstart) _ k k2
    refine ⟨t, ?_, t2, t3, t4, t5⟩
    by_contra c
    have := subCnt_lt A cstart cend t1 (Nat.lt_of_not_le c) t3 t4
    omega
  -- and conversely
  have hto : ∀ i t, i < rend - rstart → A.P (rstart + i) ≤ t → t < A.P (rstart + i + 1) →
      cstart ≤ A.I t → A.I t < cend →
      S.P i ≤ subCnt A cstart cend (A.P rstart) t ∧
        subCnt A cstart cend (A.P rstart) t < S.P (i + 1) := by
    intro i t hi' t1 t2 t3 t4
    rw [hP i (by omega), hP (i + 1) (by omega)]
    have := hbase i (by omega)
    exact ⟨subCnt_mono A cstart cend _ t1, subCnt_lt A cstart cend (by omega) t2 t3 t4⟩
  have hstored : ∀ i j, i < rend - rstart →
      (stored S i j ↔ (j < cend - cstart ∧ stored A (rstart + i) (cstart + j))) := by
    intro i j hi'
    constructor
    · rintro ⟨k, k1, k2⟩
      have k1 := Finset.mem_Ico.mp k1
      obtain ⟨t, t1, t2, t3, t4, t5⟩ := hfrom i k hi' k1.1 k1.2
      have hb := hbase i (by omega)
      have ht := htop1 i (by omega)
      have e := hI t (by omega) (by omega) t3 t4
      rw [t5, k2] at e
      exact ⟨by omega, stored_of_slot t1 t2 (by omega)⟩
    · rintro ⟨j1, t, t1, t2⟩
      have t1 := Finset.mem_Ico.mp t1
      have hb := hbase i (by omega)
      have ht := htop1 i (by omega)
      have q := hto i t hi' t1.1 t1.2 (by omega) (by omega)
      refine stored_of_slot q.1 q.2 ?_
      rw [hI t (by omega) (by omega) (by omega) (by omega)]
      omega
  have hvalid : Valid S := by
    refine ⟨?_, ?_, ?_, ?_, ?_, ?_, ?_⟩
    · intro i hi'
      rw [hp i (by omega)]; rfl
    · rw [hP 0 (Nat.zero_le _)]
      exact subCnt_self A cstart cend _
    · intro i hi'
      rw [hP i (by omega), hP (i + 1) (by omega)]
      exact subCnt_mono A cstart cend _ (h.2.2.1 (rstart + i) (by omega))
    · rw [s1, hP _ (le_refl _), s3, Nat.add_sub_cancel' hr1]
    · intro k hk
      rw [s3] at hk
      obtain ⟨t, t1, t2, t3, t4, t5⟩ := subCnt_surj A cstart cend (A.P rstart) _ k hk
      rw [← t5, hi t t1 t2 t3 t4, hd t t1 t2 t3 t4]
      exact ⟨rfl, rfl⟩
    · intro i hi' k _ k1 k2
      rw [s1] at hi'
      have hmono : S.P i ≤ S.P (i + 1) := by
        rw [hP i (by omega), hP (i + 1) (by omega)]
        exact subCnt_mono A cstart cend _ (h.2.2.1 (rstart + i) (by omega))
      obtain ⟨t, t1, t2, t3, t4, t5⟩ := hfrom i k hi' k1 (by omega)
      obtain ⟨u, u1, u2, u3, u4, u5⟩ := hfrom i (k + 1) hi' (by omega) k2
      have hb := hbase i (by omega)
      have ht := htop1 i (by omega)
      have htu : t < u := by
        by_contra c
        have := subCnt_mono A cstart cend (A.P rstart) (Nat.le_of_not_lt c)
        omega
      have := h.I_lt (show rstart + i < A._rows by omega) t1 htu u2
      rw [← u5, ← t5, hI t (by omega) (by omega) t3 t4, hI u (by omega) (by omega) u3 u4]
      omega
    · intro k hk
      rw [s3] at hk
      obtain ⟨t, t1, t2, t3, t4, t5⟩ := subCnt_surj A cstart cend (A.P rstart) _ k hk
      rw [← t5, hI t t1 t2 t3 t4, s2]
      omega
  refine ⟨hvalid, hstored, ?_⟩
  intro i j hi' hj
  by_cases c : stored A (rstart + i) (cstart + j)
  · obtain ⟨t, t1, t2⟩ := c
    have t1 := Finset.mem_Ico.mp t1
    have hb := hbase i (by omega)
    have ht := htop1 i (by omega)
    have q := hto i t hi' t1.1 t1.2 (by omega) (by omega)
    have e1 := hvalid.entry_of_slot (show i < S._rows by rw [s1]; exact hi') q.1 q.2
    rw [hI t (by omega) (by omega) (by omega) (by omega), hV t (by omega) (by omega)
      (by omega) (by omega), t2, Nat.add_sub_cancel_left] at e1
    have e2 := h.entry_of_slot (show rstart + i < A._rows by omega) t1.1 t1.2
    rw [t2] at e2
    rw [e1, e2]
  · rw [entry_of_not_stored c,
      entry_of_not_stored (fun d => c ((hstored i j hi').mp d).2)]

/-- C13: for every valid sparse matrix `A` and bounds `rstart ≤ rend ≤ rows`,
`cstart ≤ cend ≤ columns` (the bounds are `unsigned` values, below `2^32`), `get_sub_mat`
returns a valid sparse matrix of `rend - rstart` rows and `cend - cstart` columns whose `nnz` is
the number of stored entries of `A` inside the two ranges, which stores `(i,j)` exactly when `A`
stores `(rstart+i, cstart+j)`, and whose dense form at `(i,j)` equals the dense form of `A` at
`(rstart+i, cstart+j)`. -/
theorem get_sub_mat_spec (NEXCEPT : Bool) (A : SPARSEMATRIXN) (rstart rend cstart cend : Nat)
    (m1 m2 : MATRIXN) (h : Valid A) (hr1 : rstart ≤ rend) (hr2 : rend ≤ A._rows)
    (hc1 : cstart ≤ cend) (hc2 : cend ≤ A._columns) (hU : rend < UMOD ∧ cend < UMOD) :
    ∃ S DA DS, A.get_sub_mat NEXCEPT rstart rend cstart cend = Outcome.done S ∧ Valid S ∧
      S._rows = rend - rstart ∧ S._columns = cend - cstart ∧
      S._nnz = (∑ r ∈ Finset.Ico rstart rend, ∑ c ∈ Finset.Ico cstart cend,
        if stored A r c then 1 else 0) ∧
      (∀ i j, i < rend - rstart →
        (stored S i j ↔ (j < cend - cstart ∧ stored A (rstart + i) (cstart + j)))) ∧
      A.to_dense m1 = some DA ∧ S.to_dense m2 = some DS ∧
      DS.rows = rend - rstart ∧ DS.columns = cend - cstart ∧
      ∀ i j, i < rend - rstart → j < cend - cstart →
        DS.cell i j = DA.cell (rstart + i) (cstart + j) := by
  have e1 := get_sub_mat_count_spec h rstart rend cstart cend hr1 hr2
  obtain ⟨sd, d1, _, d3⟩ := get_sub_mat_data_spec h rstart rend cstart cend hr1 hr2
  obtain ⟨s, p1, inv⟩ := get_sub_mat_ptr_spec h rstart rend cstart cend hr1 hr2 hU.1 hU.2
  have hrun : A.get_sub_mat NEXCEPT rstart rend cstart cend = Outcome.done
      { ctor_mn (rend - rstart) (cend - cstart) with
        _ptr := s.ptr, _indices := s.indices, _data := sd.1,
        _nnz := subCnt A cstart cend (A.P rstart) (A.P rend) } := by
    unfold get_sub_mat
    dsimp only
    rw [if_neg (fun c => by omega), if_neg (fun c => by omega), e1]
    simp only [Option.some_bind]
    rw [d1]
    simp only [Option.some_bind]
    rw [p1, usub_of_le hr1 hU.1, usub_of_le hc1 hU.2]
    rfl
  generalize hS : ({ ctor_mn (rend - rstart) (cend - cstart) with
        _ptr := s.ptr, _indices := s.indices, _data := sd.1,
        _nnz := subCnt A cstart cend (A.P rstart) (A.P rend) } : SPARSEMATRIXN) = S at hrun
  have s1 : S._rows = rend - rstart := by rw [← hS]; rfl
  have s2 : S._columns = cend - cstart := by rw [← hS]; rfl
  have s3 : S._nnz = subCnt A cstart cend (A.P rstart) (A.P rend) := by rw [← hS]
  have s4 : S._ptr = s.ptr := by rw [← hS]
  have s5 : S._indices = s.indices := by rw [← hS]
  have s6 : S._data = sd.1 := by rw [← hS]
  obtain ⟨hvalid, hstored, hentry⟩ := get_sub_mat_arrays (S := S) h rstart rend cstart cend
    hr1 hr2 s1 s2 s3 (by rw [s4]; exact inv.ptr_done) (by rw [s5]; exact inv.cells)
    (by rw [s6]; exact d3)
  obtain ⟨DA, a1, _, _, a4⟩ := to_dense_spec A m1 h
  obtain ⟨DS, b1, b2, b3, b4⟩ := to_dense_spec S m2 hvalid
  refine ⟨S, DA, DS, hrun, hvalid, s1, s2, ?_, hstored, a1, b1, by rw [b2, s1],
    by rw [b3, s2], ?_⟩
  · rw [s3, h.subCnt_rows cstart cend rstart rend hr1 hr2]
    apply Finset.sum_congr rfl
    intro r hr
    have hr := Finset.mem_Ico.mp hr
    exact h.subCnt_row cstart cend (by omega)
  · intro i j hi hj
    rw [b4, a4, if_pos (by rw [s1]; exact hi), if_pos (by omega)]
    exact hentry i j hi hj

/-- The statement of `get_sub_mat_spec` at `sampleF`, rows `[1, 3)` and columns `[1, 4)`. -/
theorem get_sub_mat_spec_witness :
    ∃ S DA DS, sampleF.get_sub_mat false 1 3 1 4 = Outcome.done S ∧ Valid S ∧
      S._rows = 3 - 1 ∧ S._columns = 4 - 1 ∧
      S._nnz = (∑ r ∈ Finset.Ico 1 3, ∑ c ∈ Finset.Ico 1 4,
        if stored sampleF r c then 1 else 0) ∧
      (∀ i j, i < 3 - 1 →
        (stored S i j ↔ (j < 4 - 1 ∧ stored sampleF (1 + i) (1 + j)))) ∧
      sampleF.to_dense (MATRIXN.set_zero 0 0) = some DA ∧
      S.to_dense (MATRIXN.set_zero 0 0) = some DS ∧
      DS.rows = 3 - 1 ∧ DS.columns = 4 - 1 ∧
      ∀ i j, i < 3 - 1 → j < 4 - 1 → DS.cell i j = DA.cell (1 + i) (1 + j) :=
  get_sub_mat_spec false sampleF 1 3 1 4 (MATRIXN.set_zero 0 0) (MATRIXN.set_zero 0 0)
    (by decide) (by decide) (by decide) (by decide) (by decide) (by decide)

/-- C22 (failing input): on the valid 3 × 3 matrix `sampleG`, whose row 0 stores two values,
`set_row(0, [5,0,0])` shrinks row 0 to one value.  The call returns with `nnz = 1` and offsets
`[0,1,1,2]`: the offsets 1 and 2 are changed by `-1`, the offset 3 (`= rows`) is not, because
the offsets updated are those up to index `nnz`, not up to index `rows`; the result has
`rowOffsets[rows] = 2 ≠ nnz` and is not valid.  On the valid 1 × 3 matrix `sampleH`, where
`nnz = 3 > rows`, the same update runs past the two cells of the offset array (undefined). -/
theorem set_row_offsets_updated_up_to_nnz :
    Valid sampleG ∧
    set_row (1 / 100000000) false sampleG 0 [5, 0, 0] = Outcome.done sampleG_after ∧
    rd sampleG._ptr 3 = some 2 ∧ rd sampleG_after._ptr 3 = some 2 ∧
    sampleG_after._nnz = 1 ∧ sampleG_after.P sampleG_after._rows ≠ sampleG_after._nnz ∧
    ¬ Valid sampleG_after ∧
    Valid sampleH ∧
    set_row (1 / 100000000) false sampleH 0 [4, 0, 0] = Outcome.undefined := by
  refine ⟨by decide, by decide!, rfl, rfl, rfl, by decide, by decide, by decide, by decide!⟩

/-- C25 (failing input): on the default-constructed matrix, `operator*=` and `negate` evaluate
their loop bound `_ptr[_rows]`, element 0 of the null offset array, which is undefined;
`to_dense` reads no offset and returns the `0 × 0` dense matrix. -/
theorem default_matrix_scale_negate_undefined :
    ctor._rows = 0 ∧ rd ctor._ptr ctor._rows = none ∧
    (∀ s : REAL, ctor.operator_times_eq s = none) ∧
    ctor.negate = none ∧
    (∀ m : MATRIXN, ctor.to_dense m = some (MATRIXN.set_zero 0 0)) := by
  refine ⟨rfl, rfl, fun s => rfl, rfl, fun m => rfl⟩

/-- When every position stored in `B` is stored in `A`, the count of the first pass is the
number of stored entries of `A`. -/
theorem uoff_of_stored_subset {A B : SPARSEMATRIXN} (hA : Valid A)
    (hsub : ∀ i j, i < A._rows → stored B i j → stored A i j) :
    uoff A B A._rows = A.P A._rows := by
  unfold uoff
  rw [← hA.sum_row_lengths (le_refl _)]
  apply Finset.sum_congr rfl
  intro r hr
  have hr := Finset.mem_range.mp hr
  rw [← hA.card_stored hr]
  unfold ucnt
  congr 1
  apply Finset.filter_congr
  intro c _
  exact ⟨fun h => h.elim id (hsub r c hr), Or.inl⟩

/-- The in-place path of `operator+=` and `operator-=`: only `_data` changes, and each stored
value receives the (sign-adjusted) entry of `B` at its position. -/
theorem addSub_fast (comb : REAL → REAL → REAL) (solo : REAL → REAL)
    (hcomb : ∀ a b, comb a b = a + solo b) (hsolo : solo 0 = 0) (NEXCEPT : Bool)
    {A B : SPARSEMATRIXN} (hA : Valid A) (hB : Valid B) (hr : A._rows = B._rows)
    (hc : A._columns = B._columns)
    (hsub : ∀ i j, i < A._rows → stored B i j → stored A i j) :
    ∃ d, addSub comb solo NEXCEPT A B = Outcome.done { A with _data := d } ∧
      ∀ r, r < A._rows → ∀ k, A.P r ≤ k → k < A.P (r + 1) →
        rd d k = some (A.V k + solo (B.entry r (A.I k))) := by
  unfold addSub
  rw [if_neg (by simp [hr, hc]), countUnion_spec hA hB hr, hA.rd_ptr (le_refl _)]
  simp only [Option.some_bind]
  rw [if_pos (uoff_of_stored_subset hA hsub)]
  obtain ⟨s, hs, hd⟩ := fastPath_spec comb solo hcomb hsolo hA hB hr hsub
  rw [hs]
  exact ⟨s.1, rfl, hd⟩

/-- C23: for valid sparse matrices `A` and `B` with equal dimensions, the count `nz` of the
first pass of `operator+=` and `operator-=` equals `rowOffsets[rows]` of `A` (the test that
selects the in-place path) if and only if every position stored in `B` is also stored in `A`;
on that path both operators return `A` with only its value array changed: row offsets, column
indices, `nnz`, dimensions and capacities are those of `A`, the value at a stored position
`(r,c)` becomes the old value plus (minus) the entry of `B` at `(r,c)`, and the value at a
position not stored in `B` is unchanged. -/
theorem fast_path_iff_containment (NEXCEPT : Bool) (A B : SPARSEMATRIXN)
    (hA : Valid A) (hB : Valid B) (hr : A._rows = B._rows) (hc : A._columns = B._columns) :
    ∃ nz, countUnion A B = some nz ∧ rd A._ptr A._rows = some (A.P A._rows) ∧
      (nz = A.P A._rows ↔ ∀ i j, i < A._rows → stored B i j → stored A i j) ∧
      (nz = A.P A._rows →
        ∃ d1 d2, operator_plus_eq NEXCEPT A B = Outcome.done { A with _data := d1 } ∧
          operator_minus_eq NEXCEPT A B = Outcome.done { A with _data := d2 } ∧
          ∀ r, r < A._rows → ∀ k, A.P r ≤ k → k < A.P (r + 1) →
            rd d1 k = some (A.V k + B.entry r (A.I k)) ∧
            rd d2 k = some (A.V k - B.entry r (A.I k)) ∧
            (¬ stored B r (A.I k) → rd d1 k = rd A._data k ∧ rd d2 k = rd A._data k)) := by
  have hiff : uoff A B A._rows = A.P A._rows ↔
      ∀ i j, i < A._rows → stored B i j → stored A i j :=
    ⟨fun h i j hi hs => stored_subset_of_count hA hB hr hc h hi hs,
      fun h => uoff_of_stored_subset hA h⟩
  refine ⟨_, countUnion_spec hA hB hr, hA.rd_ptr (le_refl _), hiff, ?_⟩
  intro hfast
  have hsub := hiff.mp hfast
  obtain ⟨d1, p1, p2⟩ := addSub_fast (fun a b => a + b) (fun b => b) (fun _ _ => rfl) rfl
    NEXCEPT hA hB hr hc hsub
  obtain ⟨d2, m1, m2⟩ := addSub_fast (fun a b => a - b) (fun b => -b)
    (fun a b => sub_eq_add_neg a b) neg_zero NEXCEPT hA hB hr hc hsub
  refine ⟨d1, d2, p1, m1, ?_⟩
  intro r hr1 k k1 k2
  have hk : k < A._nnz := lt_of_lt_of_le k2 (hA.P_le_nnz (by omega))
  refine ⟨p2 r hr1 k k1 k2, ?_, ?_⟩
  · rw [m2 r hr1 k k1 k2, sub_eq_add_neg]
  · intro nB
    rw [p2 r hr1 k k1 k2, m2 r hr1 k k1 k2, entry_of_not_stored nB, hA.rd_data hk]
    simp

/-- The statement of `fast_path_iff_containment` at `sampleA` and `sampleD`. -/
theorem fast_path_iff_containment_witness :
    ∃ nz, countUnion sampleA sampleD = some nz ∧
      rd sampleA._ptr sampleA._rows = some (sampleA.P sampleA._rows) ∧
      (nz = sampleA.P sampleA._rows ↔
        ∀ i j, i < sampleA._rows → stored sampleD i j → stored sampleA i j) ∧
      (nz = sampleA.P sampleA._rows →
        ∃ d1 d2, operator_plus_eq false sampleA sampleD
            = Outcome.done { sampleA with _data := d1 } ∧
          operator_minus_eq false sampleA sampleD
            = Outcome.done { sampleA with _data := d2 } ∧
          ∀ r, r < sampleA._rows → ∀ k, sampleA.P r ≤ k → k < sampleA.P (r + 1) →
            rd d1 k = some (sampleA.V k + sampleD.entry r (sampleA.I k)) ∧
            rd d2 k = some (sampleA.V k - sampleD.entry r (sampleA.I k)) ∧
            (¬ stored sampleD r (sampleA.I k) →
              rd d1 k = rd sampleA._data k ∧ rd d2 k = rd sampleA._data k)) :=
  fast_path_iff_containment false sampleA sampleD (by decide) (by decide) (by decide)
    (by decide)

/-- One turn of the pass filling `nindices` and `ndata`: a position stored in either operand is
appended at slot `nz` with its column index, any other position leaves the state as it is. -/
theorem rebuildData_step_indices (comb : REAL → REAL → REAL) (solo : REAL → REAL)
    {A B : SPARSEMATRIXN} (hA : Valid A) (hB : Valid B) (hr : A._rows = B._rows)
    {i : Nat} (hi : i < A._rows) {j : Nat} (hj : j < A._columns) (s : Merged)
    (hinv : RebuildInv solo A B i j s) :
    ∃ s', ((findInRow A i j).bind fun f =>
          (match f with
            | some k =>
              (rd A._data k).bind fun x =>
              (wr s.ndata s.nz x).bind fun nd =>
              (rd A._indices k).bind fun c =>
              (wr s.nindices s.nz c).bind fun ni =>
              some ({ s with nindices := ni, ndata := nd }, true)
            | none => some (s, false)).bind fun (sf : Merged × Bool) =>
          (findInRow B i j).bind fun g =>
          (match g with
            | some k =>
              if sf.2 then
                (rd sf.1.ndata sf.1.nz).bind fun old =>
                (rd B._data k).bind fun b =>
                (wr sf.1.ndata sf.1.nz (comb old b)).bind fun nd =>
                some ({ sf.1 with ndata := nd }, true)
              else
                (rd B._data k).bind fun b =>
                (wr sf.1.ndata sf.1.nz (solo b)).bind fun nd =>
                (rd B._indices k).bind fun c =>
                (wr sf.1.nindices sf.1.nz c).bind fun ni =>
                some ({ sf.1 with nindices := ni, ndata := nd }, true)
            | none => some sf).bind fun (sg : Merged × Bool) =>
          some (if sg.2 then { sg.1 with nz := sg.1.nz + 1 } else sg.1)) = some s' ∧
      ((stored A i j ∨ stored B i j) → s'.nz = s.nz + 1 ∧ rd s'.nindices s.nz = some j ∧
        ∀ k, k ≠ s.nz → rd s'.nindices k = rd s.nindices k) ∧
      (¬ (stored A i j ∨ stored B i j) → s' = s) := by
  obtain ⟨f, hf, hf1, hf2⟩ := findInRow_spec hA hi j
  obtain ⟨g, hg, hg1, hg2⟩ := findInRow_spec hB (i := i) (by omega) j
  rw [hf]
  simp only [Option.some_bind]
  cases f with
  | some ka =>
    obtain ⟨a1, a2, a3⟩ := hf1 ka rfl
    have hU : stored A i j ∨ stored B i j := Or.inl (stored_of_slot a1 a2 a3)
    have hka : ka < A._nnz := lt_of_lt_of_le a2 (hA.P_le_nnz (by omega))
    have hnz := hinv.nz_lt_total hi hj hU
    have l1 : s.nz < s.ndata.length := by rw [hinv.len_d]; exact hnz
    have l2 : s.nz < s.nindices.length := by rw [hinv.len_i]; exact hnz
    simp only [hA.rd_data hka, hA.rd_indices hka, Option.some_bind, wr_of_lt _ _ l1,
      wr_of_lt _ _ l2, hg]
    cases g with
    | some kb =>
      obtain ⟨b1, b2, b3⟩ := hg1 kb rfl
      have hkb : kb < B._nnz := lt_of_lt_of_le b2 (hB.P_le_nnz (by omega))
      have l3 : s.nz < (s.ndata.set s.nz (some (A.V ka))).length := by simpa using l1
      simp only [if_true, rd_set_same _ _ l1, hB.rd_data hkb, Option.some_bind,
        wr_of_lt _ _ l3]
      refine ⟨_, rfl, fun _ => ⟨rfl, ?_, ?_⟩, fun n => absurd hU n⟩
      · simp only; rw [rd_set_same _ _ l2, a3]
      · intro k hk; simp only; rw [rd_set_other _ _ hk]
    | none =>
      simp only [Option.some_bind, if_true]
      refine ⟨_, rfl, fun _ => ⟨rfl, ?_, ?_⟩, fun n => absurd hU n⟩
      · simp only; rw [rd_set_same _ _ l2, a3]
      · intro k hk; simp only; rw [rd_set_other _ _ hk]
  | none =>
    simp only [Option.some_bind, hg]
    cases g with
    | some kb =>
      obtain ⟨b1, b2, b3⟩ := hg1 kb rfl
      have hU : stored A i j ∨ stored B i j := Or.inr (stored_of_slot b1 b2 b3)
      have hkb : kb < B._nnz := lt_of_lt_of_le b2 (hB.P_le_nnz (by omega))
      have hnz := hinv.nz_lt_total hi hj hU
      have l1 : s.nz < s.ndata.length := by rw [hinv.len_d]; exact hnz
      have l2 : s.nz < s.nindices.length := by rw [hinv.len_i]; exact hnz
      simp only [Bool.false_eq_true, if_false, hB.rd_data hkb, hB.rd_indices hkb,
        Option.some_bind, wr_of_lt _ _ l1, wr_of_lt _ _ l2, if_true]
      refine ⟨_, rfl, fun _ => ⟨rfl, ?_, ?_⟩, fun n => absurd hU n⟩
      · simp only; rw [rd_set_same _ _ l2, b3]
      · intro k hk; simp only; rw [rd_set_other _ _ hk]
    | none =>
      simp only [Option.some_bind, Bool.false_eq_true, if_false]
      exact ⟨_, rfl, fun h => absurd h (fun c => c.elim (hf2 rfl) (hg2 rfl)), fun _ => rfl⟩

/-- Appending position `(i,j)` keeps the membership invariant. -/
theorem RebuildMem_push {solo : REAL → REAL} {A B : SPARSEMATRIXN} {i j : Nat}
    {s s' : Merged} (h : RebuildMem A B i j s) (hinv : RebuildInv solo A B i j s)
    (hU : stored A i j ∨ stored B i j) (hnz : s'.nz = s.nz + 1)
    (hi1 : rd s'.nindices s.nz = some j)
    (hi2 : ∀ k, k ≠ s.nz → rd s'.nindices k = rd s.nindices k) :
    RebuildMem A B i (j + 1) s' := by
  have Ieq : ∀ k, k ≠ s.nz → s'.Ix k = s.Ix k := fun k hk => by
    unfold Merged.Ix; rw [hi2 k hk]
  have Inz : s'.Ix s.nz = j := by unfold Merged.Ix; rw [hi1]; rfl
  have hbase : uoff A B i ≤ s.nz := by rw [hinv.nz_eq]; omega
  constructor
  · intro r hr c
    have := uoff_mono A B (show r + 1 ≤ i by omega)
    rw [← h.mem_done r hr c]
    constructor
    · rintro ⟨k, k1, k2, k3⟩
      rw [Ieq k (by omega)] at k3
      exact ⟨k, k1, k2, k3⟩
    · rintro ⟨k, k1, k2, k3⟩
      exact ⟨k, k1, k2, by rw [Ieq k (by omega)]; exact k3⟩
  · intro c
    constructor
    · rintro ⟨k, k1, k2, k3⟩
      rw [hnz] at k2
      by_cases q : k = s.nz
      · rw [q, Inz] at k3
        subst k3
        exact ⟨Nat.lt_succ_self _, hU⟩
      · rw [Ieq k q] at k3
        have := (h.mem_cur c).mp ⟨k, k1, by omega, k3⟩
        exact ⟨by omega, this.2⟩
    · rintro ⟨c1, c2⟩
      by_cases q : c = j
      · subst q
        exact ⟨s.nz, hbase, by omega, Inz⟩
      · obtain ⟨k, k1, k2, k3⟩ := (h.mem_cur c).mpr ⟨by omega, c2⟩
        exact ⟨k, k1, by omega, by rw [Ieq k (by omega)]; exact k3⟩

/-- Skipping a position stored in neither operand keeps the membership invariant. -/
theorem RebuildMem_skip {A B : SPARSEMATRIXN} {i j : Nat} {s : Merged}
    (h : RebuildMem A B i j s) (hU : ¬ (stored A i j ∨ stored B i j)) :
    RebuildMem A B i (j + 1) s := by
  refine ⟨h.mem_done, ?_⟩
  intro c
  rw [h.mem_cur c]
  constructor
  · rintro ⟨c1, c2⟩
    exact ⟨by omega, c2⟩
  · rintro ⟨c1, c2⟩
    refine ⟨?_, c2⟩
    rcases Nat.eq_or_lt_of_le (Nat.lt_succ_iff.mp c1) with q | q
    · subst q; exact absurd c2 hU
    · exact q

/-- A completed row joins the rows below (membership invariant). -/
theorem RebuildMem_next_row {solo : REAL → REAL} {A B : SPARSEMATRIXN} {i : Nat} {s : Merged}
    (h : RebuildMem A B i A._columns s) (hinv : RebuildInv solo A B i A._columns s)
    (hcols : ∀ c, stored A i c ∨ stored B i c → c < A._columns) :
    RebuildMem A B (i + 1) 0 s := by
  have e : s.nz = uoff A B (i + 1) := by rw [hinv.nz_eq, uoff_succ]
  constructor
  · intro r hr c
    rcases Nat.eq_or_lt_of_le (Nat.lt_succ_iff.mp hr) with q | q
    · subst q
      rw [← e, h.mem_cur c]
      exact ⟨fun a => a.2, fun a => ⟨hcols c a, a⟩⟩
    · exact h.mem_done r q c
  · intro c
    constructor
    · rintro ⟨k, k1, k2, _⟩
      omega
    · rintro ⟨c1, _⟩
      omega

/-- The pass filling `nindices` and `ndata` is defined; each row of the result holds exactly
the columns stored in `A` or in `B`. -/
theorem rebuildData_mem_spec (comb : REAL → REAL → REAL) (solo : REAL → REAL)
    (hcomb : ∀ a b, comb a b = a + solo b) (hsolo : solo 0 = 0)
    {A B : SPARSEMATRIXN} (hA : Valid A) (hB : Valid B) (hr : A._rows = B._rows)
    (hc : A._columns = B._columns) :
    ∃ s, rebuildData comb solo A B (uoff A B A._rows) = some s ∧
      RebuildInv solo A B A._rows 0 s ∧ RebuildMem A B A._rows 0 s := by
  have hstep : ∀ i, i < A._rows → ∀ j, j < A._columns → ∀ s : Merged,
      RebuildInv solo A B i j s ∧ RebuildMem A B i j s →
      ∃ s', ((findInRow A i j).bind fun f =>
          (match f with
            | some k =>
              (rd A._data k).bind fun x =>
              (wr s.ndata s.nz x).bind fun nd =>
              (rd A._indices k).bind fun c =>
              (wr s.nindices s.nz c).bind fun ni =>
              some ({ s with nindices := ni, ndata := nd }, true)
            | none => some (s, false)).bind fun (sf : Merged × Bool) =>
          (findInRow B i j).bind fun g =>
          (match g with
            | some k =>
              if sf.2 then
                (rd sf.1.ndata sf.1.nz).bind fun old =>
                (rd B._data k).bind fun b =>
                (wr sf.1.ndata sf.1.nz (comb old b)).bind fun nd =>
                some ({ sf.1 with ndata := nd }, true)
              else
                (rd B._data k).bind fun b =>
                (wr sf.1.ndata sf.1.nz (solo b)).bind fun nd =>
                (rd B._indices k).bind fun c =>
                (wr sf.1.nindices sf.1.nz c).bind fun ni =>
                some ({ sf.1 with nindices := ni, ndata := nd }, true)
            | none => some sf).bind fun (sg : Merged × Bool) =>
          some (if sg.2 then { sg.1 with nz := sg.1.nz + 1 } else sg.1)) = some s' ∧
        (RebuildInv solo A B i (j + 1) s' ∧ RebuildMem A B i (j + 1) s') := by
    intro i hi j hj s ⟨hinv, hmem⟩
    obtain ⟨s1, e1, inv1⟩ := rebuildData_step comb solo hcomb hsolo hA hB hr hi hj s hinv
    obtain ⟨s2, e2, sh1, sh2⟩ := rebuildData_step_indices comb solo hA hB hr hi hj s hinv
    have es : s2 = s1 := Option.some.inj (e2.symm.trans e1)
    subst es
    refine ⟨s2, e1, inv1, ?_⟩
    by_cases hU : stored A i j ∨ stored B i j
    · obtain ⟨p1, p2, p3⟩ := sh1 hU
      exact RebuildMem_push hmem hinv hU p1 p2 p3
    · rw [sh2 hU]
      exact RebuildMem_skip hmem hU
  unfold rebuildData
  have key := loopFrom_inv
    (fun i s =>
      loopFrom (fun j (s : Merged) =>
          (findInRow A i j).bind fun f =>
          (match f with
            | some k =>
              (rd A._data k).bind fun x =>
              (wr s.ndata s.nz x).bind fun nd =>
              (rd A._indices k).bind fun c =>
              (wr s.nindices s.nz c).bind fun ni =>
              some ({ s with nindices := ni, ndata := nd }, true)
            | none => some (s, false)).bind fun (sf : Merged × Bool) =>
          (findInRow B i j).bind fun g =>
          (match g with
            | some k =>
              if sf.2 then
                (rd sf.1.ndata sf.1.nz).bind fun old =>
                (rd B._data k).bind fun b =>
                (wr sf.1.ndata sf.1.nz (comb old b)).bind fun nd =>
                some ({ sf.1 with ndata := nd }, true)
              else
                (rd B._data k).bind fun b =>
                (wr sf.1.ndata sf.1.nz (solo b)).bind fun nd =>
                (rd B._indices k).bind fun c =>
                (wr sf.1.nindices sf.1.nz c).bind fun ni =>
                some ({ sf.1 with nindices := ni, ndata := nd }, true)
            | none => some sf).bind fun (sg : Merged × Bool) =>
          some (if sg.2 then { sg.1 with nz := sg.1.nz + 1 } else sg.1))
        0 A._columns s)
    (fun i s => RebuildInv solo A B i 0 s ∧ RebuildMem A B i 0 s) 0 A._rows ?_
    { nindices := newArray Nat (uoff A B A._rows), ndata := newArray REAL (uoff A B A._rows),
      nz := 0 } ?_
  · obtain ⟨s, h1, h2⟩ := key
    rw [Nat.zero_add] at h2
    exact ⟨s, h1, h2⟩
  · intro i s _ hi hinv
    have hi : i < A._rows := by omega
    dsimp only
    have inner := loopFrom_inv _
      (fun j s => RebuildInv solo A B i j s ∧ RebuildMem A B i j s) 0 A._columns
      (fun j s _ hj hinv => hstep i hi j (by omega) s hinv) s hinv
    obtain ⟨s1, g1, g2, g3⟩ := inner
    rw [Nat.zero_add] at g2 g3
    have nA : ∀ c, A._columns ≤ c → ¬ stored A i c := fun c hcc h => by
      have := hA.stored_lt hi h; omega
    have nB : ∀ c, A._columns ≤ c → ¬ stored B i c := fun c hcc h => by
      have := hB.stored_lt (i := i) (by omega) h; omega
    refine ⟨s1, g1, g2.next_row ?_, RebuildMem_next_row g3 g2 ?_⟩
    · intro c hcc
      rw [entry_of_not_stored (nA c hcc), entry_of_not_stored (nB c hcc), hsolo, add_zero]
    · intro c hU
      by_contra q
      exact hU.elim (nA c (by omega)) (nB c (by omega))
  · refine ⟨⟨by simp [newArray], by simp [newArray], by simp [uoff_zero, ucnt_zero], ?_, ?_, ?_,
      ?_, ?_, ?_⟩, ?_, ?_⟩
    · intro k hk; simp at hk
    · intro r hr1; omega
    · intro k _ hk; simp at hk
    · intro k _ hk; simp at hk
    · intro r hr1; omega
    · intro c; simp [uoff_zero]
    · intro r hr1; omega
    · intro c
      constructor
      · rintro ⟨k, _, k2, _⟩
        simp at k2
      · rintro ⟨c1, _⟩
        omega

/-- The rebuild path of `operator+=` and `operator-=`: the call returns a valid matrix with
the dimensions of `A`, whose `nnz` is the number of positions stored in `A` or in `B` and whose
rows store exactly those positions. -/
theorem addSub_rebuild (comb : REAL → REAL → REAL) (solo : REAL → REAL)
    (hcomb : ∀ a b, comb a b = a + solo b) (hsolo : solo 0 = 0) (NEXCEPT : Bool)
    {A B : SPARSEMATRIXN} (hA : Valid A) (hB : Valid B) (hr : A._rows = B._rows)
    (hc : A._columns = B._columns) (hne : uoff A B A._rows ≠ A.P A._rows) :
    ∃ A', addSub comb solo NEXCEPT A B = Outcome.done A' ∧ Valid A' ∧
      A'._rows = A._rows ∧ A'._columns = A._columns ∧ A'._nnz = uoff A B A._rows ∧
      ∀ r c, r < A._rows → (stored A' r c ↔ (stored A r c ∨ stored B r c)) := by
  unfold addSub
  rw [if_neg (by simp [hr, hc]), countUnion_spec hA hB hr, hA.rd_ptr (le_refl _)]
  simp only [Option.some_bind]
  rw [if_neg hne]
  obtain ⟨nptr, hp, hpr⟩ := rebuildPtr_spec hA hB hr
  obtain ⟨s, hs, hinv, hmem⟩ := rebuildData_mem_spec comb solo hcomb hsolo hA hB hr hc
  rw [hp, hs]
  simp only [Option.some_bind, Outcome.ofOption]
  have hnz : s.nz = uoff A B A._rows := by rw [hinv.nz_eq, ucnt_zero]; rfl
  have hP : ∀ i, i ≤ A._rows → SPARSEMATRIXN.P
      { A with _ptr := nptr, _indices := s.nindices, _data := s.ndata, _nnz := s.nz } i
        = uoff A B i := by
    intro i hi
    show (rd nptr i).getD 0 = _
    rw [hpr i hi]; rfl
  have hV : Valid
      { A with _ptr := nptr, _indices := s.nindices, _data := s.ndata, _nnz := s.nz } := by
    refine ⟨?_, ?_, ?_, ?_, ?_, ?_, ?_⟩
    · intro i hi
      show (rd nptr i).isSome = true
      rw [hpr i (by simp at hi; omega)]; rfl
    · rw [hP 0 (Nat.zero_le _), uoff_zero]
    · intro i hi
      rw [hP i (le_of_lt hi), hP (i + 1) hi]
      exact uoff_mono A B (Nat.le_succ i)
    · rw [hP _ (le_refl _)]; exact hnz.symm
    · intro k hk
      exact ⟨(hinv.init k hk).1, (hinv.init k hk).2.1⟩
    · intro i hi k _ a b
      rw [hP i (le_of_lt hi)] at a
      rw [hP (i + 1) hi] at b
      exact hinv.asc_done i hi k a b
    · intro k hk
      exact (hinv.init k hk).2.2
  refine ⟨_, rfl, hV, rfl, rfl, hnz, ?_⟩
  intro r c hr1
  rw [← hmem.mem_done r hr1 c]
  unfold stored
  rw [hP r (le_of_lt hr1), hP (r + 1) hr1]
  constructor
  · rintro ⟨k, k1, k2⟩
    have k1 := Finset.mem_Ico.mp k1
    exact ⟨k, k1.1, k1.2, k2⟩
  · rintro ⟨k, k1, k2, k3⟩
    exact ⟨k, Finset.mem_Ico.mpr ⟨k1, k2⟩, k3⟩

theorem Outcome.ofOption_eq_done {σ : Type} (o : Option σ) (a : σ) :
    Outcome.ofOption o = Outcome.done a ↔ o = some a := by
  cases o <;> simp [Outcome.ofOption]

theorem set_fields {A A' : SPARSEMATRIXN} {m n : Nat} {values : ValueMap}
    (h : A.set m n values = some A') :
    A'._rows = m ∧ A'._nnz = values.length ∧ A'._nnz_capacity = values.length ∧
      A'._row_capacity = uadd m 1 := by
  unfold set at h
  simp only [Option.bind_eq_some] at h
  obtain ⟨data, _, ptr, _, st, _, e⟩ := h
  cases e
  exact ⟨rfl, rfl, rfl, rfl⟩

theorem set_column_fields {EPS : REAL} {A A' : SPARSEMATRIXN} {col : Nat} {v : VECTORN}
    (h : A.set_column EPS col v = some A') :
    A'._rows = A._rows ∧ A'._nnz = A'._nnz_capacity ∧
      A'._row_capacity = uadd A._rows 1 := by
  unfold set_column at h
  simp only [Option.bind_eq_some] at h
  obtain ⟨v0, _, v1, _, v2, _, e⟩ := h
  obtain ⟨e1, e2, e3, e4⟩ := set_fields e
  exact ⟨e1, e2.trans e3.symm, e4⟩

theorem set_capacities_fields {A A' : SPARSEMATRIXN} {c r : Nat}
    (h : A.set_capacities c r true = some A') :
    A'._rows = A._rows ∧ A'._nnz = A._nnz ∧ A'._nnz_capacity = max c A._nnz_capacity ∧
      A'._row_capacity = max (uadd r 1) A._row_capacity := by
  unfold set_capacities at h
  dsimp only at h
  rw [if_neg (by decide)] at h
  obtain ⟨d, _, h⟩ := Option.bind_eq_some.mp h
  obtain ⟨p, _, h⟩ := Option.bind_eq_some.mp h
  obtain ⟨ix, _, h⟩ := Option.bind_eq_some.mp h
  cases h
  exact ⟨rfl, rfl, rfl, rfl⟩

theorem set_row_fields {EPS : REAL} {NEXCEPT : Bool} {A A' : SPARSEMATRIXN} {row : Nat}
    {v : VECTORN} (hcap : A._nnz ≤ A._nnz_capacity) (hU : A._nnz < UMOD)
    (h : set_row EPS NEXCEPT A row v = Outcome.done A') :
    A'._rows = A._rows ∧ A'._nnz ≤ A'._nnz_capacity ∧ A._row_capacity ≤ A'._row_capacity := by
  unfold set_row at h
  by_cases c0 : NEXCEPT = false ∧ row ≥ A._rows
  · rw [if_pos c0] at h
    exact absurd h (by simp)
  · rw [if_neg c0, Outcome.ofOption_eq_done] at h
    dsimp only at h
    obtain ⟨hi, _, h⟩ := Option.bind_eq_some.mp h
    obtain ⟨lo, _, h⟩ := Option.bind_eq_some.mp h
    obtain ⟨A1, hb, h⟩ := Option.bind_eq_some.mp h
    obtain ⟨j, _, h⟩ := Option.bind_eq_some.mp h
    obtain ⟨s, _, h⟩ := Option.bind_eq_some.mp h
    cases h
    show A1._rows = A._rows ∧ A1._nnz ≤ A1._nnz_capacity ∧ A._row_capacity ≤ A1._row_capacity
    generalize List.countP (fun x => decide (x > EPS ∨ x < -EPS)) v = nv at hb
    generalize usub hi lo = nr at hb
    by_cases c1 : nv > nr
    · rw [if_pos c1] at hb
      obtain ⟨A0, h0, hb⟩ := Option.bind_eq_some.mp hb
      obtain ⟨p, _, hb⟩ := Option.bind_eq_some.mp hb
      obtain ⟨d, _, hb⟩ := Option.bind_eq_some.mp hb
      obtain ⟨ix, _, hb⟩ := Option.bind_eq_some.mp hb
      obtain ⟨pt, _, hb⟩ := Option.bind_eq_some.mp hb
      cases hb
      show A0._rows = A._rows ∧ uadd A0._nnz (nv - nr) ≤ A0._nnz_capacity ∧
        A._row_capacity ≤ A0._row_capacity
      by_cases c2 : A._nnz_capacity < uadd A._nnz (nv - nr)
      · rw [if_pos c2] at h0
        obtain ⟨f1, f2, f3, f4⟩ := set_capacities_fields h0
        rw [f1, f2, f3, f4]
        exact ⟨rfl, le_max_left _ _, le_max_right _ _⟩
      · rw [if_neg c2] at h0
        cases h0
        exact ⟨rfl, by omega, le_refl _⟩
    · rw [if_neg c1] at hb
      by_cases c2 : nv < nr
      · rw [if_pos c2] at hb
        obtain ⟨p, _, hb⟩ := Option.bind_eq_some.mp hb
        by_cases c3 : p < nr - nv
        · rw [if_pos c3] at hb
          exact absurd hb (by simp)
        · rw [if_neg c3] at hb
          obtain ⟨d, hd, hb⟩ := Option.bind_eq_some.mp hb
          obtain ⟨ix, _, hb⟩ := Option.bind_eq_some.mp hb
          obtain ⟨pt, _, hb⟩ := Option.bind_eq_some.mp hb
          cases hb
          show A._rows = A._rows ∧ usub A._nnz (nr - nv) ≤ A._nnz_capacity ∧
            A._row_capacity ≤ A._row_capacity
          have hp : p ≤ A._nnz := by
            unfold copyWithin at hd
            by_contra q
            rw [if_neg (fun c => q c.1)] at hd
            exact absurd hd (by simp)
          rw [usub_of_le (by omega) hU]
          exact ⟨rfl, by omega, le_refl _⟩
      · rw [if_neg c2] at hb
        cases hb
        exact ⟨rfl, hcap, le_refl _⟩

/-- On a valid matrix that satisfies the capacity invariant, `set_capacities` with
`preserve = true` returns. -/
theorem set_capacities_returns {A : SPARSEMATRIXN} (hA : Valid A) (hcap : CapacityInv A)
    (c r : Nat) : ∃ A', A.set_capacities c r true = some A' := by
  have l1 : A._nnz ≤ (newArray REAL (max c A._nnz_capacity)).length := by
    have := hcap.1
    simp [newArray]; omega
  have l2 : A._rows + 1 ≤ (newArray Nat (max (uadd r 1) A._row_capacity)).length := by
    have := hcap.2
    simp [newArray]; omega
  have l3 : A._nnz ≤ (newArray Nat (max c A._nnz_capacity)).length := by
    have := hcap.1
    simp [newArray]; omega
  obtain ⟨d, d1, _⟩ := copyCells_prefix A._data _ A._nnz (fun k hk => (hA.2.2.2.2.1 k hk).2) l1
  obtain ⟨p, p1, _⟩ := copyCells_prefix A._ptr _ (A._rows + 1) hA.1 l2
  obtain ⟨x, x1, _⟩ := copyCells_prefix A._indices _ A._nnz
    (fun k hk => (hA.2.2.2.2.1 k hk).1) l3
  unfold set_capacities
  simp only [if_true, Bool.true_eq_false, if_false, d1, p1, x1, Option.some_bind]
  exact ⟨_, rfl⟩

/-- The fields that `operator+=` and `operator-=` leave as they are, on both paths. -/
theorem addSub_fields {comb : REAL → REAL → REAL} {solo : REAL → REAL} {NEXCEPT : Bool}
    {A B A' : SPARSEMATRIXN} (h : addSub comb solo NEXCEPT A B = Outcome.done A') :
    A'._rows = A._rows ∧ A'._row_capacity = A._row_capacity ∧
      A'._nnz_capacity = A._nnz_capacity := by
  unfold addSub at h
  by_cases c0 : NEXCEPT = false ∧ (A._rows ≠ B._rows ∨ A._columns ≠ B._columns)
  · rw [if_pos c0] at h
    exact absurd h (by simp)
  · rw [if_neg c0, Outcome.ofOption_eq_done] at h
    obtain ⟨nz, _, h⟩ := Option.bind_eq_some.mp h
    obtain ⟨last, _, h⟩ := Option.bind_eq_some.mp h
    by_cases c1 : nz = last
    · rw [if_pos c1] at h
      obtain ⟨s, _, h⟩ := Option.bind_eq_some.mp h
      cases h
      exact ⟨rfl, rfl, rfl⟩
    · rw [if_neg c1] at h
      obtain ⟨nptr, _, h⟩ := Option.bind_eq_some.mp h
      obtain ⟨s, _, h⟩ := Option.bind_eq_some.mp h
      cases h
      exact ⟨rfl, rfl, rfl⟩

/-- The member function `set_row` on a valid matrix, when the new row has as many values above
the tolerance as the row stores: neither branch shifts, the loop overwrites the slots of the
row, and the call returns with the sizes and capacities unchanged. -/
theorem set_row_same_count_returns (EPS : REAL) (NEXCEPT : Bool) {A : SPARSEMATRIXN}
    (hA : Valid A) (hU : A._nnz < UMOD) {row : Nat} (hr : row < A._rows) (w : VECTORN)
    (hc : (w.countP fun x => decide (x > EPS ∨ x < -EPS)) = A.P (row + 1) - A.P row) :
    ∃ X, set_row EPS NEXCEPT A row w = Outcome.done X ∧ X._rows = A._rows ∧
      X._nnz = A._nnz ∧ X._nnz_capacity = A._nnz_capacity ∧
      X._row_capacity = A._row_capacity := by
  have hlo : A.P row ≤ A.P (row + 1) := hA.P_mono (Nat.le_succ _) hr
  have hhi : A.P (row + 1) ≤ A._nnz := hA.P_le_nnz hr
  have hdl : ∀ k, k < A._nnz → k < A._data.length ∧ k < A._indices.length :=
    fun k hk => ⟨rd_lt (hA.rd_data hk), rd_lt (hA.rd_indices hk)⟩
  have key := loopFrom_inv
    (fun i (s : RowFill) =>
      (w.get? i).bind fun x =>
      if x > EPS ∨ x < -EPS then
        (wr s.data s.j x).bind fun d =>
        (wr s.indices s.j i).bind fun ix =>
        some { data := d, indices := ix, j := s.j + 1 }
      else some s)
    (fun i (s : RowFill) => s.data.length = A._data.length ∧
      s.indices.length = A._indices.length ∧
      s.j = A.P row + (w.take i).countP fun x => decide (x > EPS ∨ x < -EPS))
    0 w.length ?_ { data := A._data, indices := A._indices, j := A.P row }
    ⟨rfl, rfl, by simp⟩
  · obtain ⟨s, hs, _⟩ := key
    refine ⟨{ A with _data := s.data, _indices := s.indices }, ?_, rfl, rfl, rfl, rfl⟩
    unfold set_row
    rw [if_neg (by omega), Outcome.ofOption_eq_done]
    simp only [hA.rd_ptr (Nat.succ_le_of_lt hr), hA.rd_ptr (le_of_lt hr), Option.some_bind,
      usub_of_le hlo (lt_of_le_of_lt hhi hU), hc, gt_iff_lt, lt_irrefl, if_false, hs]
  · intro i s _ hi ⟨h1, h2, h3⟩
    have hi : i < w.length := by omega
    have hsub : ((w.take (i + 1)).countP fun x => decide (x > EPS ∨ x < -EPS)) ≤
        A.P (row + 1) - A.P row := by
      rw [← hc]
      exact (List.take_sublist _ _).countP_le _
    have htk : w.take (i + 1) = w.take i ++ [w[i]] := by
      rw [List.take_succ, List.getElem?_eq_getElem hi]; rfl
    have hget : w.get? i = some w[i] := by
      rw [List.get?_eq_getElem?, List.getElem?_eq_getElem hi]
    rw [htk, List.countP_append] at hsub
    dsimp only
    rw [hget, Option.some_bind]
    by_cases c : w[i] > EPS ∨ w[i] < -EPS
    · rw [if_pos c]
      have h1c : ([w[i]].countP fun x => decide (x > EPS ∨ x < -EPS)) = 1 := by
        simp [List.countP_cons, c]
      rw [h1c] at hsub
      have hj : s.j < A._nnz := by omega
      rw [wr_of_lt _ _ (by rw [h1]; exact (hdl _ hj).1), Option.some_bind,
        wr_of_lt _ _ (by rw [h2]; exact (hdl _ hj).2), Option.some_bind]
      refine ⟨_, rfl, by simpa using h1, by simpa using h2, ?_⟩
      show s.j + 1 = _
      rw [htk, List.countP_append, h1c, h3]
      omega
    · rw [if_neg c]
      refine ⟨_, rfl, h1, h2, ?_⟩
      have h0c : ([w[i]].countP fun x => decide (x > EPS ∨ x < -EPS)) = 0 := by
        simp [List.countP_cons, c]
      rw [htk, List.countP_append, h0c, h3]
      rfl

end SPARSEMATRIXN

end Ravelin
